import Mathlib

/-!
Verification development for the `ambre` association-rule mining library.

The definitions below are a shallow embedding of the Python sources:

* `ambre/helpers/strings.py` — the item string codec (`compress_string`,
  `decompress_string`);
* `ambre/itemsets_trie.py` — the itemsets trie (`ItemsetsTrie`,
  `ItemsetNode`) with insertion, removal and merging;
* `ambre/database.py` — the database layer (`insert_transaction`,
  `has_itemset`, `insert_transactions`, `insert_common_sense_rules`,
  `merge_database_pair`);
* `ambre/settings.py`, `ambre/prepostprocessing.py`,
  `ambre/common_sense_rule.py` — settings, normalization and
  common-sense rules.

Modelling conventions, used throughout:

* Python strings are modelled by Lean `String`/`List Char`; comparisons are
  by code point, exactly as in Python.  Case folding and lowering are
  modelled for the ASCII fragment (`Char.toLower` agrees with Python
  `str.lower`/`str.casefold` on ASCII, which covers all inputs used in the
  development).
* The `Database` constructor passes `item_alphabet=None` by default, which
  makes `compress_string`/`decompress_string` the identity; the trie layer
  is therefore embedded directly on uncompressed item strings.  The codec
  itself is embedded separately, with an explicit alphabet.
* Python `dict`s preserve insertion order; node children are therefore
  modelled as ordered association lists.  `ItemsetNode.get_or_create_child`
  keeps siblings sorted by the key `(not is_consequent, decompressed item)`
  using the stable built-in `list.sort`; on the key-distinct lists that
  arise here (dictionary keys are unique and the item determines the sort
  key) every comparison sort computes the same list, and we use
  `List.insertionSort`, which the kernel can evaluate.
* The source walks the insertion worklist and the merge stack through
  `deque`s holding mutable node references; the embedding performs the same
  per-node updates by structural recursion.  The per-path effects
  (increments of `occurrences`, child creation in sorted position) commute,
  so the final trie is the same.
* Python exceptions are modelled by `Except PyErr`; each `ValueError` site
  of the source is mapped to one `PyErr` constructor.
* `occurrences` is a Python `int`; it is modelled as `Nat`.  The removal
  code deletes a child after decrementing it to 0, which on a trie whose
  nodes all carry positive counters (an invariant proved below) is the same
  as deleting when the counter is 1 before the decrement; the embedding
  uses that formulation.
-/

namespace Ambre

/-- Error kinds: one constructor per distinct `ValueError`/`Exception` site of
the source that this development reasons about. -/
inductive PyErr : Type where
  | invalidItemChar (c : Char) : PyErr
  | sentinelInAlphabet : PyErr
  | emptyDatabase : PyErr
  | transactionNotFound : PyErr
  | unknownItemset : PyErr
  | emptyItemset : PyErr
  | settingsMismatch : PyErr
deriving DecidableEq

/-! ### Characters and strings: Python primitives -/

/-- Python `\s` (and `str.strip`) whitespace on the ASCII range:
space, tab, newline, carriage return, vertical tab, form feed. -/
def pyIsSpace (c : Char) : Bool :=
  c.toNat = 32 || c.toNat = 9 || c.toNat = 10 || c.toNat = 13 || c.toNat = 11 || c.toNat = 12

/-- ASCII lower-casing of a single character; agrees with Python
`str.lower` and `str.casefold` on the ASCII fragment. -/
def pyLowerChar (c : Char) : Char :=
  if 65 ≤ c.toNat ∧ c.toNat ≤ 90 then Char.ofNat (c.toNat + 32) else c

/-- ASCII lower-casing of a string (Python `str.lower`, ASCII fragment). -/
def pyLower (s : String) : String :=
  ⟨s.data.map pyLowerChar⟩

/-- Python `str.casefold`, ASCII fragment (equal to `str.lower` there). -/
def pyCasefold (s : String) : String :=
  pyLower s

/-- Strict code-point lexicographic comparison of two character lists;
this is exactly Python string `<`. -/
def charsLtB : List Char → List Char → Bool
  | [], [] => false
  | [], _ :: _ => true
  | _ :: _, [] => false
  | a :: as, b :: bs =>
    if a.toNat < b.toNat then true
    else if b.toNat < a.toNat then false
    else charsLtB as bs

/-- Python string `<`. -/
def strLtB (a b : String) : Bool :=
  charsLtB a.data b.data

/-- Python string `<=`. -/
def strLeB (a b : String) : Bool :=
  strLtB a b || a == b

/-- Strict lexicographic comparison of two lists of strings
(Python list `<` on lists of strings). -/
def strListLtB : List String → List String → Bool
  | [], [] => false
  | [], _ :: _ => true
  | _ :: _, [] => false
  | a :: as, b :: bs =>
    if strLtB a b then true
    else if strLtB b a then false
    else strListLtB as bs

/-- Collapse every maximal whitespace run to a single space character: the
state machine equivalent of Python `re.sub(r"\s+", " ", s)`.  The flag
records whether the previous character was whitespace. -/
def collapseWsAux : Bool → List Char → List Char
  | _, [] => []
  | prevSpace, c :: rest =>
    if pyIsSpace c then
      if prevSpace then collapseWsAux true rest
      else ' ' :: collapseWsAux true rest
    else c :: collapseWsAux false rest

/-- Python `re.sub(r"\s+", " ", s)`. -/
def collapseWs (s : String) : String :=
  ⟨collapseWsAux false s.data⟩

/-- Python `str.strip()`: drop whitespace from both ends. -/
def pyStrip (s : String) : String :=
  ⟨((s.data.dropWhile pyIsSpace).reverse.dropWhile pyIsSpace).reverse⟩

/-- Whether the character list contains two consecutive spaces
(Python `"  " in s`). -/
def hasTwoSpaces : List Char → Bool
  | a :: b :: rest => (a.toNat = 32 && b.toNat = 32) || hasTwoSpaces (b :: rest)
  | _ => false

/-- Whether the string contains a given single character. -/
def hasChar (s : String) (n : Nat) : Bool :=
  s.data.any (fun c => c.toNat = n)

/-! ### The string codec (`ambre/helpers/strings.py`) -/

/-- The sentinel character `chr(255)` prepended to the input alphabet. -/
def sentinel : Char :=
  Char.ofNat 255

/-- First index of a character in a list, Python `str.find` (as an
`Option` instead of `-1`). -/
def pyFindIdx (l : List Char) (c : Char) : Option Nat :=
  match l with
  | [] => none
  | a :: rest =>
    if a = c then some 0
    else match pyFindIdx rest c with
      | some i => some (i + 1)
      | none => none

/-- The accumulation loop of `compress_string`: interpret the characters as
base-`b` digits (their first index in the sentinel-prepended alphabet),
bumping a zero running number to the base after the first character.  The
flag models `is_first_char`. -/
def compressAccum (alphaX : List Char) : List Char → Bool → Nat → Except PyErr Nat
  | [], _, acc => .ok acc
  | c :: rest, isFirst, acc =>
    match pyFindIdx alphaX c with
    | some i =>
      let acc1 := acc * alphaX.length + i
      let acc2 := if isFirst && acc1 = 0 then alphaX.length else acc1
      compressAccum alphaX rest false acc2
    | none => .error (.invalidItemChar c)

/-- Little-endian base-`b` digits of `n`, computed with explicit fuel so
that the definition is structural (the Python loop `while n > 0` divides
`n` by the base each round; fuel `n` always suffices). -/
def pyToDigitsLE (b : Nat) : Nat → Nat → List Nat
  | 0, _ => []
  | _ + 1, 0 => []
  | fuel + 1, n + 1 => (n + 1) % b :: pyToDigitsLE b fuel ((n + 1) / b)

/-- `compress_string(string, input_alphabet)` from `ambre/helpers/strings.py`
for a configured (non-`None`) alphabet, on the underlying character lists.
Raises when `chr(255)` is in the alphabet, accumulates the base-`b` number,
then emits it in base 256 big-endian. -/
def compress_string (alpha : List Char) (s : List Char) : Except PyErr (List Char) :=
  if sentinel ∈ alpha then .error .sentinelInAlphabet
  else
    match compressAccum (sentinel :: alpha) s true 0 with
    | .ok n => .ok ((pyToDigitsLE 256 n n).reverse.map Char.ofNat)
    | .error e => .error e

/-- The accumulation loop of `decompress_string`: read the characters as
base-256 digits (`ord`), with the same first-character zero bump.  The
`ord(char) >= 0` branch of the source is always taken, so this loop cannot
fail. -/
def decompressAccum : List Char → Bool → Nat → Nat
  | [], _, acc => acc
  | c :: rest, isFirst, acc =>
    let acc1 := acc * 256 + c.toNat
    let acc2 := if isFirst && acc1 = 0 then 256 else acc1
    decompressAccum rest false acc2

/-- `decompress_string(compressed_string, original_input_alphabet)` for a
configured alphabet, on the underlying character lists: read the base-256
number and re-emit it in base `b` big-endian through the sentinel-prepended
alphabet. -/
def decompress_string (alpha : List Char) (s : List Char) : List Char :=
  let alphaX := sentinel :: alpha
  let n := decompressAccum s true 0
  ((pyToDigitsLE alphaX.length n n).map (fun d => alphaX.getD d sentinel)).reverse

/-! ### The itemsets trie (`ambre/itemsets_trie.py`)

`ItemsetNode` keeps `compressed_item` on the edge from its parent: a node is
identified by its path of items from the root, so the embedding stores, per
node, the flag `is_consequent`, the counter `occurrences` and the ordered
children map (item, child).  `parent_node` back references are realised by
passing paths.  The `Database` default `item_alphabet=None` makes the codec
the identity, so items are stored uncompressed. -/

/-- A trie node: `is_consequent`, `occurrences`, and the ordered children
map of `ItemsetNode` (a Python `dict` in insertion order). -/
inductive Node : Type where
  | mk (isConsequent : Bool) (occurrences : Nat) (children : List (String × Node))

/-- The `is_consequent` field. -/
def Node.isConsequent : Node → Bool
  | .mk b _ _ => b

/-- The `occurrences` field. -/
def Node.occurrences : Node → Nat
  | .mk _ o _ => o

/-- The `children` field. -/
def Node.children : Node → List (String × Node)
  | .mk _ _ cs => cs

/-- Lookup in the children map (`compressed_item in node.children`). -/
def findChild : List (String × Node) → String → Option Node
  | [], _ => none
  | (k, c) :: rest, key => if k = key then some c else findChild rest key

/-- Replace the value bound to a key in the children map (Python mutates the
child object held in the `dict`; keys are unique, so replacing the first
binding is the same). -/
def replaceChild : List (String × Node) → String → Node → List (String × Node)
  | [], _, _ => []
  | (k, c) :: rest, key, n =>
    if k = key then (k, n) :: rest else (k, c) :: replaceChild rest key n

/-- Remove a key from the children map (`del parent.children[key]`). -/
def eraseChild : List (String × Node) → String → List (String × Node)
  | [], _ => []
  | (k, c) :: rest, key =>
    if k = key then rest else (k, c) :: eraseChild rest key

/-- The sort key comparison used by `get_or_create_child`:
`(not is_consequent, decompressed item)` compared as a Python tuple.  With
the identity codec the decompressed item is the key itself. -/
def childLtB (a b : String × Node) : Bool :=
  match a.2.isConsequent, b.2.isConsequent with
  | false, true => false
  | true, false => true
  | _, _ => strLtB a.1 b.1

/-- Non-strict version of `childLtB`, used as the sorting relation. -/
def childLe (a b : String × Node) : Prop :=
  childLtB b a = false

instance : DecidableRel childLe := fun a b =>
  inferInstanceAs (Decidable (childLtB b a = false))

/-- `ItemsetNode.get_or_create_child` (with `item_is_compressed` already
applied; the identity codec makes `compressed_item = item`).  Returns the
updated parent and the `created_new_child` flag.  The three branches of the
source — no children, one child, several children with a full stable sort —
are mirrored; see the header note on the sorting algorithm. -/
def getOrCreateChild (n : Node) (item : String) (isCons : Bool) : Node × Bool :=
  match findChild n.children item with
  | some _ => (n, false)
  | none =>
    let newChild : Node := .mk isCons 0 []
    match n.children with
    | [] => (.mk n.isConsequent n.occurrences [(item, newChild)], true)
    | [e0] =>
      if childLtB (item, newChild) e0 then
        (.mk n.isConsequent n.occurrences [(item, newChild), e0], true)
      else
        (.mk n.isConsequent n.occurrences [e0, (item, newChild)], true)
    | cs =>
      (.mk n.isConsequent n.occurrences
        (List.insertionSort childLe (cs ++ [(item, newChild)])), true)

/-- The cap test of the insertion worklist:
`(not self.max_antecedents_length) or (count < self.max_antecedents_length)`.
Note that a cap of `0` is falsy in Python and therefore means unlimited,
exactly like `None`. -/
def capAllows (cap : Option Nat) (count : Nat) : Bool :=
  match cap with
  | none => true
  | some c => c = 0 || count < c

/-- The insertion worklist of `insert_consequents_antecedents_compressed`:
from the current node, for every suffix position of the remaining itemset,
get or create the child, increment its `occurrences`, and (when the cap
allows) continue expanding below that child with the items after it.  The
source drives this with a FIFO deque of `(node, start_index,
antecedents_count)` entries; the recursion below performs the identical
per-entry updates (the new antecedent count is taken from the child node
flag, as in the source).  Returns the updated node and the number of newly
created nodes (the source increments `number_nodes` inside
`get_or_create_child`). -/
def insertEntry (cap : Option Nat) : Node → Nat → List (String × Bool) → Node × Nat
  | n, _, [] => (n, 0)
  | n, acnt, (item, isCons) :: rest =>
    let gc := getOrCreateChild n item isCons
    let c := (findChild gc.1.children item).getD (.mk isCons 0 [])
    let acnt2 := acnt + (if c.isConsequent then 0 else 1)
    let c1 : Node := .mk c.isConsequent (c.occurrences + 1) c.children
    let r := if capAllows cap acnt2 then insertEntry cap c1 acnt2 rest else (c1, 0)
    let n2 : Node := .mk gc.1.isConsequent gc.1.occurrences (replaceChild gc.1.children item r.1)
    let rr := insertEntry cap n2 acnt rest
    (rr.1, (if gc.2 then 1 else 0) + r.2 + rr.2)

/-- The trie: root node plus the trie-level fields of `ItemsetsTrie` that
this development reasons about (`max_antecedents_length`,
`number_transactions`, `number_nodes`). -/
structure ItemsetsTrie : Type where
  root : Node
  maxAntecedentsLength : Option Nat
  numberTransactions : Nat
  numberNodes : Nat

/-- A freshly constructed trie (`ItemsetsTrie.__init__`): an empty root,
zero transactions, one node. -/
def emptyTrie (cap : Option Nat) : ItemsetsTrie :=
  { root := .mk false 0 [], maxAntecedentsLength := cap,
    numberTransactions := 0, numberNodes := 1 }

/-- `ItemsetsTrie.insert_consequents_antecedents_compressed`: run the
worklist on the flagged canonical itemset (consequents first, then
antecedents), then increment `number_transactions`. -/
def insertCA (t : ItemsetsTrie) (consequents antecedents : List String) : ItemsetsTrie :=
  let its := consequents.map (fun x => (x, true)) ++ antecedents.map (fun x => (x, false))
  let r := insertEntry t.maxAntecedentsLength t.root 0 its
  { root := r.1, maxAntecedentsLength := t.maxAntecedentsLength,
    numberTransactions := t.numberTransactions + 1,
    numberNodes := t.numberNodes + r.2 }

/-- `ItemsetsTrie.get_node_from_compressed` with `none_if_not_exists=True`,
as a total path lookup (the source walks `node.children` from the root). -/
def getNode : Node → List String → Option Node
  | n, [] => some n
  | n, k :: rest =>
    match findChild n.children k with
    | some c => getNode c rest
    | none => none

/-- The `occurrences` counter of the node at a path, `0` when the node is
absent from the trie. -/
def occAt (n : Node) (p : List String) : Nat :=
  match getNode n p with
  | some m => m.occurrences
  | none => 0

/-- `ItemsetNode.support` of the node at a path:
`occurrences / number_transactions` as a rational number. -/
def supportAt (t : ItemsetsTrie) (p : List String) : ℚ :=
  (occAt t.root p : ℚ) / (t.numberTransactions : ℚ)

/-- One chain of the removal loop: walk down the given path (raising
`unknownItemset` where `get_node_from_compressed` would), then, coming back
up leaf-first, decrement every node on the path, deleting a node from its
parent when its counter reaches zero.  Returns the updated node and the
number of deleted nodes (the source decrements `number_nodes` per deleted
node).  See the header note for the counter-one formulation of the deletion
test. -/
def decChain : Node → List String → Except PyErr (Node × Nat)
  | n, [] => .ok (n, 0)
  | n, k :: rest =>
    match findChild n.children k with
    | none => .error .unknownItemset
    | some c =>
      match decChain c rest with
      | .error e => .error e
      | .ok (c1, d) =>
        if c1.occurrences = 1 then
          .ok (.mk n.isConsequent n.occurrences (eraseChild n.children k), d + 1)
        else
          .ok (.mk n.isConsequent n.occurrences
            (replaceChild n.children k (.mk c1.isConsequent (c1.occurrences - 1) c1.children)), d)

/-- The `for start_index in range(len(path))` loop of the removal: one
`decChain` per non-empty suffix of the canonical path, in order. -/
def removeLoop : Node → List String → Except PyErr (Node × Nat)
  | n, [] => .ok (n, 0)
  | n, k :: rest =>
    match decChain n (k :: rest) with
    | .error e => .error e
    | .ok (n1, d1) =>
      match removeLoop n1 rest with
      | .error e => .error e
      | .ok (n2, d2) => .ok (n2, d1 + d2)

/-- `ItemsetsTrie.remove_consequents_antecedents_compressed`: empty-database
check, then the existence check through
`has_consequents_antecedents_compressed` (whose `get_node_from_compressed`
call raises on an empty itemset before anything else), then the suffix
chains, then the `number_transactions` decrement.  All mutation happens
after the checks. -/
def removeCA (t : ItemsetsTrie) (consequents antecedents : List String) (silent : Bool) :
    Except PyErr ItemsetsTrie :=
  let path := consequents ++ antecedents
  if t.numberTransactions = 0 then .error .emptyDatabase
  else if path.isEmpty then .error .emptyItemset
  else if (getNode t.root path).isNone then
    if silent then .ok t else .error .transactionNotFound
  else
    match removeLoop t.root path with
    | .error e => .error e
    | .ok (r, d) =>
      .ok { root := r, maxAntecedentsLength := t.maxAntecedentsLength,
            numberTransactions := t.numberTransactions - 1,
            numberNodes := t.numberNodes - d }

mutual

/-- `ItemsetsTrie.merge`, per node pair: fold the source children into the
target.  The source drives this with a stack of `(source_node, target_node)`
pairs; the recursion below performs the identical per-pair updates.  Returns
the updated target node and the number of created nodes. -/
def mergeInto : Node → Node → Node × Nat
  | t, .mk _ _ cs => mergeChildren t cs

/-- Fold one list of source children into the target node: get or create the
child with the source flag, add the source counter, then merge the subtrees. -/
def mergeChildren : Node → List (String × Node) → Node × Nat
  | t, [] => (t, 0)
  | t, (k, sc) :: rest =>
    let gc := getOrCreateChild t k sc.isConsequent
    let c := (findChild gc.1.children k).getD (.mk sc.isConsequent 0 [])
    let c1 : Node := .mk c.isConsequent (c.occurrences + sc.occurrences) c.children
    let mc := mergeInto c1 sc
    let t2 : Node := .mk gc.1.isConsequent gc.1.occurrences (replaceChild gc.1.children k mc.1)
    let mr := mergeChildren t2 rest
    (mr.1, (if gc.2 then 1 else 0) + mc.2 + mr.2)

end

/-- Trie-level merge (`target.itemsets_trie.merge(source.itemsets_trie)`):
the node merge plus the `number_nodes` bookkeeping.  `number_transactions`
is updated by the database layer before this call. -/
def trieMerge (target source : ItemsetsTrie) : ItemsetsTrie :=
  let r := mergeInto target.root source.root
  { root := r.1, maxAntecedentsLength := target.maxAntecedentsLength,
    numberTransactions := target.numberTransactions,
    numberNodes := target.numberNodes + r.2 }

/-! ### Settings (`ambre/settings.py`) -/

/-- Non-strict code-point order on strings, as a sorting relation. -/
def strLe (a b : String) : Prop :=
  strLeB a b = true

instance : DecidableRel strLe := fun a b =>
  inferInstanceAs (Decidable (strLeB a b = true))

/-- Non-strict code-point order on characters, as a sorting relation. -/
def charLe (a b : Char) : Prop :=
  a.toNat ≤ b.toNat

instance : DecidableRel charLe := fun a b =>
  inferInstanceAs (Decidable (a.toNat ≤ b.toNat))

/-- The settings record (`Settings`), with the fields that take part in
`Settings.__eq__`.  The alphabet is `Option` because `None` means
unrestricted (`Database` passes `item_alphabet=None` by default). -/
structure Settings : Type where
  consequents : List String
  normalizeWhitespace : Bool
  caseInsensitive : Bool
  maxAntecedentsLength : Option Nat
  itemSeparatorForStringOutputs : String
  columnValueSeparator : String
  omitColumnNames : Bool
  itemAlphabet : Option (List Char)
deriving DecidableEq

/-- `Settings.__init__`: the consequents are deduplicated and sorted
(`sorted(set(consequents))`), and with `case_insensitive` and a configured
alphabet the alphabet is case folded, deduplicated and sorted. -/
def mkSettings (consequents : List String) (normalizeWhitespace caseInsensitive : Bool)
    (maxAntecedentsLength : Option Nat) (itemSep colSep : String) (omitColumnNames : Bool)
    (itemAlphabet : Option (List Char)) : Settings :=
  { consequents := List.insertionSort strLe consequents.dedup,
    normalizeWhitespace := normalizeWhitespace,
    caseInsensitive := caseInsensitive,
    maxAntecedentsLength := maxAntecedentsLength,
    itemSeparatorForStringOutputs := itemSep,
    columnValueSeparator := colSep,
    omitColumnNames := omitColumnNames,
    itemAlphabet :=
      if caseInsensitive then
        itemAlphabet.map (fun a => List.insertionSort charLe (a.map pyLowerChar).dedup)
      else itemAlphabet }

/-! ### Normalization (`ambre/prepostprocessing.py`, `ambre/database.py`) -/

/-- The shared item normalizer of
`PrePostProcessor.normalize_uncompressed_itemset`:
`re.sub(r"\s+", " ", item).strip()` when whitespace is normalized, then
lower casing when case insensitive.  This collapses every whitespace run. -/
def sharedNormalizeItem (s : Settings) (x : String) : String :=
  let x1 := if s.normalizeWhitespace then pyStrip (collapseWs x) else x
  if s.caseInsensitive then pyLower x1 else x1

/-- Case-folded comparison, the `key=str.casefold` sorting relation. -/
def cfLe (a b : String) : Prop :=
  strLeB (pyCasefold a) (pyCasefold b) = true

instance : DecidableRel cfLe := fun a b =>
  inferInstanceAs (Decidable (strLeB (pyCasefold a) (pyCasefold b) = true))

/-- `PrePostProcessor.normalized_consequents`: normalize the configured
consequents (`sort_result=False`, a Python set modelled as `dedup`), then
`sorted(...)` by the plain string order. -/
def normalizedConsequents (s : Settings) : List String :=
  List.insertionSort strLe ((s.consequents.map (sharedNormalizeItem s)).dedup)

/-- `PrePostProcessor.extract_consequents_antecedents_compressed_from_uncompressed`:
partition the itemset by membership in the normalized consequents (in
iteration order) and, with `sort_result`, sort each side with
`key=str.casefold`.  With the identity codec the result is uncompressed. -/
def extractCA (s : Settings) (itemset : List String) (sortResult : Bool) :
    List String × List String :=
  let ncs := normalizedConsequents s
  let cs := itemset.filter (fun x => ncs.contains x)
  let ants := itemset.filter (fun x => !(ncs.contains x))
  if sortResult then (List.insertionSort cfLe cs, List.insertionSort cfLe ants)
  else (cs, ants)

/-- `PrePostProcessor.normalize_uncompressed_itemset`: normalize every item,
deduplicate (Python builds a set), and optionally sort consequents first. -/
def normalizeUncompressedItemset (s : Settings) (itemset : List String) (sortResult : Bool) :
    List String :=
  let normd := (itemset.map (sharedNormalizeItem s)).dedup
  if sortResult then
    let p := extractCA s normd true
    p.1 ++ p.2
  else normd

/-! ### The database layer (`ambre/database.py`) -/

/-- A common-sense rule (`CommonSenseRule`): the normalized antecedent and
consequent lists and the confidence.  Under the identity codec the
compressed lists equal the normalized ones, so a single pair of lists
models both. -/
structure CommonSenseRule : Type where
  antecedentsNormalized : List String
  consequentsNormalized : List String
  confidence : ℚ
deriving DecidableEq

/-- The database: settings, the itemsets trie and the common-sense rules
list. -/
structure Database : Type where
  settings : Settings
  itemsetsTrie : ItemsetsTrie
  commonSenseRules : List CommonSenseRule

/-- `Database.__init__` with only the consequents given: all other
parameters keep their defaults, in particular `item_alphabet=None` (the
identity codec) and no antecedent length cap. -/
def mkDatabase (consequents : List String) : Database :=
  { settings := mkSettings consequents true true none " ∪ " "=" false none,
    itemsetsTrie := emptyTrie none,
    commonSenseRules := [] }

/-- The item normalizer inlined in `Database.insert_transaction`: strip,
then collapse whitespace runs only when the stripped item contains two
consecutive spaces, a tab or a newline, then lower case.  Note the
difference from `sharedNormalizeItem`: a run made of other whitespace
(for example a carriage return) is not collapsed here. -/
def insertNormalizeItem (s : Settings) (x : String) : String :=
  let x1 :=
    if s.normalizeWhitespace then
      let st := pyStrip x
      if hasTwoSpaces st.data || hasChar st 9 || hasChar st 10 then collapseWs st else st
    else x
  if s.caseInsensitive then pyLower x1 else x1

/-- `Database.insert_transaction`: normalize each item with the inlined
normalizer, partition by membership in the normalized consequents set (no
deduplication), sort each side with `key=str.casefold`, and insert into the
trie. -/
def insertTransaction (db : Database) (transaction : List String) : Database :=
  let ncs := normalizedConsequents db.settings
  let items := transaction.map (insertNormalizeItem db.settings)
  let cs := items.filter (fun x => ncs.contains x)
  let ants := items.filter (fun x => !(ncs.contains x))
  { settings := db.settings,
    itemsetsTrie :=
      insertCA db.itemsetsTrie (List.insertionSort cfLe cs) (List.insertionSort cfLe ants),
    commonSenseRules := db.commonSenseRules }

/-- `Database.insert_transactions`: a plain loop over the iterable calling
`insert_transaction`; the progress bar is the only other parameter. -/
def insertTransactions (db : Database) (transactions : List (List String)) : Database :=
  transactions.foldl insertTransaction db

/-- `Database.has_itemset`: normalize through the shared normalizer
(`sort_result=False`), extract and sort consequents and antecedents, then
look the path up (`get_node_from_compressed` raises on an empty itemset
before considering `none_if_not_exists`). -/
def hasItemset (db : Database) (transaction : List String) : Except PyErr Bool :=
  let normd := normalizeUncompressedItemset db.settings transaction false
  let p := extractCA db.settings normd true
  let path := p.1 ++ p.2
  if path.isEmpty then .error .emptyItemset
  else .ok (getNode db.itemsetsTrie.root path).isSome

/-- `Database.remove_transaction`: normalize through the shared normalizer,
extract and sort, then remove from the trie. -/
def removeTransaction (db : Database) (transaction : List String) (silent : Bool) :
    Except PyErr Database :=
  let normd := normalizeUncompressedItemset db.settings transaction false
  let p := extractCA db.settings normd true
  match removeCA db.itemsetsTrie p.1 p.2 silent with
  | .error e => .error e
  | .ok t => .ok { settings := db.settings, itemsetsTrie := t,
                   commonSenseRules := db.commonSenseRules }

/-- `CommonSenseRule.__init__` against a database: both sides are normalized
with `sort_result=True`. -/
def mkCommonSenseRule (s : Settings) (antecedents consequents : List String)
    (confidence : ℚ) : CommonSenseRule :=
  { antecedentsNormalized := normalizeUncompressedItemset s antecedents true,
    consequentsNormalized := normalizeUncompressedItemset s consequents true,
    confidence := confidence }

/-- `CommonSenseRule.__lt__`: lexicographic comparison of
`(antecedents_normalized, consequents_normalized, confidence)`. -/
def ruleLtB (a b : CommonSenseRule) : Bool :=
  if strListLtB a.antecedentsNormalized b.antecedentsNormalized then true
  else if strListLtB b.antecedentsNormalized a.antecedentsNormalized then false
  else if strListLtB a.consequentsNormalized b.consequentsNormalized then true
  else if strListLtB b.consequentsNormalized a.consequentsNormalized then false
  else decide (a.confidence < b.confidence)

/-- The non-strict rule order used for `sorted(...)`. -/
def ruleLe (a b : CommonSenseRule) : Prop :=
  ruleLtB b a = false

instance : DecidableRel ruleLe := fun a b =>
  inferInstanceAs (Decidable (ruleLtB b a = false))

/-- The `itertools.groupby` step of `insert_common_sense_rules`: on the
sorted list, for each run of equal `(antecedents, consequents)` keys keep
the last rule of the run (the one with the highest confidence). -/
def groupLastByKey : List CommonSenseRule → List CommonSenseRule
  | [] => []
  | [r] => [r]
  | r1 :: r2 :: rest =>
    if r1.antecedentsNormalized = r2.antecedentsNormalized ∧
        r1.consequentsNormalized = r2.consequentsNormalized then
      groupLastByKey (r2 :: rest)
    else r1 :: groupLastByKey (r2 :: rest)

/-- Python `set(a).issubset(b)` on string lists. -/
def subsetB (a b : List String) : Bool :=
  a.all (fun x => b.contains x)

/-- The superset-discarding loop of `insert_common_sense_rules`: a rule is
kept unless some rule *earlier in the sorted list* has the same confidence,
the same consequents, and antecedents that are a subset of the rule
antecedents.  The first argument accumulates the already seen prefix of the
input list (`self.common_sense_rules[:index]`). -/
def filterSupersetsAux : List CommonSenseRule → List CommonSenseRule → List CommonSenseRule
  | _, [] => []
  | seen, r :: rest =>
    let redundant := seen.any (fun p =>
      p.confidence == r.confidence &&
      p.consequentsNormalized == r.consequentsNormalized &&
      subsetB p.antecedentsNormalized r.antecedentsNormalized)
    if redundant then filterSupersetsAux (seen ++ [r]) rest
    else r :: filterSupersetsAux (seen ++ [r]) rest

/-- `Database.insert_common_sense_rules`: union with the existing rules as a
set, sort, keep the highest confidence per key, then discard supersets of
earlier rules. -/
def insertCommonSenseRules (db : Database) (newRules : List CommonSenseRule) : Database :=
  let sorted1 := List.insertionSort ruleLe (db.commonSenseRules ++ newRules).dedup
  let grouped := groupLastByKey sorted1
  { settings := db.settings, itemsetsTrie := db.itemsetsTrie,
    commonSenseRules := filterSupersetsAux [] grouped }

/-- `Database.insert_common_sense_rule`. -/
def insertCommonSenseRule (db : Database) (antecedents consequents : List String)
    (confidence : ℚ) : Database :=
  insertCommonSenseRules db [mkCommonSenseRule db.settings antecedents consequents confidence]

/-- `Database.merge_database_pair` (in place): the schema versions of two
in-memory databases of this embedding are the constant current version, so
that check never fires; the settings must be equal; the larger database (by
`number_nodes`) becomes the target; the transaction counter is summed, the
tries are merged, and the source common-sense rules are inserted. -/
def mergeDatabasePair (d1 d2 : Database) : Except PyErr Database :=
  if d1.settings = d2.settings then
    let td := if d1.itemsetsTrie.numberNodes ≥ d2.itemsetsTrie.numberNodes then (d1, d2) else (d2, d1)
    let target := td.1
    let source := td.2
    let t1 : ItemsetsTrie :=
      { root := target.itemsetsTrie.root,
        maxAntecedentsLength := target.itemsetsTrie.maxAntecedentsLength,
        numberTransactions :=
          target.itemsetsTrie.numberTransactions + source.itemsetsTrie.numberTransactions,
        numberNodes := target.itemsetsTrie.numberNodes }
    let t2 := trieMerge t1 source.itemsetsTrie
    .ok (insertCommonSenseRules
      { settings := target.settings, itemsetsTrie := t2,
        commonSenseRules := target.commonSenseRules }
      source.commonSenseRules)
  else .error .settingsMismatch

/-! ### Invariants and reachability -/

/-- The key is absent from the children list. -/
def keyNotMem (k : String) (cs : List (String × Node)) : Bool :=
  cs.all (fun e => !(e.1 == k))

/-- The children keys are pairwise distinct (Python `dict` keys). -/
def keysNodupB : List (String × Node) → Bool
  | [] => true
  | (k, _) :: rest => keyNotMem k rest && keysNodupB rest

/-- Adjacent children are ordered by the `get_or_create_child` sort key. -/
def sortedChildrenB : List (String × Node) → Bool
  | [] => true
  | [_] => true
  | a :: b :: rest => !(childLtB b a) && sortedChildrenB (b :: rest)

mutual

/-- Structural well-formedness of a node: distinct and sorted children keys,
recursively. -/
def wfNode : Node → Bool
  | .mk _ _ cs => keysNodupB cs && sortedChildrenB cs && wfChildren cs

/-- `wfNode` for every node of a children list. -/
def wfChildren : List (String × Node) → Bool
  | [] => true
  | (_, c) :: rest => wfNode c && wfChildren rest

end

mutual

/-- Every non-root node of the subtree has a positive `occurrences`
counter. -/
def posNode : Node → Bool
  | .mk _ _ cs => posChildren cs

/-- `posNode` plus positivity for every node of a children list. -/
def posChildren : List (String × Node) → Bool
  | [] => true
  | (_, c) :: rest => (c.occurrences != 0) && posNode c && posChildren rest

end

mutual

/-- Every node flag of the subtree agrees with a fixed item classifier
`phi` (at the database layer, membership in the declared consequents). -/
def flaggedNode (phi : String → Bool) : Node → Bool
  | .mk _ _ cs => flaggedChildren phi cs

/-- `flaggedNode` for a children list. -/
def flaggedChildren (phi : String → Bool) : List (String × Node) → Bool
  | [] => true
  | (k, c) :: rest => (c.isConsequent == phi k) && flaggedNode phi c && flaggedChildren phi rest

end

/-- The database level composite of one merge step on the trie:
`number_transactions` is summed first (`merge_database_pair`), then the
tries are merged. -/
def mergeTriePair (t s : ItemsetsTrie) : ItemsetsTrie :=
  trieMerge
    { root := t.root, maxAntecedentsLength := t.maxAntecedentsLength,
      numberTransactions := t.numberTransactions + s.numberTransactions,
      numberNodes := t.numberNodes }
    s

/-- Trie states reachable through the public mutators: a fresh trie,
transaction insertion, successful transaction removal, and the pairwise
merge.  The classifier `phi` is the database's fixed consequent-membership
test (`Database` always splits a transaction into consequent and antecedent
parts against its immutable declared consequent set, and `merge` insists on
equal settings), so every insertion flags an item the same way. -/
inductive TrieReachable (phi : String → Bool) : ItemsetsTrie → Prop where
  | empty (cap : Option Nat) : TrieReachable phi (emptyTrie cap)
  | insert (t : ItemsetsTrie) (c a : List String) :
      TrieReachable phi t → (∀ x ∈ c, phi x = true) → (∀ x ∈ a, phi x = false) →
      TrieReachable phi (insertCA t c a)
  | remove (t : ItemsetsTrie) (c a : List String) (s : Bool) (t2 : ItemsetsTrie) :
      TrieReachable phi t → removeCA t c a s = .ok t2 → TrieReachable phi t2
  | mergePair (t s : ItemsetsTrie) :
      TrieReachable phi t → TrieReachable phi s → TrieReachable phi (mergeTriePair t s)

/-- Trie states reachable through insertions of duplicate-free canonical
transactions and merges only (no removals), under the same fixed
consequent classifier as `TrieReachable`. -/
inductive InsReachable (phi : String → Bool) : ItemsetsTrie → Prop where
  | empty (cap : Option Nat) : InsReachable phi (emptyTrie cap)
  | insert (t : ItemsetsTrie) (c a : List String) :
      InsReachable phi t → (∀ x ∈ c, phi x = true) → (∀ x ∈ a, phi x = false) →
      (c ++ a).Nodup → InsReachable phi (insertCA t c a)
  | mergePair (t s : ItemsetsTrie) :
      InsReachable phi t → InsReachable phi s → InsReachable phi (mergeTriePair t s)

/-! ### Specification-side helper predicates -/

/-- The number of admissible worklist selections of the flagged itemset that
spell a given path: the item of each selected element in order, where after
each selected element the expansion continues only when the cap allows the
accumulated antecedent count.  This counts, per path, how often the
insertion worklist increments the node at that path. -/
def selCount (cap : Option Nat) : List (String × Bool) → Nat → List String → Nat
  | _, _, [] => 0
  | [], _, _ :: _ => 0
  | x :: rest, acnt, k :: q =>
    (if x.1 = k then
      let acnt2 := acnt + (if x.2 then 0 else 1)
      if q.isEmpty then 1
      else if capAllows cap acnt2 then selCount cap rest acnt2 q else 0
     else 0) + selCount cap rest acnt (k :: q)

/-- The antecedent length cap as a plain bound (the settings contract keeps
the cap a positive integer or unset). -/
def capOkT (cap : Option Nat) (len : Nat) : Prop :=
  match cap with
  | none => True
  | some c => len ≤ c

/-- The claim C3 path family: non-empty `sorted(S) ++ sorted(T)` for
subsets `S` of the consequents and `T` of the antecedents within the cap
(sublists of the sorted canonical parts are exactly the sorted subsets). -/
def admissiblePath (cap : Option Nat) (consequents antecedents p : List String) : Prop :=
  ∃ S T, S.Sublist consequents ∧ T.Sublist antecedents ∧ S ++ T = p ∧ p ≠ [] ∧
    capOkT cap T.length

/-- `p` is a non-empty contiguous run of `q`. -/
def contigOf (p q : List String) : Prop :=
  p ≠ [] ∧ ∃ s n, p = (q.drop s).take n

/-- The cap is a positive bound or unset: the settings contract
(`max_antecedents_length` is "an optional positive integer"). -/
def capPosT (cap : Option Nat) : Prop :=
  ∀ k, cap = some k → 0 < k

/-- The flagged canonical itemset handed to the insertion worklist:
consequent part flagged `True`, antecedent part flagged `False`. -/
def itsOf (c a : List String) : List (String × Bool) :=
  c.map (fun x => (x, true)) ++ a.map (fun x => (x, false))

/-- `capAllows` holds at every intermediate antecedent count
`acnt + 1, …, acnt + len - 1` of a selection run that picks `len`
antecedents after count `acnt` (the final selected element needs no
continuation check). -/
def capChainB (cap : Option Nat) : Nat → Nat → Bool
  | _, 0 => true
  | _, 1 => true
  | acnt, n + 2 => capAllows cap (acnt + 1) && capChainB cap (acnt + 1) (n + 1)

/-- `p` is a prefix of `q` (item lists). -/
def prefOfB : List String → List String → Bool
  | [], _ => true
  | _ :: _, [] => false
  | x :: xs, y :: ys => (x == y) && prefOfB xs ys

/-- The longest common prefix of two paths. -/
def commonPref : List String → List String → List String
  | x :: xs, y :: ys => if x = y then x :: commonPref xs ys else []
  | _, _ => []

/-- Some node along the given path from `n` (excluding `n` itself) carries
an `occurrences` counter of exactly one; the walk stops at a missing
child.  This is the removal-chain deletion condition: such a node reaches
zero when its chain is decremented and is deleted together with its
subtree. -/
def anyPrefOne (n : Node) : List String → Bool
  | [] => false
  | k :: rest =>
    match findChild n.children k with
    | none => false
    | some c => (c.occurrences == 1) || anyPrefOne c rest

/-- `p` is a node decremented by one removal chain on `path`: a nonempty
prefix of the chain's path. -/
def decTargetB (path p : List String) : Bool :=
  !p.isEmpty && prefOfB p path

/-- The node at `p` is deleted by the removal suffix loop on `path` run
from state `n`: some chain's common prefix with `p` passes through a
counter-one node. -/
def loopDelB (n : Node) : List String → List String → Bool
  | [], _ => false
  | k :: rest, p => anyPrefOne n (commonPref p (k :: rest)) || loopDelB n rest p

/-- How many removal chains of the suffix loop on `path` decrement the node
at `p`: one per suffix of which `p` is a nonempty prefix. -/
def loopDecN : List String → List String → Nat
  | [], _ => 0
  | k :: rest, p => (if decTargetB (k :: rest) p then 1 else 0) + loopDecN rest p

/-- `p` is a nonempty prefix of some nonempty suffix of `P`: the
Boolean form of `contigOf`. -/
def contigB : List String → List String → Bool
  | [], _ => false
  | k :: rest, p => decTargetB (k :: rest) p || contigB rest p

/-- Counter lookup through a children list (an absent child counts
zero). -/
def occAtL (cs : List (String × Node)) : List String → Nat
  | [] => 0
  | k :: q =>
    match findChild cs k with
    | some sc => occAt sc q
    | none => 0

/-- The removal returned without raising. -/
def isOkB (e : Except PyErr ItemsetsTrie) : Bool :=
  match e with
  | .ok _ => true
  | .error _ => false

/-- Extract the trie from a successful removal (used to name concrete
states in witnesses and counterexamples). -/
def getOk (e : Except PyErr ItemsetsTrie) : ItemsetsTrie :=
  match e with
  | .ok t => t
  | .error _ => emptyTrie none

/-- The sibling order asserted by the specification: consequent children
first, then antecedent children, each block ascending by the case-folded
uncompressed item. -/
def childCfLeB (a b : String × Node) : Bool :=
  match a.2.isConsequent, b.2.isConsequent with
  | false, true => false
  | true, false => true
  | _, _ => strLeB (pyCasefold a.1) (pyCasefold b.1)

/-- Adjacent children are ordered by the specification order
`childCfLeB`. -/
def sortedByCasefoldB : List (String × Node) → Bool
  | [] => true
  | [_] => true
  | a :: b :: rest => childCfLeB a b && sortedByCasefoldB (b :: rest)

/-! ### Concrete states used in witnesses and counterexamples -/

/-- The string `"a\rb"`: an item with an internal carriage return. -/
def itemCR : String :=
  ⟨['a', Char.ofNat 13, 'b']⟩

/-- An empty default trie (no cap). -/
def exEmpty : ItemsetsTrie :=
  emptyTrie none

/-- The trie after inserting the transaction `{a, c}`. -/
def exAC : ItemsetsTrie :=
  insertCA exEmpty [] ["a", "c"]

/-- `exAC` after additionally inserting `{a, b, c}`. -/
def exACabc : ItemsetsTrie :=
  insertCA exAC [] ["a", "b", "c"]

/-- `exACabc` after removing `{a, b, c}` again. -/
def exACrem : ItemsetsTrie :=
  getOk (removeCA exACabc [] ["a", "b", "c"] false)

/-- The trie with only `{a, b, c}` inserted. -/
def exABC : ItemsetsTrie :=
  insertCA exEmpty [] ["a", "b", "c"]

/-- The removal-scenario trie: insert `{bread, milk}`, `{bread, butter,
milk}` twice and `{bread}`, then remove `{bread, butter, milk}` twice. -/
def exWiki : ItemsetsTrie :=
  getOk (removeCA
    (getOk (removeCA
      (insertCA
        (insertCA
          (insertCA
            (insertCA exEmpty [] ["bread", "milk"])
            [] ["bread", "butter", "milk"])
          [] ["bread", "butter", "milk"])
        [] ["bread"])
      [] ["bread", "butter", "milk"] false))
    [] ["bread", "butter", "milk"] false)

/-- The trie after inserting the case-sensitive transaction `{a, B}`
(canonically ordered by case fold, as `Database.insert_transaction` does
with `case_insensitive=False`). -/
def exCase : ItemsetsTrie :=
  insertCA exEmpty [] ["a", "B"]

/-- A trie with a positive antecedent cap of 1, holding one inserted
transaction `{x, y}`. -/
def exCap : ItemsetsTrie :=
  insertCA (emptyTrie (some 1)) [] ["x", "y"]

/-- A database over consequent `x` after inserting common-sense rules
`{b} => {x}` at confidence 1 and `{a, b} => {x}` at confidence 1. -/
def exRulesDb : Database :=
  insertCommonSenseRule (insertCommonSenseRule (mkDatabase ["x"]) ["b"] ["x"] 1) ["a", "b"] ["x"] 1

/-- A default database (no consequents). -/
def exDb : Database :=
  mkDatabase []

/-- `exDb` after inserting the single-item transaction `{"a\rb"}`. -/
def exDbCR : Database :=
  insertTransaction exDb [itemCR]

/-- The codec scenario alphabet `0-9A-Z`. -/
def exAlpha : List Char :=
  "0123456789ABCDEFGHIJKLMNOPQRSTUVWXYZ".data

/-- First merge operand: a default database holding `{a, b}`. -/
def exMergeDb1 : Database :=
  { settings := (mkDatabase []).settings,
    itemsetsTrie := insertCA exEmpty [] ["a", "b"],
    commonSenseRules := [] }

/-- Second merge operand: a default database holding `{b, c}` and `{a}`. -/
def exMergeDb2 : Database :=
  { settings := (mkDatabase []).settings,
    itemsetsTrie := insertCA (insertCA exEmpty [] ["b", "c"]) [] ["a"],
    commonSenseRules := [] }

/-- A database whose settings differ from the default (case sensitivity
flipped). -/
def exMergeDb3 : Database :=
  { settings := mkSettings [] true false none " ∪ " "=" false none,
    itemsetsTrie := exEmpty,
    commonSenseRules := [] }

end Ambre

namespace Ambre

/-! ## Theorems -/

/-- `insert_transaction` always increments `number_transactions` by one. -/
theorem insertTransaction_numberTransactions (db : Database) (tr : List String) :
    (insertTransaction db tr).itemsetsTrie.numberTransactions =
      db.itemsetsTrie.numberTransactions + 1 := by
  rfl

/-- C9 (counterexample): `insert_transactions` of the source takes only the
transactions and a progress flag; it deterministically inserts every
transaction.  Inserting a two-element list into a fresh database always
yields exactly two transactions: no transaction is ever skipped with any
probability, and no `RangeError` is ever raised, because the code has no
`sampling_ratio` parameter at all. -/
theorem insertTransactions_no_sampling :
    (insertTransactions (mkDatabase []) [["t1"], ["t2"]]).itemsetsTrie.numberTransactions = 2 := by
  rfl

/-- C9 (amended): `insert_transactions` inserts every transaction of the
given iterable unconditionally: the transaction count always grows by the
length of the list.  There is no sampling and no failure path. -/
theorem insertTransactions_inserts_all (db : Database) (ts : List (List String)) :
    (insertTransactions db ts).itemsetsTrie.numberTransactions =
      db.itemsetsTrie.numberTransactions + ts.length := by
  induction ts generalizing db with
  | nil => simp [insertTransactions]
  | cons t rest ih =>
    have h1 : insertTransactions db (t :: rest) = insertTransactions (insertTransaction db t) rest := by
      simp [insertTransactions]
    rw [h1, ih, insertTransaction_numberTransactions]
    simp [List.length_cons]
    omega

/-- C10: under default settings, inserting the transaction `{"a\rb"}` and
immediately asking `has_itemset` for the very same transaction answers
`false`: `insert_transaction` collapses internal whitespace only when the
item contains two consecutive spaces, a tab or a newline, so the stored key
keeps the carriage return, while `has_itemset` normalizes through the
shared normalizer which collapses every whitespace run, so the lookup key
is `"a b"`. -/
theorem hasItemset_false_after_insert :
    hasItemset exDbCR [itemCR] = .ok false := by
  rfl

/-! ### Boolean helpers -/

/-- Left projection of a true conjunction of booleans. -/
theorem andE_left {a b : Bool} (h : (a && b) = true) : a = true := by
  simp only [Bool.and_eq_true] at h
  exact h.1

/-- Right projection of a true conjunction of booleans. -/
theorem andE_right {a b : Bool} (h : (a && b) = true) : b = true := by
  simp only [Bool.and_eq_true] at h
  exact h.2

/-! ### Order facts for the sibling sort key -/

/-- `charsLtB` is irreflexive. -/
theorem charsLtB_irrefl : ∀ a, charsLtB a a = false := by
  intro a
  induction a with
  | nil => rfl
  | cons x xs ih => simp [charsLtB, ih]

/-- `charsLtB` is asymmetric. -/
theorem charsLtB_asymm : ∀ a b, charsLtB a b = true → charsLtB b a = false := by
  intro a
  induction a with
  | nil =>
    intro b h
    cases b with
    | nil => simpa [charsLtB] using h
    | cons y ys => rfl
  | cons x xs ih =>
    intro b h
    cases b with
    | nil => simp [charsLtB] at h
    | cons y ys =>
      by_cases h1 : x.toNat < y.toNat
      · have h2 : ¬ y.toNat < x.toNat := by omega
        simp [charsLtB, h1, h2]
      · by_cases h2 : y.toNat < x.toNat
        · simp [charsLtB, h1, h2] at h
        · have hrec : charsLtB xs ys = true := by simpa [charsLtB, h1, h2] using h
          simp [charsLtB, h1, h2, ih ys hrec]

/-- The strict-weak-order splitting property of `charsLtB`: a strict
comparison splits at any third list. -/
theorem charsLtB_strong : ∀ c a, charsLtB c a = true →
    ∀ b, charsLtB c b = true ∨ charsLtB b a = true := by
  intro c
  induction c with
  | nil =>
    intro a h b
    cases a with
    | nil => simp [charsLtB] at h
    | cons y ys =>
      cases b with
      | nil => right; simp [charsLtB]
      | cons z zs => left; simp [charsLtB]
  | cons x cs ih =>
    intro a h b
    cases a with
    | nil => simp [charsLtB] at h
    | cons y ys =>
      cases b with
      | nil => right; simp [charsLtB]
      | cons z zs =>
        have hxy2 : x.toNat ≤ y.toNat := by
          by_contra hcon
          push_neg at hcon
          have h1 : ¬ x.toNat < y.toNat := by omega
          simp [charsLtB, h1, hcon] at h
        by_cases hxz : x.toNat < z.toNat
        · left; simp [charsLtB, hxz]
        · by_cases hzx : z.toNat < x.toNat
          · right
            have hzy : z.toNat < y.toNat := by omega
            simp [charsLtB, hzy]
          · by_cases hxy : x.toNat < y.toNat
            · right
              have hzy : z.toNat < y.toNat := by omega
              simp [charsLtB, hzy]
            · have hyx : ¬ y.toNat < x.toNat := by omega
              have hrec : charsLtB cs ys = true := by simpa [charsLtB, hxy, hyx] using h
              cases ih ys hrec zs with
              | inl h2 => left; simp [charsLtB, hxz, hzx, h2]
              | inr h2 =>
                right
                have hzy1 : ¬ z.toNat < y.toNat := by omega
                have hyz : ¬ y.toNat < z.toNat := by omega
                simp [charsLtB, hzy1, hyz, h2]

/-- `childLtB` is asymmetric. -/
theorem childLtB_asymm (a b : String × Node) (h : childLtB a b = true) :
    childLtB b a = false := by
  unfold childLtB at h ⊢
  cases ha : a.2.isConsequent <;> cases hb : b.2.isConsequent <;>
    simp [ha, hb] at h ⊢ <;>
    exact charsLtB_asymm _ _ h

/-- The strict-weak-order splitting property of `childLtB`. -/
theorem childLtB_strong (c a : String × Node) (h : childLtB c a = true) (b : String × Node) :
    childLtB c b = true ∨ childLtB b a = true := by
  unfold childLtB at h ⊢
  cases hc : c.2.isConsequent <;> cases ha : a.2.isConsequent <;>
    cases hb : b.2.isConsequent <;> simp [hc, ha, hb] at h ⊢
  · exact charsLtB_strong _ _ h _
  · exact charsLtB_strong _ _ h _

instance : IsTotal (String × Node) childLe := by
  constructor
  intro a b
  unfold childLe
  by_cases h : childLtB b a = true
  · right
    exact childLtB_asymm b a h
  · left
    exact Bool.eq_false_iff.mpr (fun h2 => h (by simpa using h2))

instance : IsTrans (String × Node) childLe := by
  constructor
  intro a b c hab hbc
  unfold childLe at hab hbc ⊢
  by_contra hcon
  have hca : childLtB c a = true := by
    cases h : childLtB c a
    · exact absurd h hcon
    · rfl
  cases childLtB_strong c a hca b with
  | inl h2 => rw [hbc] at h2; cases h2
  | inr h2 => rw [hab] at h2; cases h2

/-- A pairwise `childLe` list satisfies the adjacent-chain check. -/
theorem pairwise_sortedChildrenB : ∀ l : List (String × Node),
    l.Pairwise childLe → sortedChildrenB l = true := by
  intro l
  induction l with
  | nil => intro _; rfl
  | cons a rest ih =>
    intro hp
    cases rest with
    | nil => rfl
    | cons b rest2 =>
      have hab : childLe a b := (List.pairwise_cons.mp hp).1 b (List.mem_cons_self b rest2)
      have htail := (List.pairwise_cons.mp hp).2
      unfold childLe at hab
      simp [sortedChildrenB, hab, ih htail]

/-! ### Children association list lemmas -/

/-- Replacing at an absent key is the identity. -/
theorem replaceChild_of_none {cs : List (String × Node)} {k : String}
    (h : findChild cs k = none) (n : Node) : replaceChild cs k n = cs := by
  induction cs with
  | nil => rfl
  | cons e rest ih =>
    by_cases he : e.1 = k
    · simp [findChild, he] at h
    · have hr : findChild rest k = none := by simpa [findChild, he] using h
      simp [replaceChild, he, ih hr]

/-- Lookup after replacing at the same key. -/
theorem findChild_replace_self {cs : List (String × Node)} {k : String} {c : Node}
    (h : findChild cs k = some c) (n : Node) :
    findChild (replaceChild cs k n) k = some n := by
  induction cs with
  | nil => simp [findChild] at h
  | cons e rest ih =>
    by_cases he : e.1 = k
    · simp [replaceChild, findChild, he]
    · have hr : findChild rest k = some c := by simpa [findChild, he] using h
      simp [replaceChild, findChild, he, ih hr]

/-- Lookup after replacing at a different key. -/
theorem findChild_replace_ne {cs : List (String × Node)} {k k2 : String} (h : k2 ≠ k)
    (n : Node) : findChild (replaceChild cs k n) k2 = findChild cs k2 := by
  induction cs with
  | nil => rfl
  | cons e rest ih =>
    by_cases he : e.1 = k
    · have he2 : e.1 ≠ k2 := fun hc => h (hc ▸ he)
      have hk : ¬ (k = k2) := fun hc => h hc.symm
      simp [replaceChild, findChild, he, he2, hk]
    · by_cases he2 : e.1 = k2
      · simp [replaceChild, findChild, he, he2, h]
      · simp [replaceChild, findChild, he, he2, ih]

/-- Lookup after erasing a different key. -/
theorem findChild_erase_ne {cs : List (String × Node)} {k k2 : String} (h : k2 ≠ k) :
    findChild (eraseChild cs k) k2 = findChild cs k2 := by
  induction cs with
  | nil => rfl
  | cons e rest ih =>
    by_cases he : e.1 = k
    · have he2 : e.1 ≠ k2 := fun hc => h (hc ▸ he)
      have hk : ¬ (k = k2) := fun hc => h hc.symm
      simp [eraseChild, findChild, he, he2, hk]
    · by_cases he2 : e.1 = k2
      · simp [eraseChild, findChild, he, he2, h]
      · simp [eraseChild, findChild, he, he2, ih]

/-- The two conjuncts of `keysNodupB` at a cons cell. -/
theorem keysNodupB_cons {k0 : String} {c0 : Node} {rest : List (String × Node)} :
    keysNodupB ((k0, c0) :: rest) = (keyNotMem k0 rest && keysNodupB rest) := rfl

/-- `keyNotMem` at a cons cell. -/
theorem keyNotMem_cons {k k0 : String} {c0 : Node} {rest : List (String × Node)} :
    keyNotMem k ((k0, c0) :: rest) = ((!(k0 == k)) && keyNotMem k rest) := rfl

/-- `keyNotMem` answers exactly the failing lookups. -/
theorem keyNotMem_iff {cs : List (String × Node)} {k : String} :
    keyNotMem k cs = true ↔ findChild cs k = none := by
  induction cs with
  | nil => simp [keyNotMem, findChild]
  | cons e rest ih =>
    obtain ⟨k0, c0⟩ := e
    rw [keyNotMem_cons]
    by_cases he : k0 = k
    · simp [findChild, he]
    · simp [findChild, he, ih]

/-- Lookup after erasing the key itself, on distinct keys. -/
theorem findChild_erase_self {cs : List (String × Node)} {k : String}
    (h : keysNodupB cs = true) : findChild (eraseChild cs k) k = none := by
  induction cs with
  | nil => rfl
  | cons e rest ih =>
    obtain ⟨k0, c0⟩ := e
    rw [keysNodupB_cons] at h
    have h1 : keyNotMem k0 rest = true := andE_left h
    have h2 : keysNodupB rest = true := andE_right h
    by_cases he : k0 = k
    · subst he
      rw [show eraseChild ((k0, c0) :: rest) k0 = rest by simp [eraseChild]]
      exact keyNotMem_iff.mp h1
    · simp [eraseChild, findChild, he, ih h2]

/-- Successful lookups are memberships. -/
theorem findChild_mem {cs : List (String × Node)} {k : String} {c : Node}
    (h : findChild cs k = some c) : (k, c) ∈ cs := by
  induction cs with
  | nil => simp [findChild] at h
  | cons e rest ih =>
    obtain ⟨k0, c0⟩ := e
    by_cases he : k0 = k
    · have h2 : c0 = c := by simpa [findChild, he] using h
      subst he
      subst h2
      exact List.mem_cons_self _ _
    · have hr : findChild rest k = some c := by simpa [findChild, he] using h
      exact List.mem_cons_of_mem _ (ih hr)

/-- On distinct keys, memberships determine lookups. -/
theorem findChild_of_mem {cs : List (String × Node)} {k : String} {c : Node}
    (hnd : keysNodupB cs = true) (h : (k, c) ∈ cs) : findChild cs k = some c := by
  induction cs with
  | nil => cases h
  | cons e rest ih =>
    obtain ⟨k0, c0⟩ := e
    rw [keysNodupB_cons] at hnd
    have h1 : keyNotMem k0 rest = true := andE_left hnd
    have h2 : keysNodupB rest = true := andE_right hnd
    cases List.mem_cons.mp h with
    | inl he =>
      have hk : k0 = k := by
        have := congrArg Prod.fst he
        exact this.symm
      have hc : c0 = c := by
        have := congrArg Prod.snd he
        exact this.symm
      subst hk
      subst hc
      simp [findChild]
    | inr hm =>
      by_cases he : k0 = k
      · exfalso
        subst he
        have hmem : findChild rest k0 = some c := ih h2 hm
        rw [keyNotMem_iff.mp h1] at hmem
        cases hmem
      · simp [findChild, he, ih h2 hm]

/-- `keyNotMem` is absence from the key projection. -/
theorem keyNotMem_iff_not_mem_keys {cs : List (String × Node)} {k : String} :
    keyNotMem k cs = true ↔ k ∉ cs.map Prod.fst := by
  induction cs with
  | nil => simp [keyNotMem]
  | cons e rest ih =>
    obtain ⟨k0, c0⟩ := e
    rw [keyNotMem_cons]
    simp only [Bool.and_eq_true, ih, List.map_cons, List.mem_cons]
    constructor
    · rintro ⟨h1, h2⟩ hor
      cases hor with
      | inl he =>
        simp at h1
        exact h1 he.symm
      | inr hm => exact h2 hm
    · intro h
      refine ⟨?_, fun hm => h (Or.inr hm)⟩
      simp
      intro he
      exact h (Or.inl he.symm)

/-- `keysNodupB` is `Nodup` of the key projection. -/
theorem keysNodupB_iff_nodup {cs : List (String × Node)} :
    keysNodupB cs = true ↔ (cs.map Prod.fst).Nodup := by
  induction cs with
  | nil => simp [keysNodupB]
  | cons e rest ih =>
    simp [keysNodupB, List.map_cons, List.nodup_cons, ih, keyNotMem_iff_not_mem_keys]

/-- Distinct keys transport along permutations. -/
theorem keysNodupB_perm {cs cs2 : List (String × Node)} (hp : cs.Perm cs2)
    (h : keysNodupB cs = true) : keysNodupB cs2 = true := by
  rw [keysNodupB_iff_nodup] at h ⊢
  exact (hp.map Prod.fst).nodup_iff.mp h

/-- Lookups transport along permutations of distinct-key lists. -/
theorem findChild_perm {cs cs2 : List (String × Node)} (hp : cs.Perm cs2)
    (hnd : keysNodupB cs = true) (k : String) : findChild cs k = findChild cs2 k := by
  have hnd2 : keysNodupB cs2 = true := keysNodupB_perm hp hnd
  cases hf : findChild cs k with
  | some c =>
    have := findChild_mem hf
    exact (findChild_of_mem hnd2 (hp.mem_iff.mp this)).symm
  | none =>
    cases hf2 : findChild cs2 k with
    | some c =>
      have := findChild_mem hf2
      have := findChild_of_mem hnd (hp.mem_iff.mpr this)
      rw [hf] at this
      cases this
    | none => rfl

/-! ### Node accessor and predicate unfolding lemmas -/

@[simp]
theorem isConsequent_mk (b : Bool) (o : Nat) (cs : List (String × Node)) :
    (Node.mk b o cs).isConsequent = b := rfl

@[simp]
theorem occurrences_mk (b : Bool) (o : Nat) (cs : List (String × Node)) :
    (Node.mk b o cs).occurrences = o := rfl

@[simp]
theorem children_mk (b : Bool) (o : Nat) (cs : List (String × Node)) :
    (Node.mk b o cs).children = cs := rfl

/-- Unfolding `wfNode` at a constructor. -/
theorem wfNode_mk (b : Bool) (o : Nat) (cs : List (String × Node)) :
    wfNode (Node.mk b o cs) = (keysNodupB cs && sortedChildrenB cs && wfChildren cs) := rfl

/-- `wfNode` only depends on the children list. -/
theorem wfNode_children (n : Node) :
    wfNode n = (keysNodupB n.children && sortedChildrenB n.children && wfChildren n.children) := by
  cases n
  rfl

/-- Unfolding `posNode`. -/
theorem posNode_children (n : Node) : posNode n = posChildren n.children := by
  cases n
  rfl

/-- Unfolding `flaggedNode`. -/
theorem flaggedNode_children (phi : String → Bool) (n : Node) :
    flaggedNode phi n = flaggedChildren phi n.children := by
  cases n
  rfl

/-- `wfChildren` as a membership statement. -/
theorem wfChildren_iff {cs : List (String × Node)} :
    wfChildren cs = true ↔ ∀ e ∈ cs, wfNode e.2 = true := by
  induction cs with
  | nil => simp [wfChildren]
  | cons e rest ih =>
    obtain ⟨k0, c0⟩ := e
    rw [show wfChildren ((k0, c0) :: rest) = (wfNode c0 && wfChildren rest) from rfl]
    simp only [Bool.and_eq_true, ih]
    constructor
    · rintro ⟨h1, h2⟩ e he
      cases List.mem_cons.mp he with
      | inl heq => rw [heq]; exact h1
      | inr hm => exact h2 e hm
    · intro h
      exact ⟨h (k0, c0) (List.mem_cons_self _ _), fun e he => h e (List.mem_cons_of_mem _ he)⟩

/-- `posChildren` as a membership statement. -/
theorem posChildren_iff {cs : List (String × Node)} :
    posChildren cs = true ↔ ∀ e ∈ cs, e.2.occurrences ≠ 0 ∧ posNode e.2 = true := by
  induction cs with
  | nil => simp [posChildren]
  | cons e rest ih =>
    obtain ⟨k0, c0⟩ := e
    rw [show posChildren ((k0, c0) :: rest) =
      ((c0.occurrences != 0) && posNode c0 && posChildren rest) from rfl]
    simp only [Bool.and_eq_true, ih, bne_iff_ne, ne_eq]
    constructor
    · rintro ⟨⟨h0, h1⟩, h2⟩ e he
      cases List.mem_cons.mp he with
      | inl heq => rw [heq]; exact ⟨h0, h1⟩
      | inr hm => exact h2 e hm
    · intro h
      refine ⟨⟨(h (k0, c0) (List.mem_cons_self _ _)).1, (h (k0, c0) (List.mem_cons_self _ _)).2⟩,
        fun e he => h e (List.mem_cons_of_mem _ he)⟩

/-- `flaggedChildren` as a membership statement. -/
theorem flaggedChildren_iff {phi : String → Bool} {cs : List (String × Node)} :
    flaggedChildren phi cs = true ↔
      ∀ e ∈ cs, e.2.isConsequent = phi e.1 ∧ flaggedNode phi e.2 = true := by
  induction cs with
  | nil => simp [flaggedChildren]
  | cons e rest ih =>
    obtain ⟨k0, c0⟩ := e
    rw [show flaggedChildren phi ((k0, c0) :: rest) =
      ((c0.isConsequent == phi k0) && flaggedNode phi c0 && flaggedChildren phi rest) from rfl]
    simp only [Bool.and_eq_true, ih, beq_iff_eq]
    constructor
    · rintro ⟨⟨h0, h1⟩, h2⟩ e he
      cases List.mem_cons.mp he with
      | inl heq => rw [heq]; exact ⟨h0, h1⟩
      | inr hm => exact h2 e hm
    · intro h
      refine ⟨⟨(h (k0, c0) (List.mem_cons_self _ _)).1, (h (k0, c0) (List.mem_cons_self _ _)).2⟩,
        fun e he => h e (List.mem_cons_of_mem _ he)⟩

/-- The adjacent-chain order is pairwise, by transitivity. -/
theorem sortedChildrenB_pairwise {cs : List (String × Node)}
    (h : sortedChildrenB cs = true) : cs.Pairwise childLe := by
  induction cs with
  | nil => simp
  | cons a rest ih =>
    cases rest with
    | nil => simp
    | cons b rest2 =>
      rw [show sortedChildrenB (a :: b :: rest2) =
        ((!(childLtB b a)) && sortedChildrenB (b :: rest2)) from rfl] at h
      have hab : childLe a b := by
        have := andE_left h
        unfold childLe
        simpa using this
      have htail : (b :: rest2).Pairwise childLe := ih (andE_right h)
      refine List.pairwise_cons.mpr ⟨?_, htail⟩
      intro x hx
      cases List.mem_cons.mp hx with
      | inl heq => rw [heq]; exact hab
      | inr hm =>
        have hbx : childLe b x := (List.pairwise_cons.mp htail).1 x hm
        exact Trans.trans hab hbx

/-- `childLtB` only depends on the keys and flags. -/
theorem childLtB_ext {a b a2 b2 : String × Node} (ha1 : a.1 = a2.1)
    (ha2 : a.2.isConsequent = a2.2.isConsequent) (hb1 : b.1 = b2.1)
    (hb2 : b.2.isConsequent = b2.2.isConsequent) : childLtB a b = childLtB a2 b2 := by
  unfold childLtB
  rw [ha2, hb2, ha1, hb1]

/-- Keys are unchanged by `replaceChild`. -/
theorem map_fst_replaceChild (cs : List (String × Node)) (k : String) (n : Node) :
    (replaceChild cs k n).map Prod.fst = cs.map Prod.fst := by
  induction cs with
  | nil => rfl
  | cons e rest ih =>
    by_cases he : e.1 = k
    · simp [replaceChild, he]
    · simp [replaceChild, he, ih]

/-- `eraseChild` yields a sublist. -/
theorem eraseChild_sublist (cs : List (String × Node)) (k : String) :
    (eraseChild cs k).Sublist cs := by
  induction cs with
  | nil => simp [eraseChild]
  | cons e rest ih =>
    by_cases he : e.1 = k
    · rw [show eraseChild (e :: rest) k = rest by simp [eraseChild, he]]
      exact List.sublist_cons_self e rest
    · rw [show eraseChild (e :: rest) k = e :: eraseChild rest k by simp [eraseChild, he]]
      exact List.Sublist.cons₂ e ih

/-- Members of `replaceChild` are old members or the replacement. -/
theorem mem_replaceChild {cs : List (String × Node)} {k : String} {n : Node} {e : String × Node}
    (h : e ∈ replaceChild cs k n) : e ∈ cs ∨ e.2 = n := by
  induction cs with
  | nil => simp [replaceChild] at h
  | cons e0 rest ih =>
    by_cases he : e0.1 = k
    · rw [show replaceChild (e0 :: rest) k n = (e0.1, n) :: rest by simp [replaceChild, he]] at h
      cases List.mem_cons.mp h with
      | inl heq => right; rw [heq]
      | inr hm => left; exact List.mem_cons_of_mem _ hm
    · rw [show replaceChild (e0 :: rest) k n = e0 :: replaceChild rest k n by
        simp [replaceChild, he]] at h
      cases List.mem_cons.mp h with
      | inl heq => left; rw [heq]; exact List.mem_cons_self _ _
      | inr hm =>
        cases ih hm with
        | inl h2 => left; exact List.mem_cons_of_mem _ h2
        | inr h2 => right; exact h2

/-- `keysNodupB` survives `replaceChild`. -/
theorem keysNodupB_replace {cs : List (String × Node)} {k : String} {n : Node}
    (h : keysNodupB cs = true) : keysNodupB (replaceChild cs k n) = true := by
  rw [keysNodupB_iff_nodup] at h ⊢
  rw [map_fst_replaceChild]
  exact h

/-- `keysNodupB` survives `eraseChild`. -/
theorem keysNodupB_erase {cs : List (String × Node)} {k : String}
    (h : keysNodupB cs = true) : keysNodupB (eraseChild cs k) = true := by
  rw [keysNodupB_iff_nodup] at h ⊢
  exact ((eraseChild_sublist cs k).map Prod.fst).nodup h

/-- `sortedChildrenB` survives `eraseChild`. -/
theorem sortedChildrenB_erase {cs : List (String × Node)} {k : String}
    (h : sortedChildrenB cs = true) : sortedChildrenB (eraseChild cs k) = true := by
  exact pairwise_sortedChildrenB _ ((sortedChildrenB_pairwise h).sublist (eraseChild_sublist cs k))

/-- `sortedChildrenB` survives a flag-preserving `replaceChild`. -/
theorem sortedChildrenB_replace {k : String} {n c : Node} :
    ∀ cs : List (String × Node), sortedChildrenB cs = true → findChild cs k = some c →
      n.isConsequent = c.isConsequent → sortedChildrenB (replaceChild cs k n) = true := by
  intro cs
  induction cs with
  | nil => intro _ hf; simp [findChild] at hf
  | cons e1 tail ih =>
    intro hs hf hflag
    cases tail with
    | nil =>
      by_cases he : e1.1 = k
      · simp [replaceChild, he, sortedChildrenB]
      · simp [findChild, he] at hf
    | cons e2 rest =>
      rw [show sortedChildrenB (e1 :: e2 :: rest) =
        ((!(childLtB e2 e1)) && sortedChildrenB (e2 :: rest)) from rfl] at hs
      have hs1 := andE_left hs
      have hs2 := andE_right hs
      by_cases he : e1.1 = k
      · have hc : c = e1.2 := by
          have h2 : findChild (e1 :: e2 :: rest) k = some e1.2 := by simp [findChild, he]
          rw [hf] at h2
          exact Option.some_inj.mp h2
        rw [show replaceChild (e1 :: e2 :: rest) k n = (e1.1, n) :: e2 :: rest by
          simp [replaceChild, he]]
        rw [show sortedChildrenB ((e1.1, n) :: e2 :: rest) =
          ((!(childLtB e2 (e1.1, n))) && sortedChildrenB (e2 :: rest)) from rfl]
        have heq : childLtB e2 (e1.1, n) = childLtB e2 e1 :=
          childLtB_ext rfl rfl rfl (by rw [show ((e1.1, n) : String × Node).2 = n from rfl,
            hflag, hc])
        rw [heq, hs2]
        simpa using hs1
      · have hf2 : findChild (e2 :: rest) k = some c := by simpa [findChild, he] using hf
        rw [show replaceChild (e1 :: e2 :: rest) k n = e1 :: replaceChild (e2 :: rest) k n by
          simp [replaceChild, he]]
        have htail : sortedChildrenB (replaceChild (e2 :: rest) k n) = true := ih hs2 hf2 hflag
        by_cases he2 : e2.1 = k
        · rw [show replaceChild (e2 :: rest) k n = (e2.1, n) :: rest by
            simp [replaceChild, he2]] at htail ⊢
          rw [show sortedChildrenB (e1 :: (e2.1, n) :: rest) =
            ((!(childLtB (e2.1, n) e1)) && sortedChildrenB ((e2.1, n) :: rest)) from rfl]
          have hc : c = e2.2 := by
            have h2 : findChild (e2 :: rest) k = some e2.2 := by simp [findChild, he2]
            rw [hf2] at h2
            exact Option.some_inj.mp h2
          have heq : childLtB (e2.1, n) e1 = childLtB e2 e1 :=
            childLtB_ext rfl (by rw [show ((e2.1, n) : String × Node).2 = n from rfl,
              hflag, hc]) rfl rfl
          rw [heq, htail]
          simpa using hs1
        · rw [show replaceChild (e2 :: rest) k n = e2 :: replaceChild rest k n by
            simp [replaceChild, he2]] at htail ⊢
          rw [show sortedChildrenB (e1 :: e2 :: replaceChild rest k n) =
            ((!(childLtB e2 e1)) && sortedChildrenB (e2 :: replaceChild rest k n)) from rfl]
          rw [htail]
          simpa using hs1

/-- `wfChildren` survives a well-formed `replaceChild`. -/
theorem wfChildren_replace {cs : List (String × Node)} {k : String} {n : Node}
    (h : wfChildren cs = true) (hn : wfNode n = true) :
    wfChildren (replaceChild cs k n) = true := by
  rw [wfChildren_iff] at h ⊢
  intro e he
  cases mem_replaceChild he with
  | inl hm => exact h e hm
  | inr heq => rw [heq]; exact hn

/-- `wfChildren` survives `eraseChild`. -/
theorem wfChildren_erase {cs : List (String × Node)} {k : String}
    (h : wfChildren cs = true) : wfChildren (eraseChild cs k) = true := by
  rw [wfChildren_iff] at h ⊢
  intro e he
  exact h e ((eraseChild_sublist cs k).mem he)

/-! ### `getOrCreateChild` characterization -/

/-- A found child returns the node unchanged. -/
theorem getOrCreateChild_found {n : Node} {k : String} {c : Node} (b : Bool)
    (h : findChild n.children k = some c) : getOrCreateChild n k b = (n, false) := by
  unfold getOrCreateChild
  rw [h]

/-- A created child: flags and counter of the parent survive, and the new
children list is a permutation of the old one plus the fresh node. -/
theorem getOrCreateChild_created {n : Node} {k : String} (b : Bool)
    (h : findChild n.children k = none) :
    (getOrCreateChild n k b).1.isConsequent = n.isConsequent ∧
    (getOrCreateChild n k b).1.occurrences = n.occurrences ∧
    (getOrCreateChild n k b).1.children.Perm ((k, Node.mk b 0 []) :: n.children) ∧
    (getOrCreateChild n k b).2 = true := by
  cases n with
  | mk b0 o0 cs =>
    simp only [children_mk] at h
    unfold getOrCreateChild
    simp only [children_mk, isConsequent_mk, occurrences_mk, h]
    cases cs with
    | nil =>
      exact ⟨rfl, rfl, List.Perm.refl _, rfl⟩
    | cons e0 tail =>
      cases tail with
      | nil =>
        dsimp only
        by_cases hlt : childLtB (k, Node.mk b 0 []) e0 = true
        · rw [if_pos hlt]
          exact ⟨rfl, rfl, List.Perm.refl _, rfl⟩
        · rw [if_neg hlt]
          exact ⟨rfl, rfl, List.Perm.swap _ _ _, rfl⟩
      | cons e1 rest =>
        dsimp only
        refine ⟨rfl, rfl, ?_, rfl⟩
        exact (List.perm_insertionSort childLe _).trans (List.perm_append_singleton _ _)

/-- A created child keeps `wfNode`. -/
theorem getOrCreateChild_wf {n : Node} {k : String} (b : Bool) (hwf : wfNode n = true) :
    wfNode (getOrCreateChild n k b).1 = true := by
  cases hf : findChild n.children k with
  | some c => rw [getOrCreateChild_found b hf]; exact hwf
  | none =>
    rw [wfNode_children] at hwf
    have hnd := andE_left (andE_left hwf)
    have hsort := andE_right (andE_left hwf)
    have hch := andE_right hwf
    have hnew : keysNodupB ((k, Node.mk b 0 []) :: n.children) = true := by
      rw [show keysNodupB ((k, Node.mk b 0 []) :: n.children) =
        (keyNotMem k n.children && keysNodupB n.children) from rfl]
      rw [keyNotMem_iff.mpr hf, hnd]
      rfl
    obtain ⟨_, _, hperm, _⟩ := getOrCreateChild_created b hf
    rw [wfNode_children]
    have hndr : keysNodupB (getOrCreateChild n k b).1.children = true :=
      keysNodupB_perm hperm.symm hnew
    have hchr : wfChildren (getOrCreateChild n k b).1.children = true := by
      rw [wfChildren_iff]
      intro e he
      have hmem := hperm.mem_iff.mp he
      cases List.mem_cons.mp hmem with
      | inl heq => rw [heq]; rfl
      | inr hm => exact wfChildren_iff.mp hch e hm
    -- sortedness: go through the three creation branches
    have hsr : sortedChildrenB (getOrCreateChild n k b).1.children = true := by
      cases n with
      | mk b0 o0 cs =>
        simp only [children_mk] at hf
        unfold getOrCreateChild
        simp only [children_mk, isConsequent_mk, occurrences_mk, hf]
        cases cs with
        | nil => rfl
        | cons e0 tail =>
          cases tail with
          | nil =>
            dsimp only
            by_cases hlt : childLtB (k, Node.mk b 0 []) e0 = true
            · rw [if_pos hlt]
              simp only [children_mk]
              rw [show sortedChildrenB [(k, Node.mk b 0 []), e0] =
                ((!(childLtB e0 (k, Node.mk b 0 []))) && true) from rfl]
              rw [childLtB_asymm _ _ hlt]
              rfl
            · rw [if_neg hlt]
              simp only [children_mk]
              rw [show sortedChildrenB [e0, (k, Node.mk b 0 [])] =
                ((!(childLtB (k, Node.mk b 0 []) e0)) && true) from rfl]
              rw [Bool.eq_false_iff.mpr (fun h2 => hlt h2)]
              rfl
          | cons e1 rest =>
            dsimp only
            apply pairwise_sortedChildrenB
            exact List.sorted_insertionSort childLe _
    rw [hndr, hsr, hchr]
    rfl

/-- `getOrCreateChild` does not change any counter: `occAt` is invariant
(the fresh child starts at zero, the same value `occAt` gives an absent
node). -/
theorem getOrCreateChild_occAt {n : Node} {k : String} (b : Bool) (hwf : wfNode n = true)
    (p : List String) : occAt (getOrCreateChild n k b).1 p = occAt n p := by
  cases hf : findChild n.children k with
  | some c => rw [getOrCreateChild_found b hf]
  | none =>
    rw [wfNode_children] at hwf
    have hnd := andE_left (andE_left hwf)
    obtain ⟨hflag, hocc, hperm, _⟩ := getOrCreateChild_created b hf
    have hnew : keysNodupB ((k, Node.mk b 0 []) :: n.children) = true := by
      rw [show keysNodupB ((k, Node.mk b 0 []) :: n.children) =
        (keyNotMem k n.children && keysNodupB n.children) from rfl]
      rw [keyNotMem_iff.mpr hf, hnd]
      rfl
    cases p with
    | nil =>
      show (getOrCreateChild n k b).1.occurrences = n.occurrences
      exact hocc
    | cons k2 q =>
      have hfind : findChild (getOrCreateChild n k b).1.children k2 =
          findChild ((k, Node.mk b 0 []) :: n.children) k2 :=
        findChild_perm hperm (keysNodupB_perm hperm.symm hnew) k2
      by_cases hk : k2 = k
      · subst hk
        have : findChild ((k2, Node.mk b 0 []) :: n.children) k2 = some (Node.mk b 0 []) := by
          simp [findChild]
        rw [this] at hfind
        show occAt _ (k2 :: q) = occAt n (k2 :: q)
        rw [show occAt (getOrCreateChild n k2 b).1 (k2 :: q) =
          (match findChild (getOrCreateChild n k2 b).1.children k2 with
            | some c => occAt c q | none => 0) from by
            cases h2 : findChild (getOrCreateChild n k2 b).1.children k2 <;>
              simp [occAt, getNode, h2]]
        rw [hfind]
        have hz : occAt (Node.mk b 0 []) q = 0 := by
          cases q with
          | nil => rfl
          | cons a r => simp [occAt, getNode, findChild]
        rw [show occAt n (k2 :: q) =
          (match findChild n.children k2 with | some c => occAt c q | none => 0) from by
            cases h2 : findChild n.children k2 <;> simp [occAt, getNode, h2]]
        rw [hf]
        dsimp only
        exact hz
      · have hne : ¬ (k = k2) := fun h2 => hk h2.symm
        have : findChild ((k, Node.mk b 0 []) :: n.children) k2 = findChild n.children k2 := by
          simp [findChild, hne]
        rw [this] at hfind
        rw [show occAt (getOrCreateChild n k b).1 (k2 :: q) =
          (match findChild (getOrCreateChild n k b).1.children k2 with
            | some c => occAt c q | none => 0) from by
            cases h2 : findChild (getOrCreateChild n k b).1.children k2 <;>
              simp [occAt, getNode, h2]]
        rw [show occAt n (k2 :: q) =
          (match findChild n.children k2 with | some c => occAt c q | none => 0) from by
            cases h2 : findChild n.children k2 <;> simp [occAt, getNode, h2]]
        rw [hfind]

/-! ### `occAt` and child lookup -/

/-- `occAt` one step down. -/
theorem occAt_cons (n : Node) (k : String) (q : List String) :
    occAt n (k :: q) = (match findChild n.children k with
      | some c => occAt c q
      | none => 0) := by
  cases h : findChild n.children k <;> simp [occAt, getNode, h]

@[simp]
theorem occAt_nil_path (n : Node) : occAt n [] = n.occurrences := rfl

/-- `occAt` through a found child. -/
theorem occAt_cons_found {n : Node} {k : String} {c : Node}
    (h : findChild n.children k = some c) (q : List String) :
    occAt n (k :: q) = occAt c q := by
  rw [occAt_cons, h]

/-- `occAt` through an absent child. -/
theorem occAt_cons_none {n : Node} {k : String}
    (h : findChild n.children k = none) (q : List String) :
    occAt n (k :: q) = 0 := by
  rw [occAt_cons, h]

/-- A well-formed node has well-formed children. -/
theorem wfNode_of_find {n : Node} {k : String} {c : Node} (hwf : wfNode n = true)
    (h : findChild n.children k = some c) : wfNode c = true := by
  rw [wfNode_children] at hwf
  exact wfChildren_iff.mp (andE_right hwf) (k, c) (findChild_mem h)

/-- A flagged node has flagged children with the classifier flag. -/
theorem flagged_of_find {phi : String → Bool} {n : Node} {k : String} {c : Node}
    (hfl : flaggedNode phi n = true) (h : findChild n.children k = some c) :
    c.isConsequent = phi k ∧ flaggedNode phi c = true := by
  rw [flaggedNode_children] at hfl
  exact flaggedChildren_iff.mp hfl (k, c) (findChild_mem h)

/-- A positive node has positive children. -/
theorem pos_of_find {n : Node} {k : String} {c : Node} (hpos : posNode n = true)
    (h : findChild n.children k = some c) : c.occurrences ≠ 0 ∧ posNode c = true := by
  rw [posNode_children] at hpos
  exact posChildren_iff.mp hpos (k, c) (findChild_mem h)

/-- Flags and counter of a node survive `getOrCreateChild`. -/
theorem getOrCreateChild_top {n : Node} {k : String} (b : Bool) :
    (getOrCreateChild n k b).1.isConsequent = n.isConsequent ∧
    (getOrCreateChild n k b).1.occurrences = n.occurrences := by
  cases hf : findChild n.children k with
  | some c => rw [getOrCreateChild_found b hf]; exact ⟨rfl, rfl⟩
  | none =>
    obtain ⟨h1, h2, _, _⟩ := getOrCreateChild_created b hf
    exact ⟨h1, h2⟩

/-- After `getOrCreateChild` the wanted key is present, bound to the old
child when it existed and to the fresh node otherwise. -/
theorem getOrCreateChild_find_self {n : Node} {k : String} (b : Bool)
    (hwf : wfNode n = true) :
    findChild (getOrCreateChild n k b).1.children k =
      some ((findChild n.children k).getD (Node.mk b 0 [])) := by
  cases hf : findChild n.children k with
  | some c => rw [getOrCreateChild_found b hf]; simpa using hf
  | none =>
    rw [wfNode_children] at hwf
    have hnd := andE_left (andE_left hwf)
    obtain ⟨_, _, hperm, _⟩ := getOrCreateChild_created b hf
    have hnew : keysNodupB ((k, Node.mk b 0 []) :: n.children) = true := by
      rw [show keysNodupB ((k, Node.mk b 0 []) :: n.children) =
        (keyNotMem k n.children && keysNodupB n.children) from rfl]
      rw [keyNotMem_iff.mpr hf, hnd]
      rfl
    rw [findChild_perm hperm (keysNodupB_perm hperm.symm hnew) k]
    simp [findChild]

/-- Lookups at other keys are unchanged by `getOrCreateChild`. -/
theorem getOrCreateChild_find_ne {n : Node} {k k2 : String} (b : Bool)
    (hwf : wfNode n = true) (hk : k2 ≠ k) :
    findChild (getOrCreateChild n k b).1.children k2 = findChild n.children k2 := by
  cases hf : findChild n.children k with
  | some c => rw [getOrCreateChild_found b hf]
  | none =>
    rw [wfNode_children] at hwf
    have hnd := andE_left (andE_left hwf)
    obtain ⟨_, _, hperm, _⟩ := getOrCreateChild_created b hf
    have hnew : keysNodupB ((k, Node.mk b 0 []) :: n.children) = true := by
      rw [show keysNodupB ((k, Node.mk b 0 []) :: n.children) =
        (keyNotMem k n.children && keysNodupB n.children) from rfl]
      rw [keyNotMem_iff.mpr hf, hnd]
      rfl
    rw [findChild_perm hperm (keysNodupB_perm hperm.symm hnew) k2]
    have hne : ¬ (k = k2) := fun h2 => hk h2.symm
    simp [findChild, hne]

/-- Children with other keys were already children before
`getOrCreateChild`. -/
theorem getOrCreateChild_mem_ne {n : Node} {k : String} {b : Bool} {e : String × Node}
    (hmem : e ∈ (getOrCreateChild n k b).1.children) (hk : e.1 ≠ k) :
    e ∈ n.children := by
  cases hf : findChild n.children k with
  | some c => rw [getOrCreateChild_found b hf] at hmem; exact hmem
  | none =>
    obtain ⟨_, _, hperm, _⟩ := getOrCreateChild_created b hf
    have := hperm.mem_iff.mp hmem
    cases List.mem_cons.mp this with
    | inl heq =>
      exfalso
      apply hk
      rw [heq]
    | inr hm => exact hm

/-- `getOrCreateChild` keeps the classifier invariant when the new flag
agrees with the classifier. -/
theorem getOrCreateChild_flagged {phi : String → Bool} {n : Node} {k : String} {b : Bool}
    (hwf : wfNode n = true) (hfl : flaggedNode phi n = true) (hb : b = phi k) :
    flaggedNode phi (getOrCreateChild n k b).1 = true := by
  cases hf : findChild n.children k with
  | some c => rw [getOrCreateChild_found b hf]; exact hfl
  | none =>
    obtain ⟨_, _, hperm, _⟩ := getOrCreateChild_created b hf
    rw [flaggedNode_children]
    rw [flaggedChildren_iff]
    intro e he
    have := hperm.mem_iff.mp he
    cases List.mem_cons.mp this with
    | inl heq =>
      rw [heq]
      exact ⟨by simpa using hb, rfl⟩
    | inr hm =>
      rw [flaggedNode_children] at hfl
      exact flaggedChildren_iff.mp hfl e hm

/-- Members of `replaceChild`, with the replacement identified. -/
theorem mem_replaceChild2 {cs : List (String × Node)} {k : String} {n : Node}
    {e : String × Node} (h : e ∈ replaceChild cs k n) : e ∈ cs ∨ e = (k, n) := by
  induction cs with
  | nil => simp [replaceChild] at h
  | cons e0 rest ih =>
    by_cases he : e0.1 = k
    · rw [show replaceChild (e0 :: rest) k n = (e0.1, n) :: rest by simp [replaceChild, he]] at h
      cases List.mem_cons.mp h with
      | inl heq => right; rw [heq, he]
      | inr hm => left; exact List.mem_cons_of_mem _ hm
    · rw [show replaceChild (e0 :: rest) k n = e0 :: replaceChild rest k n by
        simp [replaceChild, he]] at h
      cases List.mem_cons.mp h with
      | inl heq => left; rw [heq]; exact List.mem_cons_self _ _
      | inr hm =>
        cases ih hm with
        | inl h2 => left; exact List.mem_cons_of_mem _ h2
        | inr h2 => right; exact h2

/-- On distinct keys, a member of `replaceChild` is either an untouched old
member (with a different key) or the replacement. -/
theorem mem_replaceChild_strong {cs : List (String × Node)} {k : String} {n : Node}
    {e : String × Node} (hnd : keysNodupB cs = true) (hfind : (findChild cs k).isSome)
    (h : e ∈ replaceChild cs k n) : (e ∈ cs ∧ e.1 ≠ k) ∨ e = (k, n) := by
  induction cs with
  | nil => simp [replaceChild] at h
  | cons e0 rest ih =>
    obtain ⟨k0, c0⟩ := e0
    rw [keysNodupB_cons] at hnd
    have h1 : keyNotMem k0 rest = true := andE_left hnd
    have h2 : keysNodupB rest = true := andE_right hnd
    by_cases he : k0 = k
    · subst he
      rw [show replaceChild ((k0, c0) :: rest) k0 n = (k0, n) :: rest by
        simp [replaceChild]] at h
      cases List.mem_cons.mp h with
      | inl heq => right; exact heq
      | inr hm =>
        left
        refine ⟨List.mem_cons_of_mem _ hm, ?_⟩
        intro hek
        have : findChild rest k0 = none := keyNotMem_iff.mp h1
        have : e ∉ rest := by
          intro hcon
          have h3 := findChild_of_mem h2 (show (k0, e.2) ∈ rest from by
            have : e = (k0, e.2) := by
              cases e
              simp at hek
              simp [hek]
            rw [← this]
            exact hcon)
          rw [keyNotMem_iff.mp h1] at h3
          cases h3
        exact this hm
    · rw [show replaceChild ((k0, c0) :: rest) k n = (k0, c0) :: replaceChild rest k n by
        simp [replaceChild, he]] at h
      have hfind2 : (findChild rest k).isSome := by
        have := hfind
        simp [findChild, he] at this
        exact this
      cases List.mem_cons.mp h with
      | inl heq =>
        left
        constructor
        · rw [heq]; exact List.mem_cons_self _ _
        · rw [heq]; exact he
      | inr hm =>
        cases ih h2 hfind2 hm with
        | inl h3 => left; exact ⟨List.mem_cons_of_mem _ h3.1, h3.2⟩
        | inr h3 => right; exact h3

/-- `flaggedChildren` survives a classifier-respecting `replaceChild`. -/
theorem flaggedChildren_replace {phi : String → Bool} {cs : List (String × Node)}
    {k : String} {n : Node} (h : flaggedChildren phi cs = true)
    (hflag : n.isConsequent = phi k) (hn : flaggedNode phi n = true) :
    flaggedChildren phi (replaceChild cs k n) = true := by
  rw [flaggedChildren_iff] at h ⊢
  intro e he
  cases mem_replaceChild2 he with
  | inl hm => exact h e hm
  | inr heq => rw [heq]; exact ⟨hflag, hn⟩

/-! ### The insertion worklist characterization -/

/-- `selCount` of the empty path is zero. -/
theorem selCount_nil_path (cap : Option Nat) (its : List (String × Bool)) (acnt : Nat) :
    selCount cap its acnt [] = 0 := by
  cases its <;> rfl

/-- `selCount` with no items left is zero. -/
theorem selCount_nil_its (cap : Option Nat) (acnt : Nat) (p : List String) :
    selCount cap [] acnt p = 0 := by
  cases p <;> rfl

/-- One step of `selCount`. -/
theorem selCount_cons (cap : Option Nat) (item : String) (isCons : Bool)
    (rest : List (String × Bool)) (acnt : Nat) (k : String) (q : List String) :
    selCount cap ((item, isCons) :: rest) acnt (k :: q) =
      (if item = k then
        if q.isEmpty then 1
        else if capAllows cap (acnt + (if isCons then 0 else 1)) then
          selCount cap rest (acnt + (if isCons then 0 else 1)) q
        else 0
       else 0) + selCount cap rest acnt (k :: q) := rfl

/-- The full specification of one `insertEntry` run: flags and the counter
of the processed node survive, well-formedness, the flag classifier and
counter positivity are preserved, and every node counter grows by exactly
the number of admissible worklist selections spelling its path. -/
theorem insertEntry_spec (cap : Option Nat) (phi : String → Bool) :
    ∀ (its : List (String × Bool)) (n : Node) (acnt : Nat),
      wfNode n = true → flaggedNode phi n = true →
      (∀ e ∈ its, e.2 = phi e.1) →
      (insertEntry cap n acnt its).1.isConsequent = n.isConsequent ∧
      (insertEntry cap n acnt its).1.occurrences = n.occurrences ∧
      wfNode (insertEntry cap n acnt its).1 = true ∧
      flaggedNode phi (insertEntry cap n acnt its).1 = true ∧
      (posNode n = true → posNode (insertEntry cap n acnt its).1 = true) ∧
      (∀ p, occAt (insertEntry cap n acnt its).1 p = occAt n p + selCount cap its acnt p) := by
  intro its
  induction its with
  | nil =>
    intro n acnt hwf hfl _
    refine ⟨rfl, rfl, hwf, hfl, fun h => h, ?_⟩
    intro p
    rw [selCount_nil_its]
    rfl
  | cons x rest ih =>
    obtain ⟨item, isCons⟩ := x
    intro n acnt hwf hfl hits
    have hitem : isCons = phi item := hits (item, isCons) (List.mem_cons_self _ _)
    have hitsrest : ∀ e ∈ rest, e.2 = phi e.1 := fun e he => hits e (List.mem_cons_of_mem _ he)
    have hfind := getOrCreateChild_find_self (n := n) (k := item) isCons hwf
    have hgcwf := getOrCreateChild_wf (n := n) (k := item) isCons hwf
    have hgcfl := getOrCreateChild_flagged hwf hfl hitem
    have hgctop := getOrCreateChild_top (n := n) (k := item) isCons
    set gc := getOrCreateChild n item isCons with hgc
    set c := (findChild gc.1.children item).getD (Node.mk isCons 0 []) with hcdef
    set acnt2 := acnt + (if c.isConsequent then 0 else 1) with hacnt2
    set c1 := Node.mk c.isConsequent (c.occurrences + 1) c.children with hc1
    set r := (if capAllows cap acnt2 then insertEntry cap c1 acnt2 rest else (c1, 0)) with hrdef
    set n2 := Node.mk gc.1.isConsequent gc.1.occurrences
      (replaceChild gc.1.children item r.1) with hn2
    set rr := insertEntry cap n2 acnt rest with hrr
    have hunf : insertEntry cap n acnt ((item, isCons) :: rest) =
        (rr.1, (if gc.2 then 1 else 0) + r.2 + rr.2) := rfl
    -- facts about the child c
    have hceq : c = (findChild n.children item).getD (Node.mk isCons 0 []) := by
      rw [hcdef, hfind, Option.getD_some]
    rw [← hceq] at hfind
    have hcwf : wfNode c = true := by
      cases hf : findChild n.children item with
      | some c0 =>
        rw [hceq, hf, Option.getD_some]
        exact wfNode_of_find hwf hf
      | none => rw [hceq, hf]; rfl
    have hcfl : flaggedNode phi c = true := by
      cases hf : findChild n.children item with
      | some c0 =>
        rw [hceq, hf, Option.getD_some]
        exact (flagged_of_find hfl hf).2
      | none => rw [hceq, hf]; rfl
    have hcCons : c.isConsequent = phi item := by
      cases hf : findChild n.children item with
      | some c0 =>
        rw [hceq, hf, Option.getD_some]
        exact (flagged_of_find hfl hf).1
      | none =>
        rw [hceq, hf]
        simpa using hitem
    have hflageq : c.isConsequent = isCons := hcCons.trans hitem.symm
    have hcocc : ∀ q, occAt n (item :: q) = occAt c q := by
      intro q
      cases hf : findChild n.children item with
      | some c0 =>
        rw [occAt_cons_found hf, hceq, hf, Option.getD_some]
      | none =>
        rw [occAt_cons_none hf, hceq, hf]
        cases q with
        | nil => rfl
        | cons a q2 =>
          rw [show (none : Option Node).getD (Node.mk isCons 0 []) = Node.mk isCons 0 []
            from rfl]
          rw [occAt_cons]
          rfl
    have hcpos : posNode n = true → posNode c = true := by
      intro hp
      cases hf : findChild n.children item with
      | some c0 =>
        rw [hceq, hf, Option.getD_some]
        exact (pos_of_find hp hf).2
      | none => rw [hceq, hf]; rfl
    -- facts about the incremented child c1
    have hc1wf : wfNode c1 = true := by
      rw [hc1, wfNode_children]
      rw [wfNode_children] at hcwf
      simpa using hcwf
    have hc1fl : flaggedNode phi c1 = true := by
      rw [hc1, flaggedNode_children]
      rw [flaggedNode_children] at hcfl
      simpa using hcfl
    have hc1pos : posNode n = true → posNode c1 = true := by
      intro hp
      rw [hc1, posNode_children]
      have := hcpos hp
      rw [posNode_children] at this
      simpa using this
    -- facts about the expanded child r
    have hrfacts : r.1.isConsequent = c.isConsequent ∧ r.1.occurrences = c.occurrences + 1 ∧
        wfNode r.1 = true ∧ flaggedNode phi r.1 = true ∧
        (posNode n = true → posNode r.1 = true) ∧
        (∀ q, occAt r.1 q = occAt c1 q +
          (if capAllows cap acnt2 = true then selCount cap rest acnt2 q else 0)) := by
      by_cases hcap : capAllows cap acnt2 = true
      · obtain ⟨h1, h2, h3, h4, h5, h6⟩ := ih c1 acnt2 hc1wf hc1fl hitsrest
        rw [hrdef, if_pos hcap]
        refine ⟨h1.trans rfl, h2.trans rfl, h3, h4, fun hp => h5 (hc1pos hp), ?_⟩
        intro q
        rw [h6 q, if_pos hcap]
      · rw [hrdef, if_neg hcap]
        refine ⟨rfl, rfl, hc1wf, hc1fl, hc1pos, ?_⟩
        intro q
        rw [if_neg hcap]
        simp
    -- occAt of c1 against the original node
    have hc1occ : ∀ q, occAt c1 q = occAt n (item :: q) + (if q = [] then 1 else 0) := by
      intro q
      cases q with
      | nil =>
        rw [hcocc []]
        simp [hc1]
      | cons a q2 =>
        rw [hcocc (a :: q2)]
        simp only [if_neg (List.cons_ne_nil a q2), Nat.add_zero]
        rw [occAt_cons, occAt_cons]
        rfl
    -- facts about the rebuilt node n2
    have hgcnd : keysNodupB gc.1.children = true := by
      rw [wfNode_children] at hgcwf
      exact andE_left (andE_left hgcwf)
    have hgcsort : sortedChildrenB gc.1.children = true := by
      rw [wfNode_children] at hgcwf
      exact andE_right (andE_left hgcwf)
    have hgcch : wfChildren gc.1.children = true := by
      rw [wfNode_children] at hgcwf
      exact andE_right hgcwf
    have hn2wf : wfNode n2 = true := by
      rw [hn2, wfNode_children]
      simp only [children_mk]
      rw [keysNodupB_replace hgcnd,
        sortedChildrenB_replace gc.1.children hgcsort hfind hrfacts.1,
        wfChildren_replace hgcch hrfacts.2.2.1]
      rfl
    have hn2fl : flaggedNode phi n2 = true := by
      rw [hn2, flaggedNode_children]
      simp only [children_mk]
      apply flaggedChildren_replace ?_ (hrfacts.1.trans hcCons) hrfacts.2.2.2.1
      rw [flaggedNode_children] at hgcfl
      exact hgcfl
    have hn2pos : posNode n = true → posNode n2 = true := by
      intro hp
      rw [hn2, posNode_children]
      simp only [children_mk]
      rw [posChildren_iff]
      intro e he
      have hsome : (findChild gc.1.children item).isSome := by
        rw [hfind]
        rfl
      cases mem_replaceChild_strong hgcnd hsome he with
      | inl hold =>
        have hmem : e ∈ n.children := getOrCreateChild_mem_ne hold.1 hold.2
        rw [posNode_children] at hp
        exact posChildren_iff.mp hp e hmem
      | inr heq =>
        rw [heq]
        refine ⟨?_, hrfacts.2.2.2.2.1 hp⟩
        show r.1.occurrences ≠ 0
        rw [hrfacts.2.1]
        exact Nat.succ_ne_zero _
    have hn2top : n2.isConsequent = n.isConsequent ∧ n2.occurrences = n.occurrences :=
      ⟨hgctop.1, hgctop.2⟩
    -- assemble
    obtain ⟨g1, g2, g3, g4, g5, g6⟩ := ih n2 acnt hn2wf hn2fl hitsrest
    rw [hunf]
    refine ⟨g1.trans hn2top.1, g2.trans hn2top.2, g3, g4, fun hp => g5 (hn2pos hp), ?_⟩
    intro p
    have hg6 := g6 p
    show occAt rr.1 p = occAt n p + selCount cap ((item, isCons) :: rest) acnt p
    rw [hg6]
    cases p with
    | nil =>
      rw [selCount_nil_path, selCount_nil_path]
      simp only [occAt_nil_path, Nat.add_zero]
      exact hn2top.2
    | cons k q =>
      rw [selCount_cons]
      have hacnt2eq : acnt + (if isCons then 0 else 1) = acnt2 := by
        rw [hacnt2, hflageq]
      rw [hacnt2eq]
      by_cases hk : item = k
      · subst hk
        have hfr : findChild n2.children item = some r.1 := by
          rw [hn2]
          simp only [children_mk]
          exact findChild_replace_self hfind r.1
        rw [occAt_cons_found hfr q, hrfacts.2.2.2.2.2 q, hc1occ q]
        simp only [if_pos rfl]
        cases q with
        | nil =>
          rw [selCount_nil_path]
          simp only [List.isEmpty_nil]
          split_ifs <;> first | omega | exact absurd (by assumption) (by simp)
        | cons a q2 =>
          simp only [List.isEmpty_cons]
          split_ifs <;> first | omega | (exfalso; assumption) | exact absurd (by assumption) (List.cons_ne_nil a q2)
      · have hfr : findChild n2.children k = findChild n.children k := by
          rw [hn2]
          simp only [children_mk]
          rw [findChild_replace_ne (fun h2 => hk h2.symm) r.1]
          exact getOrCreateChild_find_ne isCons hwf (fun h2 => hk h2.symm)
        rw [occAt_cons, hfr, ← occAt_cons]
        rw [if_neg hk]
        omega

/-! ### The selection-count bridge to the admissible-path family (C3) -/

/-- `capAllows` always passes at antecedent count zero. -/
theorem capAllows_zero (cap : Option Nat) : capAllows cap 0 = true := by
  cases cap with
  | none => rfl
  | some k => cases k with
    | zero => rfl
    | succ m => simp [capAllows]

/-- Reduce a Boolean `false` conditional. -/
theorem if_bool_false (n m : Nat) : (if (false : Bool) then n else m) = m := rfl

/-- Reduce a Boolean `true` conditional. -/
theorem if_bool_true (n m : Nat) : (if (true : Bool) then n else m) = n := rfl

/-- `selCount` on a singleton path whose item matches the itemset head. -/
theorem selCount_cons_eq_one (cap : Option Nat) (i : String) (b : Bool)
    (rest : List (String × Bool)) (acnt : Nat) :
    selCount cap ((i, b) :: rest) acnt [i] = 1 + selCount cap rest acnt [i] := by
  rw [selCount_cons, if_pos rfl]
  rfl

/-- `selCount` on a longer path whose head matches the itemset head. -/
theorem selCount_cons_self_cons (cap : Option Nat) (i : String) (b : Bool)
    (rest : List (String × Bool)) (acnt : Nat) (j : String) (q : List String) :
    selCount cap ((i, b) :: rest) acnt (i :: j :: q) =
      (if capAllows cap (acnt + if b then 0 else 1) then
        selCount cap rest (acnt + if b then 0 else 1) (j :: q)
       else 0) + selCount cap rest acnt (i :: j :: q) := by
  rw [selCount_cons, if_pos rfl]
  rfl

/-- `selCount` when the itemset head does not match the path head. -/
theorem selCount_cons_ne (cap : Option Nat) (i : String) (b : Bool)
    (rest : List (String × Bool)) (acnt : Nat) (k : String) (q : List String)
    (h : i ≠ k) :
    selCount cap ((i, b) :: rest) acnt (k :: q) = selCount cap rest acnt (k :: q) := by
  rw [selCount_cons, if_neg h, Nat.zero_add]

/-- A path counted by `selCount` starts with an item of the itemset. -/
theorem selCount_head_mem {cap : Option Nat} :
    ∀ (its : List (String × Bool)) (acnt : Nat) (k : String) (q : List String),
      selCount cap its acnt (k :: q) ≠ 0 → k ∈ its.map Prod.fst
  | [], acnt, k, q => by
    intro h
    rw [selCount_nil_its] at h
    exact absurd rfl h
  | (i, b) :: rest, acnt, k, q => by
    intro h
    rw [selCount_cons] at h
    simp only [List.map_cons, List.mem_cons]
    by_cases hx : i = k
    · exact Or.inl hx.symm
    · rw [if_neg hx, Nat.zero_add] at h
      exact Or.inr (selCount_head_mem rest acnt k q h)

/-- Under duplicate-free itemset keys, every path is counted at most once. -/
theorem selCount_le_one {cap : Option Nat} :
    ∀ (its : List (String × Bool)), (its.map Prod.fst).Nodup →
      ∀ (acnt : Nat) (p : List String), selCount cap its acnt p ≤ 1
  | [], _, acnt, p => by rw [selCount_nil_its]; omega
  | (i, b) :: rest, hnd, acnt, p => by
    have hnd2 : (rest.map Prod.fst).Nodup := by
      simp only [List.map_cons, List.nodup_cons] at hnd
      exact hnd.2
    have hni : i ∉ rest.map Prod.fst := by
      simp only [List.map_cons, List.nodup_cons] at hnd
      exact hnd.1
    cases p with
    | nil => rw [selCount_nil_path]; omega
    | cons k q =>
      rw [selCount_cons]
      by_cases hx : i = k
      · subst hx
        have hz : selCount cap rest acnt (i :: q) = 0 := by
          by_contra hne
          exact hni (selCount_head_mem rest acnt i q hne)
        rw [hz]
        cases b with
        | false =>
          have h1 := @selCount_le_one cap rest hnd2 (acnt + 1) q
          rw [if_bool_false]
          split_ifs <;> omega
        | true =>
          have h1 := @selCount_le_one cap rest hnd2 (acnt + 0) q
          rw [if_bool_true]
          split_ifs <;> omega
      · rw [if_neg hx, Nat.zero_add]
        exact selCount_le_one rest hnd2 acnt (k :: q)

/-- One `capChainB` step. -/
theorem capChainB_step (cap : Option Nat) (acnt n : Nat) :
    capChainB cap acnt (n + 1 + 1) =
      (capAllows cap (acnt + 1) && capChainB cap (acnt + 1) (n + 1)) := rfl

/-- Without a cap the chain condition always passes. -/
theorem capChainB_none : ∀ (len acnt : Nat), capChainB none acnt len = true
  | 0, _ => rfl
  | 1, _ => rfl
  | n + 2, acnt => by
    rw [capChainB_step, show capAllows none (acnt + 1) = true from rfl, Bool.true_and]
    exact capChainB_none (n + 1) (acnt + 1)

/-- The chain condition of a positive cap is a plain length bound. -/
theorem capChainB_some (k : Nat) (hk : 0 < k) :
    ∀ (len acnt : Nat),
      (capChainB (some k) acnt len = true ↔ (len ≤ 1 ∨ acnt + len ≤ k))
  | 0, acnt => by
    simp [capChainB]
  | 1, acnt => by
    simp [capChainB]
  | n + 2, acnt => by
    rw [capChainB_step, Bool.and_eq_true, capChainB_some k hk (n + 1) (acnt + 1)]
    simp only [capAllows, Bool.or_eq_true, decide_eq_true_eq]
    omega

/-- At antecedent count zero the chain condition is exactly the
specification's cap bound, for a positive-or-unset cap. -/
theorem capChainB_zero_iff {cap : Option Nat} (hcap : capPosT cap) (len : Nat) :
    (capChainB cap 0 len = true ↔ capOkT cap len) := by
  cases cap with
  | none =>
    constructor
    · intro _
      trivial
    · intro _
      exact capChainB_none len 0
  | some k =>
    have hk : 0 < k := hcap k rfl
    rw [capChainB_some k hk len 0]
    show _ ↔ len ≤ k
    omega

/-- On the antecedent block, a nonzero selection count says exactly: the
path is a sublist of the antecedents and the cap chain passes. -/
theorem selCount_antecedents_iff {cap : Option Nat} :
    ∀ (a : List String) (acnt : Nat) (k : String) (q : List String),
      (selCount cap (a.map (fun x => (x, false))) acnt (k :: q) ≠ 0 ↔
        ((k :: q).Sublist a ∧ capChainB cap acnt (k :: q).length = true))
  | [], acnt, k, q => by
    rw [List.map_nil, selCount_nil_its]
    simp
  | x :: a2, acnt, k, q => by
    rw [List.map_cons]
    by_cases hx : x = k
    · subst hx
      cases q with
      | nil =>
        rw [selCount_cons_eq_one]
        constructor
        · intro _
          exact ⟨List.cons_sublist_cons.mpr (List.nil_sublist a2), rfl⟩
        · intro _
          omega
      | cons j q2 =>
        rw [selCount_cons_self_cons, if_bool_false]
        have ih1 := @selCount_antecedents_iff cap a2 (acnt + 1) j q2
        have ih2 := @selCount_antecedents_iff cap a2 acnt x (j :: q2)
        rw [show (x :: j :: q2).length = q2.length + 1 + 1 by simp, capChainB_step,
          List.cons_sublist_cons]
        by_cases hcap : capAllows cap (acnt + 1) = true
        · rw [if_pos hcap, hcap, Bool.true_and]
          constructor
          · intro h
            by_cases h1 : selCount cap (a2.map (fun x => (x, false))) (acnt + 1) (j :: q2) = 0
            · have h2 : selCount cap (a2.map (fun x => (x, false))) acnt (x :: j :: q2) ≠ 0 := by
                omega
              obtain ⟨hs, hc⟩ := ih2.mp h2
              refine ⟨List.sublist_of_cons_sublist hs, ?_⟩
              rw [show (x :: j :: q2).length = q2.length + 1 + 1 by simp, capChainB_step] at hc
              exact andE_right hc
            · obtain ⟨hs, hc⟩ := ih1.mp h1
              rw [show (j :: q2).length = q2.length + 1 by simp] at hc
              exact ⟨hs, hc⟩
          · rintro ⟨hs, hc⟩
            have h1 : selCount cap (a2.map (fun x => (x, false))) (acnt + 1) (j :: q2) ≠ 0 := by
              refine ih1.mpr ⟨hs, ?_⟩
              rw [show (j :: q2).length = q2.length + 1 by simp]
              exact hc
            omega
        · rw [if_neg hcap]
          constructor
          · intro h
            exfalso
            rw [Nat.zero_add] at h
            have hc := (ih2.mp h).2
            rw [show (x :: j :: q2).length = q2.length + 1 + 1 by simp, capChainB_step] at hc
            exact hcap (andE_left hc)
          · rintro ⟨hs, hc⟩
            exfalso
            exact hcap (andE_left hc)
    · rw [selCount_cons_ne cap x false (a2.map (fun x => (x, false))) acnt k q hx]
      rw [@selCount_antecedents_iff cap a2 acnt k q]
      constructor
      · rintro ⟨hs, hc⟩
        exact ⟨hs.trans (List.sublist_cons_self x a2), hc⟩
      · rintro ⟨hs, hc⟩
        rcases List.sublist_cons_iff.mp hs with hs2 | ⟨S2, hSeq, hS2⟩
        · exact ⟨hs2, hc⟩
        · exfalso
          cases hSeq
          exact hx rfl

/-- A nonzero selection count of the flagged canonical itemset says exactly:
the path splits into a consequent-part sublist followed by an
antecedent-part sublist, is nonempty, and its antecedent count passes the
cap chain. -/
theorem selCount_itsOf_iff {cap : Option Nat} :
    ∀ (c a : List String) (p : List String),
      (selCount cap (itsOf c a) 0 p ≠ 0 ↔
        (∃ S T, S.Sublist c ∧ T.Sublist a ∧ S ++ T = p ∧ p ≠ [] ∧
          capChainB cap 0 T.length = true))
  | [], a, p => by
    cases p with
    | nil =>
      rw [selCount_nil_path]
      constructor
      · intro h
        exact absurd rfl h
      · rintro ⟨S, T, hS, hT, hST, hne, hc⟩
        exact (hne rfl).elim
    | cons k q =>
      have h := @selCount_antecedents_iff cap a 0 k q
      rw [show itsOf [] a = a.map (fun x => (x, false)) from rfl, h]
      constructor
      · rintro ⟨hs, hc⟩
        exact ⟨[], k :: q, List.Sublist.refl [], hs, rfl, List.cons_ne_nil k q, hc⟩
      · rintro ⟨S, T, hS, hT, hST, hne, hc⟩
        have hSnil : S = [] := List.sublist_nil.mp hS
        subst hSnil
        rw [List.nil_append] at hST
        subst hST
        exact ⟨hT, hc⟩
  | x :: c2, a, p => by
    cases p with
    | nil =>
      rw [selCount_nil_path]
      constructor
      · intro h
        exact absurd rfl h
      · rintro ⟨S, T, hS, hT, hST, hne, hc⟩
        exact (hne rfl).elim
    | cons k q =>
      rw [show itsOf (x :: c2) a = (x, true) :: itsOf c2 a from rfl]
      by_cases hx : x = k
      · subst hx
        cases q with
        | nil =>
          rw [selCount_cons_eq_one]
          constructor
          · intro _
            exact ⟨[x], [], List.cons_sublist_cons.mpr (List.nil_sublist c2),
              List.nil_sublist a, rfl, List.cons_ne_nil x [], rfl⟩
          · intro _
            omega
        | cons j q2 =>
          rw [selCount_cons_self_cons, if_bool_true, Nat.add_zero,
            if_pos (capAllows_zero cap)]
          have ih1 := @selCount_itsOf_iff cap c2 a (j :: q2)
          have ih2 := @selCount_itsOf_iff cap c2 a (x :: j :: q2)
          constructor
          · intro h
            by_cases h1 : selCount cap (itsOf c2 a) 0 (j :: q2) = 0
            · have h2 : selCount cap (itsOf c2 a) 0 (x :: j :: q2) ≠ 0 := by
                omega
              obtain ⟨S, T, hS, hT, hST, hne, hc⟩ := ih2.mp h2
              exact ⟨S, T, hS.trans (List.sublist_cons_self x c2), hT, hST,
                List.cons_ne_nil _ _, hc⟩
            · obtain ⟨S, T, hS, hT, hST, hne, hc⟩ := ih1.mp h1
              refine ⟨x :: S, T, List.cons_sublist_cons.mpr hS, hT, ?_,
                List.cons_ne_nil _ _, hc⟩
              rw [List.cons_append, hST]
          · rintro ⟨S, T, hS, hT, hST, hne, hc⟩
            rcases List.sublist_cons_iff.mp hS with hS2 | ⟨S2, hSeq, hS2⟩
            · have h2 : selCount cap (itsOf c2 a) 0 (x :: j :: q2) ≠ 0 :=
                ih2.mpr ⟨S, T, hS2, hT, hST, List.cons_ne_nil _ _, hc⟩
              omega
            · subst hSeq
              rw [List.cons_append] at hST
              have hST2 : S2 ++ T = j :: q2 := by
                have h2 := congrArg List.tail hST
                simpa using h2
              have h1 : selCount cap (itsOf c2 a) 0 (j :: q2) ≠ 0 :=
                ih1.mpr ⟨S2, T, hS2, hT, hST2, List.cons_ne_nil _ _, hc⟩
              omega
      · rw [selCount_cons_ne cap x true (itsOf c2 a) 0 k q hx]
        rw [@selCount_itsOf_iff cap c2 a (k :: q)]
        constructor
        · rintro ⟨S, T, hS, hT, hST, hne, hc⟩
          exact ⟨S, T, hS.trans (List.sublist_cons_self x c2), hT, hST, hne, hc⟩
        · rintro ⟨S, T, hS, hT, hST, hne, hc⟩
          rcases List.sublist_cons_iff.mp hS with hS2 | ⟨S2, hSeq, hS2⟩
          · exact ⟨S, T, hS2, hT, hST, hne, hc⟩
          · exfalso
            subst hSeq
            cases T with
            | nil =>
              rw [List.append_nil] at hST
              cases hST
              exact hx rfl
            | cons t ts =>
              rw [List.cons_append] at hST
              cases hST
              exact hx rfl

/-- C3: Inserting one canonical transaction with consequent part `c` and
antecedent part `a` (a duplicate-free canonical itemset whose flags agree
with the database's fixed consequent classifier, cap positive or unset)
increments by exactly one the `occurrences` of exactly the nodes at the
canonical paths `S ++ T` for sublists `S` of `c` and `T` of `a` with
`S ++ T` nonempty and `|T|` within the cap, leaves every other node's
`occurrences` unchanged, and increments `number_transactions` by one. -/
theorem insertCA_increments_admissible (t : ItemsetsTrie) (c a : List String)
    (phi : String → Bool)
    (hwf : wfNode t.root = true) (hfl : flaggedNode phi t.root = true)
    (hc : ∀ x ∈ c, phi x = true) (ha : ∀ x ∈ a, phi x = false)
    (hnd : (c ++ a).Nodup) (hcap : capPosT t.maxAntecedentsLength) :
    (insertCA t c a).numberTransactions = t.numberTransactions + 1 ∧
    (∀ p, admissiblePath t.maxAntecedentsLength c a p →
      occAt (insertCA t c a).root p = occAt t.root p + 1) ∧
    (∀ p, ¬ admissiblePath t.maxAntecedentsLength c a p →
      occAt (insertCA t c a).root p = occAt t.root p) := by
  have hits : ∀ e ∈ itsOf c a, e.2 = phi e.1 := by
    intro e he
    rcases List.mem_append.mp he with h1 | h1
    · obtain ⟨x, hx, hxe⟩ := List.mem_map.mp h1
      rw [← hxe]
      exact (hc x hx).symm
    · obtain ⟨x, hx, hxe⟩ := List.mem_map.mp h1
      rw [← hxe]
      exact (ha x hx).symm
  have hspec := insertEntry_spec t.maxAntecedentsLength phi (itsOf c a) t.root 0 hwf hfl hits
  have hocc := hspec.2.2.2.2.2
  have hroot : (insertCA t c a).root =
      (insertEntry t.maxAntecedentsLength t.root 0 (itsOf c a)).1 := rfl
  have hkeys : ((itsOf c a).map Prod.fst).Nodup := by
    have h2 : (itsOf c a).map Prod.fst = c ++ a := by
      simp [itsOf, Function.comp_def]
    rw [h2]
    exact hnd
  refine ⟨rfl, ?_, ?_⟩
  · intro p hadm
    obtain ⟨S, T, hS, hT, hST, hne, hcap2⟩ := hadm
    have hchain : capChainB t.maxAntecedentsLength 0 T.length = true :=
      (capChainB_zero_iff hcap T.length).mpr hcap2
    have hne0 : selCount t.maxAntecedentsLength (itsOf c a) 0 p ≠ 0 :=
      (selCount_itsOf_iff c a p).mpr ⟨S, T, hS, hT, hST, hne, hchain⟩
    have hle := @selCount_le_one t.maxAntecedentsLength (itsOf c a) hkeys 0 p
    rw [hroot, hocc p]
    omega
  · intro p hadm
    have h0 : selCount t.maxAntecedentsLength (itsOf c a) 0 p = 0 := by
      by_contra h
      obtain ⟨S, T, hS, hT, hST, hne, hchain⟩ := (selCount_itsOf_iff c a p).mp h
      exact hadm ⟨S, T, hS, hT, hST, hne,
        (capChainB_zero_iff hcap T.length).mp hchain⟩
    rw [hroot, hocc p, h0]
    omega

/-- Witness for C3 on a concrete insertion: inserting `{a, c}` into the
empty default trie bumps the admissible path `["a"]` by one and leaves the
inadmissible path `["b"]` untouched. -/
theorem insertCA_increments_admissible_witness :
    occAt (insertCA exEmpty [] ["a", "c"]).root ["a"] = occAt exEmpty.root ["a"] + 1 ∧
    occAt (insertCA exEmpty [] ["a", "c"]).root ["b"] = occAt exEmpty.root ["b"] := by
  have h := insertCA_increments_admissible exEmpty [] ["a", "c"] (fun _ => false)
    rfl rfl (by intro x hx; cases hx) (fun x _ => rfl) (by decide)
    (fun k hk => by cases hk)
  refine ⟨h.2.1 ["a"] ?_, h.2.2 ["b"] ?_⟩
  · exact ⟨[], ["a"], List.Sublist.refl [], by decide, rfl, by decide, trivial⟩
  · rintro ⟨S, T, hS, hT, hST, hne, _⟩
    rw [List.sublist_nil.mp hS, List.nil_append] at hST
    subst hST
    exact absurd hT (by decide)

/-! ### Paths, prefixes and the removal chains (C1, C5) -/

/-- Eliminate a Boolean disjunction. -/
theorem orE {a b : Bool} (h : (a || b) = true) : a = true ∨ b = true := by
  simp only [Bool.or_eq_true] at h
  exact h

/-- Introduce a Boolean disjunction. -/
theorem orI {a b : Bool} (h : a = true ∨ b = true) : (a || b) = true := by
  simp only [Bool.or_eq_true]
  exact h

theorem prefOfB_nil (q : List String) : prefOfB [] q = true := rfl

theorem prefOfB_cons (x : String) (xs : List String) (y : String) (ys : List String) :
    prefOfB (x :: xs) (y :: ys) = ((x == y) && prefOfB xs ys) := rfl

theorem prefOfB_cons_nil (x : String) (xs : List String) :
    prefOfB (x :: xs) [] = false := rfl

/-- Boolean prefixes are append decompositions. -/
theorem prefOfB_iff_append : ∀ (p q : List String),
    (prefOfB p q = true ↔ ∃ u, q = p ++ u)
  | [], q => by
    rw [prefOfB_nil]
    simp
  | x :: xs, [] => by
    rw [prefOfB_cons_nil]
    constructor
    · intro h
      exact absurd h (by simp)
    · rintro ⟨u, hu⟩
      exact absurd hu (by simp)
  | x :: xs, y :: ys => by
    rw [prefOfB_cons, Bool.and_eq_true, beq_iff_eq, prefOfB_iff_append xs ys]
    constructor
    · rintro ⟨h1, u, h2⟩
      refine ⟨u, ?_⟩
      subst h1
      rw [h2]
      rfl
    · rintro ⟨u, hu⟩
      injection hu with h1 h2
      exact ⟨h1.symm, u, h2⟩

/-- Boolean prefixes compose. -/
theorem prefOfB_trans {a b c : List String} (h1 : prefOfB a b = true)
    (h2 : prefOfB b c = true) : prefOfB a c = true := by
  obtain ⟨u, hu⟩ := (prefOfB_iff_append a b).mp h1
  obtain ⟨v, hv⟩ := (prefOfB_iff_append b c).mp h2
  refine (prefOfB_iff_append a c).mpr ⟨u ++ v, ?_⟩
  rw [hv, hu, List.append_assoc]

theorem commonPref_nil_left (q : List String) : commonPref [] q = [] := by
  cases q <;> rfl

theorem commonPref_nil_right (p : List String) : commonPref p [] = [] := by
  cases p <;> rfl

theorem commonPref_cons (x y : String) (xs ys : List String) :
    commonPref (x :: xs) (y :: ys) = if x = y then x :: commonPref xs ys else [] := rfl

/-- The common prefix is a prefix of the left list. -/
theorem commonPref_pref_left : ∀ (p q : List String),
    prefOfB (commonPref p q) p = true
  | [], q => by rw [commonPref_nil_left, prefOfB_nil]
  | x :: xs, [] => by rw [commonPref_nil_right, prefOfB_nil]
  | x :: xs, y :: ys => by
    rw [commonPref_cons]
    by_cases h : x = y
    · rw [if_pos h, prefOfB_cons]
      rw [Bool.and_eq_true, beq_iff_eq]
      exact ⟨rfl, commonPref_pref_left xs ys⟩
    · rw [if_neg h, prefOfB_nil]

/-- The common prefix is a prefix of the right list. -/
theorem commonPref_pref_right : ∀ (p q : List String),
    prefOfB (commonPref p q) q = true
  | [], q => by rw [commonPref_nil_left, prefOfB_nil]
  | x :: xs, [] => by rw [commonPref_nil_right, prefOfB_nil]
  | x :: xs, y :: ys => by
    rw [commonPref_cons]
    by_cases h : x = y
    · rw [if_pos h, prefOfB_cons]
      rw [Bool.and_eq_true, beq_iff_eq]
      exact ⟨h, commonPref_pref_right xs ys⟩
    · rw [if_neg h, prefOfB_nil]

/-- A common prefix of two cons lists with distinct heads is empty. -/
theorem commonPref_ne_heads {x y : String} (xs ys : List String) (h : x ≠ y) :
    commonPref (x :: xs) (y :: ys) = [] := by
  rw [commonPref_cons, if_neg h]

/-- A prefix of the common prefix is a prefix of the left list. -/
theorem pref_of_pref_commonPref {r p q : List String}
    (h : prefOfB r (commonPref p q) = true) : prefOfB r p = true :=
  prefOfB_trans h (commonPref_pref_left p q)

/-- Walking an appended path walks the two parts in sequence. -/
theorem getNode_append : ∀ (p1 p2 : List String) (n : Node),
    getNode n (p1 ++ p2) = (match getNode n p1 with
      | some m => getNode m p2
      | none => none)
  | [], p2, n => rfl
  | k :: q, p2, n => by
    rw [List.cons_append]
    cases hf : findChild n.children k with
    | none => simp [getNode, hf]
    | some c => simp [getNode, hf, getNode_append q p2 c]

/-- `getNode` preserves counter positivity. -/
theorem posNode_getNode : ∀ (p : List String) (n m : Node),
    posNode n = true → getNode n p = some m → posNode m = true
  | [], n, m, hpos, h => by
    injection h with h2
    rw [← h2]
    exact hpos
  | k :: q, n, m, hpos, h => by
    rw [show getNode n (k :: q) = (match findChild n.children k with
      | some c => getNode c q
      | none => none) from rfl] at h
    cases hf : findChild n.children k with
    | none => rw [hf] at h; exact absurd h (by simp)
    | some c =>
      rw [hf] at h
      exact posNode_getNode q c m (pos_of_find hpos hf).2 h

/-- In a positivity-respecting trie, a present node at a nonempty path has
a nonzero counter. -/
theorem occ_pos_getNode : ∀ (k : String) (q : List String) (n m : Node),
    posNode n = true → getNode n (k :: q) = some m → m.occurrences ≠ 0 := by
  intro k q
  induction q generalizing k with
  | nil =>
    intro n m hpos h
    rw [show getNode n [k] = (match findChild n.children k with
      | some c => getNode c [] | none => none) from rfl] at h
    cases hf : findChild n.children k with
    | none => rw [hf] at h; exact absurd h (by simp)
    | some c =>
      rw [hf] at h
      injection h with h2
      rw [← h2]
      exact (pos_of_find hpos hf).1
  | cons j q2 ih =>
    intro n m hpos h
    rw [show getNode n (k :: j :: q2) = (match findChild n.children k with
      | some c => getNode c (j :: q2) | none => none) from rfl] at h
    cases hf : findChild n.children k with
    | none => rw [hf] at h; exact absurd h (by simp)
    | some c =>
      rw [hf] at h
      exact ih j c m (pos_of_find hpos hf).2 h

/-- A nonzero counter certifies presence. -/
theorem isSome_of_occAt_ne {n : Node} {p : List String} (h : occAt n p ≠ 0) :
    (getNode n p).isSome = true := by
  cases hg : getNode n p with
  | none => exact absurd (by rw [occAt, hg]) h
  | some m => rfl

/-- Presence at a nonempty path certifies a nonzero counter, under
positivity. -/
theorem occAt_ne_of_isSome {n : Node} {k : String} {q : List String}
    (hpos : posNode n = true) (h : (getNode n (k :: q)).isSome = true) :
    occAt n (k :: q) ≠ 0 := by
  cases hg : getNode n (k :: q) with
  | none => rw [hg] at h; exact absurd h (by simp)
  | some m =>
    rw [occAt, hg]
    exact occ_pos_getNode k q n m hpos hg

/-- An absent prefix hides the whole subtree. -/
theorem occAt_zero_of_prefix_absent {n : Node} {r p : List String}
    (hpref : prefOfB r p = true) (habs : getNode n r = none) : occAt n p = 0 := by
  obtain ⟨u, hu⟩ := (prefOfB_iff_append r p).mp hpref
  rw [hu, occAt, getNode_append, habs]

/-- A zero counter at a nonempty path means the node is absent, under
positivity. -/
theorem absent_of_occAt_zero {n : Node} {k : String} {q : List String}
    (hpos : posNode n = true) (h : occAt n (k :: q) = 0) :
    getNode n (k :: q) = none := by
  cases hg : getNode n (k :: q) with
  | none => rfl
  | some m =>
    exfalso
    apply occ_pos_getNode k q n m hpos hg
    rw [occAt, hg] at h
    exact h

/-- `posChildren` restricts to sublists. -/
theorem posChildren_sublist {cs cs2 : List (String × Node)} (hs : cs2.Sublist cs)
    (h : posChildren cs = true) : posChildren cs2 = true := by
  rw [posChildren_iff] at h ⊢
  intro e he
  exact h e (hs.subset he)

/-- `flaggedChildren` restricts to sublists. -/
theorem flaggedChildren_sublist {phi : String → Bool} {cs cs2 : List (String × Node)}
    (hs : cs2.Sublist cs) (h : flaggedChildren phi cs = true) :
    flaggedChildren phi cs2 = true := by
  rw [flaggedChildren_iff] at h ⊢
  intro e he
  exact h e (hs.subset he)

/-- `posChildren` survives replacing one child by a positive node. -/
theorem posChildren_replace {cs : List (String × Node)} {k : String} {n : Node}
    (h : posChildren cs = true) (hocc : n.occurrences ≠ 0) (hn : posNode n = true) :
    posChildren (replaceChild cs k n) = true := by
  rw [posChildren_iff] at h ⊢
  intro e he
  rcases mem_replaceChild he with he2 | he2
  · exact h e he2
  · rw [he2]
    exact ⟨hocc, hn⟩

theorem anyPrefOne_nil (n : Node) : anyPrefOne n [] = false := rfl

theorem anyPrefOne_cons (n : Node) (k : String) (rest : List String) :
    anyPrefOne n (k :: rest) = (match findChild n.children k with
      | none => false
      | some c => (c.occurrences == 1) || anyPrefOne c rest) := rfl

/-- `anyPrefOne` only looks at counters along prefixes of its path. -/
theorem anyPrefOne_congr : ∀ (pp : List String) (n1 n2 : Node),
    posNode n1 = true → posNode n2 = true →
    (∀ q, prefOfB q pp = true → q ≠ [] → occAt n1 q = occAt n2 q) →
    anyPrefOne n1 pp = anyPrefOne n2 pp
  | [], _, _, _, _, _ => rfl
  | r :: cp, n1, n2, h1, h2, h => by
    rw [anyPrefOne_cons, anyPrefOne_cons]
    have hocc : occAt n1 [r] = occAt n2 [r] := by
      refine h [r] ?_ (by simp)
      rw [prefOfB_cons, prefOfB_nil, Bool.and_true, beq_self_eq_true]
    cases hf1 : findChild n1.children r with
    | none =>
      cases hf2 : findChild n2.children r with
      | none => rfl
      | some c2 =>
        exfalso
        rw [occAt_cons_none hf1 [], occAt_cons_found hf2 [], occAt_nil_path] at hocc
        exact (pos_of_find h2 hf2).1 hocc.symm
    | some c1 =>
      cases hf2 : findChild n2.children r with
      | none =>
        exfalso
        rw [occAt_cons_none hf2 [], occAt_cons_found hf1 [], occAt_nil_path] at hocc
        exact (pos_of_find h1 hf1).1 hocc
      | some c2 =>
        have heq : c1.occurrences = c2.occurrences := by
          rw [occAt_cons_found hf1 [], occAt_cons_found hf2 [], occAt_nil_path,
            occAt_nil_path] at hocc
          exact hocc
        dsimp only
        rw [heq]
        have hrec : anyPrefOne c1 cp = anyPrefOne c2 cp := by
          refine anyPrefOne_congr cp c1 c2 (pos_of_find h1 hf1).2 (pos_of_find h2 hf2).2 ?_
          intro q hq hqne
          have h3 := h (r :: q) (by
            rw [prefOfB_cons, Bool.and_eq_true, beq_self_eq_true]
            exact ⟨rfl, hq⟩) (by simp)
          rw [occAt_cons_found hf1 q, occAt_cons_found hf2 q] at h3
          exact h3
        rw [hrec]

/-- `anyPrefOne` certifies a counter-one node at a nonempty prefix. -/
theorem anyPrefOne_iff : ∀ (pp : List String) (n : Node),
    (anyPrefOne n pp = true ↔
      ∃ r, r ≠ [] ∧ prefOfB r pp = true ∧ occAt n r = 1)
  | [], n => by
    rw [anyPrefOne_nil]
    constructor
    · intro h
      exact absurd h (by simp)
    · rintro ⟨r, hne, hpref, _⟩
      cases r with
      | nil => exact (hne rfl).elim
      | cons x xs => exact absurd hpref (by rw [prefOfB_cons_nil]; simp)
  | k :: cp, n => by
    rw [anyPrefOne_cons]
    cases hf : findChild n.children k with
    | none =>
      dsimp only
      constructor
      · intro h
        exact absurd h (by simp)
      · rintro ⟨r, hne, hpref, hocc⟩
        exfalso
        cases r with
        | nil => exact hne rfl
        | cons x xs =>
          rw [prefOfB_cons] at hpref
          have hx : x = k := beq_iff_eq.mp (andE_left hpref)
          subst hx
          rw [occAt_cons_none hf xs] at hocc
          exact absurd hocc (by simp)
    | some c =>
      dsimp only
      constructor
      · intro h
        rcases orE h with h1 | h1
        · refine ⟨[k], by simp, ?_, ?_⟩
          · rw [prefOfB_cons, prefOfB_nil, Bool.and_true, beq_self_eq_true]
          · rw [occAt_cons_found hf [], occAt_nil_path]
            exact beq_iff_eq.mp h1
        · obtain ⟨r, hne, hpref, hocc⟩ := (anyPrefOne_iff cp c).mp h1
          refine ⟨k :: r, by simp, ?_, ?_⟩
          · rw [prefOfB_cons, Bool.and_eq_true, beq_self_eq_true]
            exact ⟨rfl, hpref⟩
          · rw [occAt_cons_found hf r]
            exact hocc
      · rintro ⟨r, hne, hpref, hocc⟩
        cases r with
        | nil => exact (hne rfl).elim
        | cons x xs =>
          rw [prefOfB_cons] at hpref
          have hx : x = k := beq_iff_eq.mp (andE_left hpref)
          subst hx
          rw [occAt_cons_found hf xs] at hocc
          cases xs with
          | nil =>
            rw [occAt_nil_path] at hocc
            exact orI (Or.inl (beq_iff_eq.mpr hocc))
          | cons y ys =>
            exact orI (Or.inr ((anyPrefOne_iff cp c).mpr
              ⟨y :: ys, by simp, andE_right hpref, hocc⟩))

theorem decTargetB_nil_path (p : List String) : decTargetB [] p = false := by
  cases p <;> rfl

theorem decTargetB_nil_p (path : List String) : decTargetB path [] = false := rfl

theorem decTargetB_cons_eq (path : List String) (j : String) (q : List String) :
    decTargetB path (j :: q) = prefOfB (j :: q) path := rfl

theorem decTargetB_cons_ne {k k2 : String} (rest q : List String) (h : k2 ≠ k) :
    decTargetB (k :: rest) (k2 :: q) = false := by
  rw [decTargetB_cons_eq, prefOfB_cons]
  have hb : (k2 == k) = false := beq_eq_false_iff_ne.mpr h
  rw [hb, Bool.false_and]

theorem decTargetB_cons_self (k : String) (rest q : List String) :
    decTargetB (k :: rest) (k :: q) = prefOfB q rest := by
  rw [decTargetB_cons_eq, prefOfB_cons, beq_self_eq_true, Bool.true_and]

/-- Equal child lookups give equal subtree counters. -/
theorem occAt_cons_eq_of_find {n1 n2 : Node} {j : String}
    (h : findChild n1.children j = findChild n2.children j) (q : List String) :
    occAt n1 (j :: q) = occAt n2 (j :: q) := by
  rw [occAt_cons, occAt_cons, h]

theorem getNode_cons (n : Node) (k : String) (rest : List String) :
    getNode n (k :: rest) = (match findChild n.children k with
      | some c => getNode c rest
      | none => none) := rfl

theorem decChain_cons (n : Node) (k : String) (rest : List String) :
    decChain n (k :: rest) = (match findChild n.children k with
      | none => .error .unknownItemset
      | some c =>
        match decChain c rest with
        | .error e => .error e
        | .ok (c1, d) =>
          if c1.occurrences = 1 then
            .ok (.mk n.isConsequent n.occurrences (eraseChild n.children k), d + 1)
          else
            .ok (.mk n.isConsequent n.occurrences
              (replaceChild n.children k
                (.mk c1.isConsequent (c1.occurrences - 1) c1.children)), d)) := rfl

/-- A removal chain down a missing path raises the unknown-itemset error. -/
theorem decChain_err : ∀ (path : List String) (n : Node),
    getNode n path = none → decChain n path = .error .unknownItemset
  | [], n, h => by
    exact absurd h (by simp [getNode])
  | k :: rest, n, h => by
    rw [getNode_cons] at h
    rw [decChain_cons]
    cases hf : findChild n.children k with
    | none => rfl
    | some c =>
      rw [hf] at h
      dsimp only at h
      dsimp only
      rw [decChain_err rest c h]

/-- The only error a removal chain raises is the unknown-itemset error. -/
theorem decChain_err_only : ∀ (path : List String) (n : Node) (e : PyErr),
    decChain n path = .error e → e = .unknownItemset
  | [], n, e, h => by
    rw [show decChain n [] = .ok (n, 0) from rfl] at h
    exact absurd h (by simp)
  | k :: rest, n, e, h => by
    rw [decChain_cons] at h
    cases hf : findChild n.children k with
    | none =>
      rw [hf] at h
      dsimp only at h
      injection h with h2
      exact h2.symm
    | some c =>
      rw [hf] at h
      dsimp only at h
      cases hdc : decChain c rest with
      | error e2 =>
        rw [hdc] at h
        dsimp only at h
        injection h with h2
        rw [← h2]
        exact decChain_err_only rest c e2 hdc
      | ok pr =>
        obtain ⟨c1, d⟩ := pr
        rw [hdc] at h
        dsimp only at h
        by_cases hone : c1.occurrences = 1
        · rw [if_pos hone] at h
          exact absurd h (by simp)
        · rw [if_neg hone] at h
          exact absurd h (by simp)

/-- The full specification of one removal chain on a present path: the walk
succeeds, the root fields survive, well-formedness, counter positivity and
the flag classifier are preserved, and every node counter either drops to
zero (when its common prefix with the chain path crosses a counter-one
node, in which case the node is detached) or loses exactly the chain
decrement. -/
theorem decChain_spec : ∀ (path : List String) (n : Node),
    wfNode n = true → posNode n = true → (getNode n path).isSome = true →
    ∃ n1 d, decChain n path = .ok (n1, d) ∧
      n1.isConsequent = n.isConsequent ∧
      n1.occurrences = n.occurrences ∧
      wfNode n1 = true ∧
      posNode n1 = true ∧
      (∀ phi, flaggedNode phi n = true → flaggedNode phi n1 = true) ∧
      (∀ p, occAt n1 p =
        if anyPrefOne n (commonPref p path) = true then 0
        else occAt n p - (if decTargetB path p = true then 1 else 0))
  | [], n, hwf, hpos, _ => by
    refine ⟨n, 0, rfl, rfl, rfl, hwf, hpos, fun phi h => h, ?_⟩
    intro p
    rw [commonPref_nil_right, anyPrefOne_nil, if_neg (by simp), decTargetB_nil_path,
      if_neg (by simp), Nat.sub_zero]
  | k :: rest, n, hwf, hpos, hsome => by
    rw [getNode_cons] at hsome
    cases hf : findChild n.children k with
    | none =>
      rw [hf] at hsome
      dsimp only at hsome
      exact absurd hsome (by simp)
    | some c =>
      rw [hf] at hsome
      dsimp only at hsome
      have hcwf : wfNode c = true := wfNode_of_find hwf hf
      have hcpos := pos_of_find hpos hf
      obtain ⟨c1, d, hdc, hcons, hocc1, hwf1, hpos1, hfl1, hform⟩ :=
        decChain_spec rest c hcwf hcpos.2 hsome
      have hnd : keysNodupB n.children = true := by
        rw [wfNode_children] at hwf
        exact andE_left (andE_left hwf)
      have hsort : sortedChildrenB n.children = true := by
        rw [wfNode_children] at hwf
        exact andE_right (andE_left hwf)
      have hch : wfChildren n.children = true := by
        rw [wfNode_children] at hwf
        exact andE_right hwf
      by_cases hone : c1.occurrences = 1
      · refine ⟨.mk n.isConsequent n.occurrences (eraseChild n.children k), d + 1,
          ?_, rfl, rfl, ?_, ?_, ?_, ?_⟩
        · rw [decChain_cons, hf]
          dsimp only
          rw [hdc]
          dsimp only
          rw [if_pos hone]
        · rw [wfNode_mk, keysNodupB_erase hnd, sortedChildrenB_erase hsort,
            wfChildren_erase hch]
          rfl
        · rw [posNode_children, children_mk]
          rw [posNode_children] at hpos
          exact posChildren_sublist (eraseChild_sublist n.children k) hpos
        · intro phi hphi
          rw [flaggedNode_children, children_mk]
          rw [flaggedNode_children] at hphi
          exact flaggedChildren_sublist (eraseChild_sublist n.children k) hphi
        · intro p
          cases p with
          | nil =>
            rw [occAt_nil_path, occurrences_mk, commonPref_nil_left, anyPrefOne_nil,
              if_neg (by simp), decTargetB_nil_p, if_neg (by simp), Nat.sub_zero,
              occAt_nil_path]
          | cons k2 q =>
            by_cases hk : k2 = k
            · subst hk
              have hfe : findChild (Node.mk n.isConsequent n.occurrences
                  (eraseChild n.children k2)).children k2 = none := by
                rw [children_mk]
                exact findChild_erase_self hnd
              rw [occAt_cons_none hfe q]
              rw [commonPref_cons, if_pos rfl]
              have hap : anyPrefOne n (k2 :: commonPref q rest) = true := by
                rw [anyPrefOne_cons, hf]
                dsimp only
                refine orI (Or.inl ?_)
                refine beq_iff_eq.mpr ?_
                rw [← hocc1]
                exact hone
              rw [hap, if_pos rfl]
            · have hfe : findChild (Node.mk n.isConsequent n.occurrences
                  (eraseChild n.children k)).children k2 = findChild n.children k2 := by
                rw [children_mk]
                exact findChild_erase_ne hk
              rw [occAt_cons_eq_of_find hfe q]
              rw [commonPref_ne_heads q rest hk, anyPrefOne_nil, if_neg (by simp),
                decTargetB_cons_ne rest q hk, if_neg (by simp), Nat.sub_zero]
      · refine ⟨.mk n.isConsequent n.occurrences (replaceChild n.children k
          (.mk c1.isConsequent (c1.occurrences - 1) c1.children)), d,
          ?_, rfl, rfl, ?_, ?_, ?_, ?_⟩
        · rw [decChain_cons, hf]
          dsimp only
          rw [hdc]
          dsimp only
          rw [if_neg hone]
        · rw [wfNode_mk]
          have h1 : keysNodupB (replaceChild n.children k
              (Node.mk c1.isConsequent (c1.occurrences - 1) c1.children)) = true :=
            keysNodupB_replace hnd
          have h2 : sortedChildrenB (replaceChild n.children k
              (Node.mk c1.isConsequent (c1.occurrences - 1) c1.children)) = true := by
            refine sortedChildrenB_replace n.children hsort hf ?_
            rw [isConsequent_mk]
            exact hcons
          have h3 : wfChildren (replaceChild n.children k
              (Node.mk c1.isConsequent (c1.occurrences - 1) c1.children)) = true := by
            refine wfChildren_replace hch ?_
            rw [wfNode_mk]
            rw [wfNode_children] at hwf1
            exact hwf1
          rw [h1, h2, h3]
          rfl
        · rw [posNode_children, children_mk]
          rw [posNode_children] at hpos
          refine posChildren_replace hpos ?_ ?_
          · rw [occurrences_mk]
            have hco := hcpos.1
            rw [← hocc1] at hco
            omega
          · rw [posNode_children, children_mk]
            rw [posNode_children] at hpos1
            exact hpos1
        · intro phi hphi
          have hflc := flagged_of_find hphi hf
          rw [flaggedNode_children, children_mk]
          rw [flaggedNode_children] at hphi
          refine flaggedChildren_replace hphi ?_ ?_
          · rw [isConsequent_mk, hcons]
            exact hflc.1
          · rw [flaggedNode_children, children_mk]
            have hx := hfl1 phi hflc.2
            rw [flaggedNode_children] at hx
            exact hx
        · intro p
          cases p with
          | nil =>
            rw [occAt_nil_path, occurrences_mk, commonPref_nil_left, anyPrefOne_nil,
              if_neg (by simp), decTargetB_nil_p, if_neg (by simp), Nat.sub_zero,
              occAt_nil_path]
          | cons k2 q =>
            by_cases hk : k2 = k
            · subst hk
              have hfr : findChild (Node.mk n.isConsequent n.occurrences
                  (replaceChild n.children k2
                    (Node.mk c1.isConsequent (c1.occurrences - 1) c1.children))).children k2 =
                  some (Node.mk c1.isConsequent (c1.occurrences - 1) c1.children) := by
                rw [children_mk]
                exact findChild_replace_self hf _
              rw [occAt_cons_found hfr q]
              rw [commonPref_cons, if_pos rfl]
              have hap : anyPrefOne n (k2 :: commonPref q rest) =
                  anyPrefOne c (commonPref q rest) := by
                rw [anyPrefOne_cons, hf]
                dsimp only
                have hb : (c.occurrences == 1) = false := by
                  refine beq_eq_false_iff_ne.mpr ?_
                  rw [← hocc1]
                  exact hone
                rw [hb, Bool.false_or]
              rw [hap, decTargetB_cons_self, occAt_cons_found hf q]
              cases q with
              | nil =>
                rw [occAt_nil_path, occurrences_mk, commonPref_nil_left, anyPrefOne_nil,
                  if_neg (by simp), occAt_nil_path, prefOfB_nil, if_pos rfl, hocc1]
              | cons j q2 =>
                have he : occAt (Node.mk c1.isConsequent (c1.occurrences - 1)
                    c1.children) (j :: q2) = occAt c1 (j :: q2) :=
                  occAt_cons_eq_of_find (by rw [children_mk]) q2
                rw [he, hform (j :: q2), decTargetB_cons_eq]
            · have hfr : findChild (Node.mk n.isConsequent n.occurrences
                  (replaceChild n.children k
                    (Node.mk c1.isConsequent (c1.occurrences - 1) c1.children))).children k2 =
                  findChild n.children k2 := by
                rw [children_mk]
                exact findChild_replace_ne hk _
              rw [occAt_cons_eq_of_find hfr q]
              rw [commonPref_ne_heads q rest hk, anyPrefOne_nil, if_neg (by simp),
                decTargetB_cons_ne rest q hk, if_neg (by simp), Nat.sub_zero]

theorem loopDelB_nil_path (n : Node) (p : List String) : loopDelB n [] p = false := rfl

theorem loopDelB_cons (n : Node) (k : String) (rest p : List String) :
    loopDelB n (k :: rest) p =
      (anyPrefOne n (commonPref p (k :: rest)) || loopDelB n rest p) := rfl

theorem loopDecN_nil_path (p : List String) : loopDecN [] p = 0 := rfl

theorem loopDecN_cons (k : String) (rest p : List String) :
    loopDecN (k :: rest) p =
      (if decTargetB (k :: rest) p = true then 1 else 0) + loopDecN rest p := rfl

theorem loopDelB_nil_p (n : Node) : ∀ (path : List String), loopDelB n path [] = false
  | [] => rfl
  | k :: rest => by
    rw [loopDelB_cons, commonPref_nil_left, anyPrefOne_nil, Bool.false_or]
    exact loopDelB_nil_p n rest

theorem loopDecN_nil_p : ∀ (path : List String), loopDecN path [] = 0
  | [] => rfl
  | k :: rest => by
    rw [loopDecN_cons, decTargetB_nil_p, if_neg (by simp), loopDecN_nil_p rest]

theorem loopDelB_not_head : ∀ (path : List String) (n : Node) (j : String)
    (q : List String), j ∉ path → loopDelB n path (j :: q) = false
  | [], _, _, _, _ => rfl
  | k :: rest, n, j, q, h => by
    have hjk : j ≠ k := fun he => h (he ▸ List.mem_cons_self k rest)
    rw [loopDelB_cons, commonPref_ne_heads q rest hjk, anyPrefOne_nil, Bool.false_or]
    exact loopDelB_not_head rest n j q (fun h2 => h (List.mem_cons_of_mem k h2))

theorem loopDecN_not_head : ∀ (path : List String) (j : String) (q : List String),
    j ∉ path → loopDecN path (j :: q) = 0
  | [], _, _, _ => rfl
  | k :: rest, j, q, h => by
    have hjk : j ≠ k := fun he => h (he ▸ List.mem_cons_self k rest)
    rw [loopDecN_cons, decTargetB_cons_ne rest q hjk, if_neg (by simp), Nat.zero_add]
    exact loopDecN_not_head rest j q (fun h2 => h (List.mem_cons_of_mem k h2))

/-- The suffix-loop deletion test only looks at counters along prefixes of
its query path. -/
theorem loopDelB_congr : ∀ (path p : List String) (n1 n2 : Node),
    (∀ q, prefOfB q p = true → q ≠ [] → occAt n1 q = occAt n2 q) →
    posNode n1 = true → posNode n2 = true →
    loopDelB n1 path p = loopDelB n2 path p
  | [], _, _, _, _, _, _ => rfl
  | k :: rest, p, n1, n2, h, h1, h2 => by
    rw [loopDelB_cons, loopDelB_cons]
    have ha : anyPrefOne n1 (commonPref p (k :: rest)) =
        anyPrefOne n2 (commonPref p (k :: rest)) := by
      refine anyPrefOne_congr _ n1 n2 h1 h2 ?_
      intro q hq hqne
      exact h q (pref_of_pref_commonPref hq) hqne
    rw [ha, loopDelB_congr rest p n1 n2 h h1 h2]

theorem removeLoop_cons (n : Node) (k : String) (rest : List String) :
    removeLoop n (k :: rest) = (match decChain n (k :: rest) with
      | .error e => .error e
      | .ok (n1, d1) =>
        match removeLoop n1 rest with
        | .error e => .error e
        | .ok (n2, d2) => .ok (n2, d1 + d2)) := rfl

/-- The only error the suffix loop raises is the unknown-itemset error. -/
theorem removeLoop_err_only : ∀ (path : List String) (n : Node) (e : PyErr),
    removeLoop n path = .error e → e = .unknownItemset
  | [], n, e, h => by
    rw [show removeLoop n [] = .ok (n, 0) from rfl] at h
    exact absurd h (by simp)
  | k :: rest, n, e, h => by
    rw [removeLoop_cons] at h
    cases hdc : decChain n (k :: rest) with
    | error e2 =>
      rw [hdc] at h
      dsimp only at h
      injection h with h2
      rw [← h2]
      exact decChain_err_only _ _ _ hdc
    | ok pr =>
      obtain ⟨n1, d1⟩ := pr
      rw [hdc] at h
      dsimp only at h
      cases hrl : removeLoop n1 rest with
      | error e2 =>
        rw [hrl] at h
        dsimp only at h
        injection h with h2
        rw [← h2]
        exact removeLoop_err_only rest n1 e2 hrl
      | ok pr2 =>
        obtain ⟨n2, d2⟩ := pr2
        rw [hrl] at h
        dsimp only at h
        exact absurd h (by simp)

/-- The full specification of the removal suffix loop on a duplicate-free
path all of whose suffixes are present: it succeeds, preserves the root
fields, well-formedness, positivity and the flag classifier, and each
counter either drops to zero (when some chain deletes the node) or loses
one decrement per suffix of which its path is a nonempty prefix. -/
theorem removeLoop_spec : ∀ (path : List String) (n : Node),
    wfNode n = true → posNode n = true → path.Nodup →
    (∀ s, s < path.length → (getNode n (path.drop s)).isSome = true) →
    ∃ n1 d, removeLoop n path = .ok (n1, d) ∧
      n1.isConsequent = n.isConsequent ∧
      n1.occurrences = n.occurrences ∧
      wfNode n1 = true ∧ posNode n1 = true ∧
      (∀ phi, flaggedNode phi n = true → flaggedNode phi n1 = true) ∧
      (∀ p, occAt n1 p =
        if loopDelB n path p = true then 0
        else occAt n p - loopDecN path p)
  | [], n, hwf, hpos, _, _ => by
    refine ⟨n, 0, rfl, rfl, rfl, hwf, hpos, fun _ h => h, ?_⟩
    intro p
    rw [loopDelB_nil_path, if_neg (by simp), loopDecN_nil_path, Nat.sub_zero]
  | k :: rest, n, hwf, hpos, hnd, hpres => by
    have hs0 := hpres 0 (by simp)
    rw [List.drop_zero] at hs0
    obtain ⟨n1, d1, hdc, hcons1, hocc1, hwf1, hpos1, hfl1, hform1⟩ :=
      decChain_spec (k :: rest) n hwf hpos hs0
    have hknotin : k ∉ rest := (List.nodup_cons.mp hnd).1
    have hndrest : rest.Nodup := (List.nodup_cons.mp hnd).2
    have hocc_ne : ∀ (j : String) (q : List String), j ≠ k →
        occAt n1 (j :: q) = occAt n (j :: q) := by
      intro j q hj
      rw [hform1 (j :: q), commonPref_ne_heads q rest hj, anyPrefOne_nil,
        if_neg (by simp), decTargetB_cons_ne rest q hj, if_neg (by simp), Nat.sub_zero]
    have hpres1 : ∀ s, s < rest.length → (getNode n1 (rest.drop s)).isSome = true := by
      intro s hs
      have h2 := hpres (s + 1) (by simp only [List.length_cons]; omega)
      rw [List.drop_succ_cons] at h2
      obtain ⟨j, q, hjq⟩ : ∃ j q, rest.drop s = j :: q := by
        cases hd : rest.drop s with
        | nil =>
          exfalso
          have hlen := congrArg List.length hd
          rw [List.length_drop] at hlen
          simp only [List.length_nil] at hlen
          omega
        | cons j q => exact ⟨j, q, rfl⟩
      rw [hjq] at h2 ⊢
      have hj : j ∈ rest := (List.drop_sublist s rest).subset
        (by rw [hjq]; exact List.mem_cons_self j q)
      have hjk : j ≠ k := fun he => hknotin (he ▸ hj)
      have hocc := occAt_ne_of_isSome hpos h2
      refine isSome_of_occAt_ne ?_
      rw [hocc_ne j q hjk]
      exact hocc
    obtain ⟨n2, d2, hrl, hcons2, hocc2, hwf2, hpos2, hfl2, hform2⟩ :=
      removeLoop_spec rest n1 hwf1 hpos1 hndrest hpres1
    refine ⟨n2, d1 + d2, ?_, by rw [hcons2, hcons1], by rw [hocc2, hocc1],
      hwf2, hpos2, fun phi h => hfl2 phi (hfl1 phi h), ?_⟩
    · rw [removeLoop_cons, hdc]
      dsimp only
      rw [hrl]
    · intro p
      rw [hform2 p]
      cases p with
      | nil =>
        rw [loopDelB_nil_p n1 rest, loopDelB_nil_p n (k :: rest), loopDecN_nil_p rest,
          loopDecN_nil_p (k :: rest), occAt_nil_path, occAt_nil_path, hocc1]
      | cons j q =>
        by_cases hj : j = k
        · subst hj
          rw [loopDelB_not_head rest n1 j q hknotin, if_neg (by simp),
            loopDecN_not_head rest j q hknotin, Nat.sub_zero, hform1 (j :: q)]
          rw [loopDelB_cons, loopDelB_not_head rest n j q hknotin, Bool.or_false,
            loopDecN_cons, loopDecN_not_head rest j q hknotin, Nat.add_zero]
        · have hocc_tr : occAt n1 (j :: q) = occAt n (j :: q) := hocc_ne j q hj
          have hdel_tr : loopDelB n1 rest (j :: q) = loopDelB n rest (j :: q) := by
            refine loopDelB_congr rest (j :: q) n1 n ?_ hpos1 hpos
            intro r hr hrne
            cases r with
            | nil => exact (hrne rfl).elim
            | cons x xs =>
              rw [prefOfB_cons] at hr
              have hx : x = j := beq_iff_eq.mp (andE_left hr)
              subst hx
              exact hocc_ne x xs hj
          rw [hdel_tr, hocc_tr]
          rw [loopDelB_cons, commonPref_ne_heads q rest hj, anyPrefOne_nil,
            Bool.false_or, loopDecN_cons, decTargetB_cons_ne rest q hj,
            if_bool_false, Nat.zero_add]

theorem removeCA_unfold (t : ItemsetsTrie) (c a : List String) (s : Bool) :
    removeCA t c a s =
      (if t.numberTransactions = 0 then .error .emptyDatabase
       else if (c ++ a).isEmpty then .error .emptyItemset
       else if (getNode t.root (c ++ a)).isNone then
         (if s then .ok t else .error .transactionNotFound)
       else
         match removeLoop t.root (c ++ a) with
         | .error e => .error e
         | .ok (r, d) =>
           .ok { root := r, maxAntecedentsLength := t.maxAntecedentsLength,
                 numberTransactions := t.numberTransactions - 1,
                 numberNodes := t.numberNodes - d }) := rfl

/-- C5 (amended): the removal guards.  Removal fails with `EmptyDatabase`
exactly when `number_transactions` is zero; with a nonzero count it fails
with the empty-itemset error on an empty canonical itemset; when the
canonical path is absent from the trie it fails with `TransactionNotFound`
unless `silent`, in which case it returns the database unchanged — the
guard tests presence of the canonical path (which subset closure can
create without the transaction ever having been inserted), not insertion
history; and when the canonical path is present none of those guard
errors is raised. -/
theorem removeCA_guards (t : ItemsetsTrie) (c a : List String) (s : Bool) :
    (t.numberTransactions = 0 → removeCA t c a s = .error .emptyDatabase) ∧
    (t.numberTransactions ≠ 0 → c ++ a = [] → removeCA t c a s = .error .emptyItemset) ∧
    (t.numberTransactions ≠ 0 → c ++ a ≠ [] → getNode t.root (c ++ a) = none →
      removeCA t c a s = if s then .ok t else .error .transactionNotFound) ∧
    (t.numberTransactions ≠ 0 → c ++ a ≠ [] → (getNode t.root (c ++ a)).isSome = true →
      removeCA t c a s ≠ .error .emptyDatabase ∧
      removeCA t c a s ≠ .error .emptyItemset ∧
      removeCA t c a s ≠ .error .transactionNotFound) := by
  refine ⟨?_, ?_, ?_, ?_⟩
  · intro h
    rw [removeCA_unfold, if_pos h]
  · intro h1 h2
    rw [removeCA_unfold, if_neg h1, h2]
    rfl
  · intro h1 h2 h3
    have he : ¬((c ++ a).isEmpty = true) := fun hh => h2 (List.isEmpty_iff.mp hh)
    rw [removeCA_unfold, if_neg h1, if_neg he, h3]
    rfl
  · intro h1 h2 h3
    have he : ¬((c ++ a).isEmpty = true) := fun hh => h2 (List.isEmpty_iff.mp hh)
    have hn : ¬((getNode t.root (c ++ a)).isNone = true) := by
      cases hg : getNode t.root (c ++ a) with
      | none => rw [hg] at h3; exact absurd h3 (by simp)
      | some m => simp
    rw [removeCA_unfold, if_neg h1, if_neg he, if_neg hn]
    cases hrl : removeLoop t.root (c ++ a) with
    | error e =>
      have heu : e = .unknownItemset := removeLoop_err_only _ _ _ hrl
      subst heu
      dsimp only
      refine ⟨?_, ?_, ?_⟩ <;> intro hx <;> injection hx with hx2 <;> exact absurd hx2 (by simp)
    | ok pr =>
      obtain ⟨r, d⟩ := pr
      dsimp only
      refine ⟨?_, ?_, ?_⟩ <;> intro hx <;> exact absurd hx (by simp)

/-- Counterexample to C5's "fails iff never inserted": the only transaction
ever inserted into `exABC` is `{a, b, c}`, yet removing the never-inserted
`{a, c}` (not silent) succeeds, because the guard only checks that the
canonical path exists in the trie and the subset closure of `{a, b, c}`
created the path `a → c`. -/
theorem removeCA_succeeds_on_never_inserted :
    isOkB (removeCA exABC [] ["a", "c"] false) = true := rfl

/-- Witness for C5 on concrete databases: removal from an empty database,
removal of an empty itemset, and a silent removal of an absent transaction
returning the database unchanged. -/
theorem removeCA_guards_witness :
    removeCA exEmpty [] ["a"] false = .error .emptyDatabase ∧
    removeCA exABC [] [] false = .error .emptyItemset ∧
    removeCA exABC [] ["z"] true = .ok exABC := by
  refine ⟨(removeCA_guards exEmpty [] ["a"] false).1 rfl,
    (removeCA_guards exABC [] [] false).2.1 (by decide) rfl,
    ((removeCA_guards exABC [] ["z"] true).2.2.1 (by decide) (by simp) rfl).trans rfl⟩

theorem capOkT_mono {cap : Option Nat} {l l2 : Nat} (h : capOkT cap l2) (hle : l ≤ l2) :
    capOkT cap l := by
  cases cap with
  | none => trivial
  | some k =>
    show l ≤ k
    have h2 : l2 ≤ k := h
    omega

/-- A take is a prefix. -/
theorem prefOfB_take : ∀ (n : Nat) (l : List String), prefOfB (l.take n) l = true
  | 0, l => by rw [List.take_zero, prefOfB_nil]
  | n + 1, [] => by rw [List.take_nil, prefOfB_nil]
  | n + 1, x :: xs => by
    rw [List.take_succ_cons, prefOfB_cons, beq_self_eq_true, Bool.true_and]
    exact prefOfB_take n xs

theorem contigB_cons (k : String) (rest p : List String) :
    contigB (k :: rest) p = (decTargetB (k :: rest) p || contigB rest p) := rfl

theorem contigB_nil_p : ∀ (P : List String), contigB P [] = false
  | [] => rfl
  | k :: rest => by
    rw [contigB_cons, decTargetB_nil_p, Bool.false_or]
    exact contigB_nil_p rest

theorem contigB_not_head : ∀ (P : List String) (j : String) (q : List String),
    j ∉ P → contigB P (j :: q) = false
  | [], _, _, _ => rfl
  | k :: rest, j, q, h => by
    have hjk : j ≠ k := fun he => h (he ▸ List.mem_cons_self k rest)
    rw [contigB_cons, decTargetB_cons_ne rest q hjk, Bool.false_or]
    exact contigB_not_head rest j q (fun h2 => h (List.mem_cons_of_mem k h2))

/-- A nonempty prefix of a suffix is a contiguous run. -/
theorem contigB_of_pref : ∀ (P : List String) (s : Nat) (p : List String),
    p ≠ [] → prefOfB p (P.drop s) = true → contigB P p = true
  | [], s, p, hne, hpref => by
    rw [List.drop_nil] at hpref
    cases p with
    | nil => exact (hne rfl).elim
    | cons x xs => exact absurd hpref (by rw [prefOfB_cons_nil]; simp)
  | k :: rest, 0, p, hne, hpref => by
    rw [List.drop_zero] at hpref
    rw [contigB_cons]
    refine orI (Or.inl ?_)
    cases p with
    | nil => exact (hne rfl).elim
    | cons x xs => rw [decTargetB_cons_eq]; exact hpref
  | k :: rest, s + 1, p, hne, hpref => by
    rw [List.drop_succ_cons] at hpref
    rw [contigB_cons]
    exact orI (Or.inr (contigB_of_pref rest s p hne hpref))

/-- A contiguous run is a sublist. -/
theorem contigB_sublist : ∀ (P p : List String), contigB P p = true → p.Sublist P
  | [], p, h => absurd h (by simp [contigB])
  | k :: rest, p, h => by
    rw [contigB_cons] at h
    rcases orE h with h1 | h1
    · rw [decTargetB] at h1
      have hpref := andE_right h1
      obtain ⟨u, hu⟩ := (prefOfB_iff_append p (k :: rest)).mp hpref
      rw [hu]
      exact List.sublist_append_left p u
    · exact (contigB_sublist rest p h1).trans (List.sublist_cons_self k rest)

/-- Over a duplicate-free path, the suffix loop decrements each contiguous
run exactly once and nothing else. -/
theorem loopDecN_eq_contig : ∀ (P p : List String), P.Nodup →
    loopDecN P p = if contigB P p = true then 1 else 0
  | [], p, _ => by
    rw [loopDecN_nil_path]
    rfl
  | k :: rest, p, hnd => by
    have hknotin : k ∉ rest := (List.nodup_cons.mp hnd).1
    have hrest := loopDecN_eq_contig rest p (List.nodup_cons.mp hnd).2
    rw [loopDecN_cons, contigB_cons]
    cases p with
    | nil =>
      rw [decTargetB_nil_p, loopDecN_nil_p rest, contigB_nil_p rest]
      rfl
    | cons j q =>
      by_cases hj : j = k
      · subst hj
        rw [loopDecN_not_head rest j q hknotin, Nat.add_zero,
          contigB_not_head rest j q hknotin, Bool.or_false]
      · rw [decTargetB_cons_ne rest q hj, if_bool_false, Nat.zero_add, hrest,
          Bool.false_or]

/-- A firing loop-deletion test certifies a counter-one node at a nonempty
prefix of the query path that is a contiguous run of the loop path. -/
theorem loopDelB_exists : ∀ (P : List String) (n : Node) (p : List String),
    loopDelB n P p = true →
    ∃ r, r ≠ [] ∧ prefOfB r p = true ∧ contigB P r = true ∧ occAt n r = 1
  | [], n, p, h => absurd h (by simp [loopDelB])
  | k :: rest, n, p, h => by
    rw [loopDelB_cons] at h
    rcases orE h with h1 | h1
    · obtain ⟨r, hrne, hrpref, hocc⟩ := (anyPrefOne_iff _ n).mp h1
      refine ⟨r, hrne, pref_of_pref_commonPref hrpref, ?_, hocc⟩
      refine contigB_of_pref (k :: rest) 0 r hrne ?_
      rw [List.drop_zero]
      exact prefOfB_trans hrpref (commonPref_pref_right p (k :: rest))
    · obtain ⟨r, hrne, hrpref, hcont, hocc⟩ := loopDelB_exists rest n p h1
      refine ⟨r, hrne, hrpref, ?_, hocc⟩
      rw [contigB_cons]
      exact orI (Or.inr hcont)

/-- C1 (amended): inserting a canonical transaction and then removing it
restores `number_transactions` and restores `occurrences` exactly at the
nonempty contiguous runs of the canonical path and at every path that is
not a nonempty subsequence of it; counter positivity is preserved, so every
counter that returns to zero has its node detached from the trie.  (The
non-contiguous subsequence paths are the ones where the round trip can
deviate: insertion increments all subsequences while removal decrements
only contiguous runs.) -/
theorem insert_remove_roundtrip (t : ItemsetsTrie) (c a : List String)
    (phi : String → Bool)
    (hwf : wfNode t.root = true) (hpos : posNode t.root = true)
    (hfl : flaggedNode phi t.root = true)
    (hc : ∀ x ∈ c, phi x = true) (ha : ∀ x ∈ a, phi x = false)
    (hnd : (c ++ a).Nodup) (hne : c ++ a ≠ [])
    (hcap : capPosT t.maxAntecedentsLength)
    (hcapfull : capOkT t.maxAntecedentsLength a.length) :
    ∃ t2, removeCA (insertCA t c a) c a false = .ok t2 ∧
      t2.numberTransactions = t.numberTransactions ∧
      posNode t2.root = true ∧
      (∀ p, contigOf p (c ++ a) → occAt t2.root p = occAt t.root p) ∧
      (∀ p, ¬ (p ≠ [] ∧ p.Sublist (c ++ a)) → occAt t2.root p = occAt t.root p) := by
  have hins := insertCA_increments_admissible t c a phi hwf hfl hc ha hnd hcap
  have hits : ∀ e ∈ itsOf c a, e.2 = phi e.1 := by
    intro e he
    rcases List.mem_append.mp he with h1 | h1
    · obtain ⟨x, hx, hxe⟩ := List.mem_map.mp h1
      rw [← hxe]
      exact (hc x hx).symm
    · obtain ⟨x, hx, hxe⟩ := List.mem_map.mp h1
      rw [← hxe]
      exact (ha x hx).symm
  have hspec := insertEntry_spec t.maxAntecedentsLength phi (itsOf c a) t.root 0 hwf hfl hits
  have hwf1 : wfNode (insertCA t c a).root = true := hspec.2.2.1
  have hpos1 : posNode (insertCA t c a).root = true := hspec.2.2.2.2.1 hpos
  have hadm_sub : ∀ p, p ≠ [] → p.Sublist (c ++ a) →
      admissiblePath t.maxAntecedentsLength c a p := by
    intro p hpne hps
    obtain ⟨S, T, hST, hS, hT⟩ := List.sublist_append_iff.mp hps
    exact ⟨S, T, hS, hT, hST.symm, hpne, capOkT_mono hcapfull hT.length_le⟩
  have hpres : ∀ s, s < (c ++ a).length →
      (getNode (insertCA t c a).root ((c ++ a).drop s)).isSome = true := by
    intro s hs
    obtain ⟨j, q, hjq⟩ : ∃ j q, (c ++ a).drop s = j :: q := by
      cases hd : (c ++ a).drop s with
      | nil =>
        exfalso
        have hlen := congrArg List.length hd
        rw [List.length_drop] at hlen
        simp only [List.length_nil] at hlen
        omega
      | cons j q => exact ⟨j, q, rfl⟩
    have hadm := hadm_sub _ (by rw [hjq]; simp) (List.drop_sublist s (c ++ a))
    have hocc := hins.2.1 _ hadm
    refine isSome_of_occAt_ne ?_
    rw [hocc]
    omega
  obtain ⟨n2, d, hrl, hcons2, hocc2, hwf2, hpos2, hfl2, hform2⟩ :=
    removeLoop_spec (c ++ a) (insertCA t c a).root hwf1 hpos1 hnd hpres
  have hdel_zero : ∀ p, loopDelB (insertCA t c a).root (c ++ a) p = true →
      occAt t.root p = 0 := by
    intro p hdel
    obtain ⟨r, hrne, hrpref, hrcontig, hrocc⟩ := loopDelB_exists _ _ p hdel
    have hradm := hadm_sub r hrne (contigB_sublist _ _ hrcontig)
    have hr1 := hins.2.1 r hradm
    have hrt : occAt t.root r = 0 := by omega
    obtain ⟨x, xs, hxr⟩ : ∃ x xs, r = x :: xs := by
      cases r with
      | nil => exact (hrne rfl).elim
      | cons x xs => exact ⟨x, xs, rfl⟩
    have habs : getNode t.root r = none := by
      rw [hxr] at hrt ⊢
      exact absent_of_occAt_zero hpos hrt
    exact occAt_zero_of_prefix_absent hrpref habs
  have hntx1 : (insertCA t c a).numberTransactions ≠ 0 := by
    rw [hins.1]
    omega
  have hg0 := hpres 0 (by
    cases hca : c ++ a with
    | nil => exact absurd hca hne
    | cons x xs => simp)
  rw [List.drop_zero] at hg0
  have hn : ¬(((getNode (insertCA t c a).root (c ++ a)).isNone) = true) := by
    cases hg : getNode (insertCA t c a).root (c ++ a) with
    | none => rw [hg] at hg0; exact absurd hg0 (by simp)
    | some m => simp
  have he : ¬((c ++ a).isEmpty = true) := fun hh => hne (List.isEmpty_iff.mp hh)
  refine ⟨⟨n2, (insertCA t c a).maxAntecedentsLength,
    (insertCA t c a).numberTransactions - 1,
    (insertCA t c a).numberNodes - d⟩, ?_, ?_, hpos2, ?_, ?_⟩
  · rw [removeCA_unfold, if_neg hntx1, if_neg he, if_neg hn, hrl]
  · show (insertCA t c a).numberTransactions - 1 = t.numberTransactions
    rw [hins.1]
    omega
  · intro p hcontig
    obtain ⟨hpne, s, nl, heq⟩ := hcontig
    have hppref : prefOfB p ((c ++ a).drop s) = true := by
      rw [heq]
      exact prefOfB_take nl _
    have hpsub : p.Sublist (c ++ a) := by
      rw [heq]
      exact (List.take_sublist nl _).trans (List.drop_sublist s _)
    have hocc1p := hins.2.1 p (hadm_sub p hpne hpsub)
    show occAt n2 p = occAt t.root p
    by_cases hdel : loopDelB (insertCA t c a).root (c ++ a) p = true
    · rw [hform2 p, if_pos hdel, hdel_zero p hdel]
    · rw [hform2 p, if_neg hdel, hocc1p,
        loopDecN_eq_contig _ _ hnd, if_pos (contigB_of_pref (c ++ a) s p hpne hppref)]
      omega
  · intro p hnotsub
    have hnadm : ¬ admissiblePath t.maxAntecedentsLength c a p := by
      rintro ⟨S, T, hS, hT, hST, hpne, _⟩
      refine hnotsub ⟨hpne, ?_⟩
      rw [← hST]
      exact hS.append hT
    have hocc1p := hins.2.2 p hnadm
    have hdecN : loopDecN (c ++ a) p = 0 := by
      rw [loopDecN_eq_contig _ _ hnd]
      cases p with
      | nil => rw [contigB_nil_p, if_neg (by simp)]
      | cons x xs =>
        have hcf : contigB (c ++ a) (x :: xs) = false := by
          rw [← Bool.not_eq_true]
          intro hct
          exact hnotsub ⟨by simp, contigB_sublist _ _ hct⟩
        rw [hcf, if_neg (by simp)]
    show occAt n2 p = occAt t.root p
    by_cases hdel : loopDelB (insertCA t c a).root (c ++ a) p = true
    · rw [hform2 p, if_pos hdel, hdel_zero p hdel]
    · rw [hform2 p, if_neg hdel, hocc1p, hdecN, Nat.sub_zero]

/-- Counterexample to C1's "exact inverse of insertion": starting from the
single transaction `{a, c}`, inserting `{a, b, c}` and removing it again
leaves the counter of the non-contiguous subsequence path `a → c` at two,
although it was one before the round trip and only one transaction remains;
removal only decremented the contiguous runs of `a b c`. -/
theorem insert_remove_not_inverse :
    occAt exACrem.root ["a", "c"] = 2 ∧ occAt exAC.root ["a", "c"] = 1 ∧
    exACrem.numberTransactions = exAC.numberTransactions := ⟨rfl, rfl, rfl⟩

/-- Witness for C1 on a concrete database: inserting `{a, b}` into the
empty trie and removing it restores the counters at the contiguous runs
and at non-subsequences, and restores the transaction count. -/
theorem insert_remove_roundtrip_witness :
    ∃ t2, removeCA (insertCA exEmpty [] ["a", "b"]) [] ["a", "b"] false = .ok t2 ∧
      t2.numberTransactions = exEmpty.numberTransactions ∧
      posNode t2.root = true ∧
      (∀ p, contigOf p ([] ++ ["a", "b"]) → occAt t2.root p = occAt exEmpty.root p) ∧
      (∀ p, ¬ (p ≠ [] ∧ p.Sublist ([] ++ ["a", "b"])) →
        occAt t2.root p = occAt exEmpty.root p) :=
  insert_remove_roundtrip exEmpty [] ["a", "b"] (fun _ => false) rfl rfl rfl
    (by intro x hx; cases hx) (fun x _ => rfl) (by decide) (by decide)
    (fun k hk => by cases hk) trivial

/-! ### The trie merge (C8) -/

theorem findChild_cons_self (k : String) (c : Node) (rest : List (String × Node)) :
    findChild ((k, c) :: rest) k = some c := by
  simp [findChild]

theorem findChild_cons_ne {k j : String} (c : Node) (rest : List (String × Node))
    (h : k ≠ j) : findChild ((k, c) :: rest) j = findChild rest j := by
  simp [findChild, h]

theorem occAtL_cons (cs : List (String × Node)) (k : String) (q : List String) :
    occAtL cs (k :: q) = (match findChild cs k with
      | some sc => occAt sc q
      | none => 0) := rfl

theorem occAtL_found {cs : List (String × Node)} {k : String} {sc : Node}
    (h : findChild cs k = some sc) (q : List String) :
    occAtL cs (k :: q) = occAt sc q := by
  rw [occAtL_cons, h]

theorem occAtL_none {cs : List (String × Node)} {k : String}
    (h : findChild cs k = none) (q : List String) : occAtL cs (k :: q) = 0 := by
  rw [occAtL_cons, h]

theorem occAtL_cons_ne {k0 j : String} (sc : Node) (rest : List (String × Node))
    (q : List String) (h : k0 ≠ j) :
    occAtL ((k0, sc) :: rest) (j :: q) = occAtL rest (j :: q) := by
  rw [occAtL_cons, findChild_cons_ne sc rest h, ← occAtL_cons]

mutual

/-- The merge of one source node into a target node: the target's root
fields survive, well-formedness is preserved, positivity and the flag
classifier are preserved when both sides satisfy them, and every nonempty
path's counter becomes the sum of the two sides' counters. -/
theorem mergeInto_spec : ∀ (s t : Node), wfNode t = true → wfNode s = true →
    (mergeInto t s).1.isConsequent = t.isConsequent ∧
    (mergeInto t s).1.occurrences = t.occurrences ∧
    wfNode (mergeInto t s).1 = true ∧
    (posNode t = true → posNode s = true → posNode (mergeInto t s).1 = true) ∧
    (∀ phi, flaggedNode phi t = true → flaggedNode phi s = true →
      flaggedNode phi (mergeInto t s).1 = true) ∧
    (∀ k q, occAt (mergeInto t s).1 (k :: q) = occAt t (k :: q) + occAt s (k :: q))
  | .mk b o cs, t, hwf, hwfs => by
    have hnd : keysNodupB cs = true := by
      rw [wfNode_mk] at hwfs
      exact andE_left (andE_left hwfs)
    have hch : wfChildren cs = true := by
      rw [wfNode_mk] at hwfs
      exact andE_right hwfs
    have hspec := mergeChildren_spec cs t hwf hnd hch
    have hmeq : mergeInto t (.mk b o cs) = mergeChildren t cs := rfl
    rw [hmeq]
    refine ⟨hspec.1, hspec.2.1, hspec.2.2.1, ?_, ?_, ?_⟩
    · intro hpt hps
      refine hspec.2.2.2.1 hpt ?_
      rw [show posNode (Node.mk b o cs) = posChildren cs from rfl] at hps
      exact hps
    · intro phi hft hfs
      refine hspec.2.2.2.2.1 phi hft ?_
      rw [show flaggedNode phi (Node.mk b o cs) = flaggedChildren phi cs from rfl] at hfs
      exact hfs
    · intro k q
      rw [hspec.2.2.2.2.2 k q]
      rw [show occAt (Node.mk b o cs) (k :: q) = occAtL cs (k :: q) from by
        rw [occAt_cons, occAtL_cons, children_mk]]

/-- The merge of a source children list into a target node, child by
child. -/
theorem mergeChildren_spec : ∀ (cs : List (String × Node)) (t : Node),
    wfNode t = true → keysNodupB cs = true → wfChildren cs = true →
    (mergeChildren t cs).1.isConsequent = t.isConsequent ∧
    (mergeChildren t cs).1.occurrences = t.occurrences ∧
    wfNode (mergeChildren t cs).1 = true ∧
    (posNode t = true → posChildren cs = true → posNode (mergeChildren t cs).1 = true) ∧
    (∀ phi, flaggedNode phi t = true → flaggedChildren phi cs = true →
      flaggedNode phi (mergeChildren t cs).1 = true) ∧
    (∀ k q, occAt (mergeChildren t cs).1 (k :: q) = occAt t (k :: q) + occAtL cs (k :: q))
  | [], t, hwf, _, _ => by
    refine ⟨rfl, rfl, hwf, fun hp _ => hp, fun phi hft _ => hft, ?_⟩
    intro k q
    rw [show mergeChildren t [] = (t, 0) from rfl]
    rw [show occAtL ([] : List (String × Node)) (k :: q) = 0 from rfl, Nat.add_zero]
  | (k0, sc) :: rest, t, hwf, hnd, hwfc => by
    have hndk : keyNotMem k0 rest = true := by
      rw [keysNodupB_cons] at hnd
      exact andE_left hnd
    have hndrest : keysNodupB rest = true := by
      rw [keysNodupB_cons] at hnd
      exact andE_right hnd
    have hscwf : wfNode sc = true := by
      rw [show wfChildren ((k0, sc) :: rest) = (wfNode sc && wfChildren rest) from rfl]
        at hwfc
      exact andE_left hwfc
    have hwfcrest : wfChildren rest = true := by
      rw [show wfChildren ((k0, sc) :: rest) = (wfNode sc && wfChildren rest) from rfl]
        at hwfc
      exact andE_right hwfc
    have hfind := getOrCreateChild_find_self (n := t) (k := k0) sc.isConsequent hwf
    have hgcwf := getOrCreateChild_wf (n := t) (k := k0) sc.isConsequent hwf
    have hgctop := getOrCreateChild_top (n := t) (k := k0) sc.isConsequent
    set gc := getOrCreateChild t k0 sc.isConsequent with hgc
    set c := (findChild gc.1.children k0).getD (Node.mk sc.isConsequent 0 []) with hcdef
    set c1 := Node.mk c.isConsequent (c.occurrences + sc.occurrences) c.children with hc1
    set mc := mergeInto c1 sc with hmc
    set t2 := Node.mk gc.1.isConsequent gc.1.occurrences
      (replaceChild gc.1.children k0 mc.1) with ht2
    set mr := mergeChildren t2 rest with hmr
    have hunf : mergeChildren t ((k0, sc) :: rest) =
        (mr.1, (if gc.2 then 1 else 0) + mc.2 + mr.2) := rfl
    have hceq : c = (findChild t.children k0).getD (Node.mk sc.isConsequent 0 []) := by
      rw [hcdef, hfind, Option.getD_some]
    rw [← hceq] at hfind
    have hcwf : wfNode c = true := by
      cases hf : findChild t.children k0 with
      | some c0 =>
        rw [hceq, hf, Option.getD_some]
        exact wfNode_of_find hwf hf
      | none => rw [hceq, hf]; rfl
    have hcocc : ∀ q, occAt t (k0 :: q) = occAt c q := by
      intro q
      cases hf : findChild t.children k0 with
      | some c0 => rw [occAt_cons_found hf, hceq, hf, Option.getD_some]
      | none =>
        rw [occAt_cons_none hf, hceq, hf]
        cases q with
        | nil => rfl
        | cons a q2 =>
          rw [show (none : Option Node).getD (Node.mk sc.isConsequent 0 []) =
            Node.mk sc.isConsequent 0 [] from rfl]
          rw [occAt_cons]
          rfl
    have hcpos : posNode t = true → posNode c = true := by
      intro hp
      cases hf : findChild t.children k0 with
      | some c0 =>
        rw [hceq, hf, Option.getD_some]
        exact (pos_of_find hp hf).2
      | none => rw [hceq, hf]; rfl
    have hcfl : ∀ phi, flaggedNode phi t = true → flaggedNode phi c = true := by
      intro phi hft
      cases hf : findChild t.children k0 with
      | some c0 =>
        rw [hceq, hf, Option.getD_some]
        exact (flagged_of_find hft hf).2
      | none => rw [hceq, hf]; rfl
    have hcflag : ∀ phi, flaggedNode phi t = true → sc.isConsequent = phi k0 →
        c.isConsequent = phi k0 := by
      intro phi hft hsc
      cases hf : findChild t.children k0 with
      | some c0 =>
        rw [hceq, hf, Option.getD_some]
        exact (flagged_of_find hft hf).1
      | none =>
        rw [hceq, hf]
        simpa using hsc
    have hc1wf : wfNode c1 = true := by
      rw [hc1, wfNode_mk]
      rw [wfNode_children] at hcwf
      exact hcwf
    have hmcfacts := mergeInto_spec sc c1 hc1wf hscwf
    have hgcnd : keysNodupB gc.1.children = true := by
      rw [wfNode_children] at hgcwf
      exact andE_left (andE_left hgcwf)
    have hgcsort : sortedChildrenB gc.1.children = true := by
      rw [wfNode_children] at hgcwf
      exact andE_right (andE_left hgcwf)
    have hgcch : wfChildren gc.1.children = true := by
      rw [wfNode_children] at hgcwf
      exact andE_right hgcwf
    have ht2wf : wfNode t2 = true := by
      rw [ht2, wfNode_mk]
      have h1 := keysNodupB_replace (n := mc.1) (k := k0) hgcnd
      have h2 : sortedChildrenB (replaceChild gc.1.children k0 mc.1) = true := by
        refine sortedChildrenB_replace gc.1.children hgcsort hfind ?_
        rw [hmcfacts.1, hc1, isConsequent_mk]
      have h3 : wfChildren (replaceChild gc.1.children k0 mc.1) = true :=
        wfChildren_replace hgcch hmcfacts.2.2.1
      rw [h1, h2, h3]
      rfl
    have ht2top : t2.isConsequent = t.isConsequent ∧ t2.occurrences = t.occurrences := by
      rw [ht2, isConsequent_mk, occurrences_mk]
      exact hgctop
    have hsome : (findChild gc.1.children k0).isSome := by
      rw [hfind]
      rfl
    have ht2pos : posNode t = true → posChildren ((k0, sc) :: rest) = true →
        posNode t2 = true := by
      intro hp hpc
      have hx := posChildren_iff.mp hpc (k0, sc) (List.mem_cons_self _ _)
      have hpc1 : posNode c1 = true := by
        rw [hc1, posNode_children, children_mk, ← posNode_children]
        exact hcpos hp
      rw [ht2, posNode_children]
      simp only [children_mk]
      rw [posChildren_iff]
      intro e he
      cases mem_replaceChild_strong hgcnd hsome he with
      | inl hold =>
        have hmem : e ∈ t.children := getOrCreateChild_mem_ne hold.1 hold.2
        rw [posNode_children] at hp
        exact posChildren_iff.mp hp e hmem
      | inr heq =>
        rw [heq]
        refine ⟨?_, hmcfacts.2.2.2.1 hpc1 hx.2⟩
        show mc.1.occurrences ≠ 0
        have hco : mc.1.occurrences = c.occurrences + sc.occurrences := by
          rw [hmcfacts.2.1, hc1]
          rfl
        have hso : sc.occurrences ≠ 0 := hx.1
        omega
    have ht2fl : ∀ phi, flaggedNode phi t = true →
        flaggedChildren phi ((k0, sc) :: rest) = true → flaggedNode phi t2 = true := by
      intro phi hft hfc
      have hx := flaggedChildren_iff.mp hfc (k0, sc) (List.mem_cons_self _ _)
      have hgcfl := getOrCreateChild_flagged hwf hft hx.1
      have hfc1 : flaggedNode phi c1 = true := by
        rw [hc1, flaggedNode_children, children_mk, ← flaggedNode_children]
        exact hcfl phi hft
      rw [ht2, flaggedNode_children]
      simp only [children_mk]
      refine flaggedChildren_replace ?_ ?_ ?_
      · rw [flaggedNode_children] at hgcfl
        exact hgcfl
      · rw [hmcfacts.1, hc1, isConsequent_mk]
        exact hcflag phi hft hx.1
      · exact hmcfacts.2.2.2.2.1 phi hfc1 hx.2
    have ht2occ_self : ∀ q, occAt t2 (k0 :: q) = occAt mc.1 q := by
      intro q
      refine occAt_cons_found ?_ q
      rw [ht2]
      simp only [children_mk]
      exact findChild_replace_self hfind mc.1
    have ht2occ_ne : ∀ j q, j ≠ k0 → occAt t2 (j :: q) = occAt t (j :: q) := by
      intro j q hj
      refine occAt_cons_eq_of_find ?_ q
      rw [ht2]
      simp only [children_mk]
      rw [findChild_replace_ne hj mc.1]
      exact getOrCreateChild_find_ne sc.isConsequent hwf hj
    have hmrfacts := mergeChildren_spec rest t2 ht2wf hndrest hwfcrest
    rw [hunf]
    refine ⟨?_, ?_, ?_, ?_, ?_, ?_⟩
    · show mr.1.isConsequent = t.isConsequent
      rw [hmrfacts.1, ht2top.1]
    · show mr.1.occurrences = t.occurrences
      rw [hmrfacts.2.1, ht2top.2]
    · exact hmrfacts.2.2.1
    · intro hp hpc
      refine hmrfacts.2.2.2.1 (ht2pos hp hpc) ?_
      rw [posChildren_iff]
      intro e he
      exact posChildren_iff.mp hpc e (List.mem_cons_of_mem _ he)
    · intro phi hft hfc
      refine hmrfacts.2.2.2.2.1 phi (ht2fl phi hft hfc) ?_
      rw [flaggedChildren_iff]
      intro e he
      exact flaggedChildren_iff.mp hfc e (List.mem_cons_of_mem _ he)
    · intro j q
      show occAt mr.1 (j :: q) = occAt t (j :: q) + occAtL ((k0, sc) :: rest) (j :: q)
      rw [hmrfacts.2.2.2.2.2 j q]
      by_cases hj : j = k0
      · subst hj
        rw [ht2occ_self q, occAtL_found (findChild_cons_self j sc rest) q,
          occAtL_none (keyNotMem_iff.mp hndk) q, Nat.add_zero]
        cases q with
        | nil =>
          rw [occAt_nil_path, hmcfacts.2.1, hc1, occurrences_mk, hcocc [],
            occAt_nil_path, occAt_nil_path]
        | cons a q2 =>
          rw [hmcfacts.2.2.2.2.2 a q2]
          have he2 : occAt c1 (a :: q2) = occAt c (a :: q2) :=
            occAt_cons_eq_of_find (by rw [hc1, children_mk]) q2
          rw [he2, hcocc (a :: q2)]
      · rw [ht2occ_ne j q hj, occAtL_cons_ne sc rest q (fun he => hj he.symm)]

end

/-- C8: Merging two databases with equal settings yields a database in
which the counter of every nonempty itemset is the sum of the two inputs'
counters (absent nodes counting zero) and whose `number_transactions` is
the sum of the inputs'; merging fails with the settings-mismatch error when
the settings differ.  Both target-choice branches of `merge_database_pair`
(larger trie becomes the target) are covered. -/
theorem mergeDatabasePair_spec (d1 d2 : Database)
    (hwf1 : wfNode d1.itemsetsTrie.root = true)
    (hwf2 : wfNode d2.itemsetsTrie.root = true) :
    (d1.settings ≠ d2.settings → mergeDatabasePair d1 d2 = .error .settingsMismatch) ∧
    (d1.settings = d2.settings → ∃ d, mergeDatabasePair d1 d2 = .ok d ∧
      d.itemsetsTrie.numberTransactions =
        d1.itemsetsTrie.numberTransactions + d2.itemsetsTrie.numberTransactions ∧
      ∀ k q, occAt d.itemsetsTrie.root (k :: q) =
        occAt d1.itemsetsTrie.root (k :: q) + occAt d2.itemsetsTrie.root (k :: q)) := by
  constructor
  · intro h
    unfold mergeDatabasePair
    rw [if_neg h]
  · intro h
    by_cases hge : d1.itemsetsTrie.numberNodes ≥ d2.itemsetsTrie.numberNodes
    · have hEq : mergeDatabasePair d1 d2 = .ok (insertCommonSenseRules
          { settings := d1.settings,
            itemsetsTrie := trieMerge
              { root := d1.itemsetsTrie.root,
                maxAntecedentsLength := d1.itemsetsTrie.maxAntecedentsLength,
                numberTransactions := d1.itemsetsTrie.numberTransactions +
                  d2.itemsetsTrie.numberTransactions,
                numberNodes := d1.itemsetsTrie.numberNodes } d2.itemsetsTrie,
            commonSenseRules := d1.commonSenseRules } d2.commonSenseRules) := by
        unfold mergeDatabasePair
        rw [if_pos h, if_pos hge]
      refine ⟨_, hEq, ?_, ?_⟩
      · rfl
      · intro k q
        show occAt (mergeInto d1.itemsetsTrie.root d2.itemsetsTrie.root).1 (k :: q) =
          occAt d1.itemsetsTrie.root (k :: q) + occAt d2.itemsetsTrie.root (k :: q)
        exact (mergeInto_spec d2.itemsetsTrie.root d1.itemsetsTrie.root
          hwf1 hwf2).2.2.2.2.2 k q
    · have hEq : mergeDatabasePair d1 d2 = .ok (insertCommonSenseRules
          { settings := d2.settings,
            itemsetsTrie := trieMerge
              { root := d2.itemsetsTrie.root,
                maxAntecedentsLength := d2.itemsetsTrie.maxAntecedentsLength,
                numberTransactions := d2.itemsetsTrie.numberTransactions +
                  d1.itemsetsTrie.numberTransactions,
                numberNodes := d2.itemsetsTrie.numberNodes } d1.itemsetsTrie,
            commonSenseRules := d2.commonSenseRules } d1.commonSenseRules) := by
        unfold mergeDatabasePair
        rw [if_pos h, if_neg hge]
      refine ⟨_, hEq, ?_, ?_⟩
      · show d2.itemsetsTrie.numberTransactions + d1.itemsetsTrie.numberTransactions =
          d1.itemsetsTrie.numberTransactions + d2.itemsetsTrie.numberTransactions
        exact Nat.add_comm _ _
      · intro k q
        show occAt (mergeInto d2.itemsetsTrie.root d1.itemsetsTrie.root).1 (k :: q) =
          occAt d1.itemsetsTrie.root (k :: q) + occAt d2.itemsetsTrie.root (k :: q)
        rw [(mergeInto_spec d1.itemsetsTrie.root d2.itemsetsTrie.root
          hwf2 hwf1).2.2.2.2.2 k q]
        exact Nat.add_comm _ _

/-- Witness for C8 on concrete databases: merging `{a, b}` with
`{{b, c}, {a}}` sums every counter and the transaction counts, and a
database with flipped case sensitivity is rejected with the
settings-mismatch error. -/
theorem mergeDatabasePair_spec_witness :
    (∃ d, mergeDatabasePair exMergeDb1 exMergeDb2 = .ok d ∧
      d.itemsetsTrie.numberTransactions =
        exMergeDb1.itemsetsTrie.numberTransactions +
          exMergeDb2.itemsetsTrie.numberTransactions ∧
      ∀ k q, occAt d.itemsetsTrie.root (k :: q) =
        occAt exMergeDb1.itemsetsTrie.root (k :: q) +
          occAt exMergeDb2.itemsetsTrie.root (k :: q)) ∧
    mergeDatabasePair exMergeDb1 exMergeDb3 = .error .settingsMismatch :=
  ⟨(mergeDatabasePair_spec exMergeDb1 exMergeDb2 rfl rfl).2 rfl,
    (mergeDatabasePair_spec exMergeDb1 exMergeDb3 rfl rfl).1 (by decide)⟩

/-! ### Reachability invariants (C2, C6) -/

/-- The flagged canonical itemset respects the consequent classifier. -/
theorem itsOf_flagged {phi : String → Bool} {c a : List String}
    (hc : ∀ x ∈ c, phi x = true) (ha : ∀ x ∈ a, phi x = false) :
    ∀ e ∈ itsOf c a, e.2 = phi e.1 := by
  intro e he
  rcases List.mem_append.mp he with h1 | h1
  · obtain ⟨x, hx, hxe⟩ := List.mem_map.mp h1
    rw [← hxe]
    exact (hc x hx).symm
  · obtain ⟨x, hx, hxe⟩ := List.mem_map.mp h1
    rw [← hxe]
    exact (ha x hx).symm

/-- The items of the flagged canonical itemset are the canonical path. -/
theorem itsOf_map_fst (c a : List String) : (itsOf c a).map Prod.fst = c ++ a := by
  simp [itsOf, Function.comp_def]

/-- A successful removal chain walked a present path. -/
theorem decChain_ok_some : ∀ (path : List String) (n : Node) (pr : Node × Nat),
    decChain n path = .ok pr → (getNode n path).isSome = true
  | [], _, _, _ => rfl
  | k :: rest, n, pr, h => by
    rw [decChain_cons] at h
    rw [getNode_cons]
    cases hf : findChild n.children k with
    | none =>
      rw [hf] at h
      dsimp only at h
      exact absurd h (by simp)
    | some c =>
      rw [hf] at h
      dsimp only at h ⊢
      cases hdc : decChain c rest with
      | error e =>
        rw [hdc] at h
        dsimp only at h
        exact absurd h (by simp)
      | ok pr2 => exact decChain_ok_some rest c pr2 hdc

/-- A successful removal suffix loop preserves the root fields,
well-formedness, positivity and the flag classifier (no assumptions on the
path). -/
theorem removeLoop_ok_inv : ∀ (path : List String) (n n1 : Node) (d : Nat),
    removeLoop n path = .ok (n1, d) → wfNode n = true → posNode n = true →
    n1.isConsequent = n.isConsequent ∧ n1.occurrences = n.occurrences ∧
    wfNode n1 = true ∧ posNode n1 = true ∧
    (∀ phi, flaggedNode phi n = true → flaggedNode phi n1 = true)
  | [], n, n1, d, h, hwf, hpos => by
    rw [show removeLoop n [] = .ok (n, 0) from rfl] at h
    injection h with h2
    injection h2 with ha hb
    rw [← ha]
    exact ⟨rfl, rfl, hwf, hpos, fun _ hf => hf⟩
  | k :: rest, n, n1, d, h, hwf, hpos => by
    rw [removeLoop_cons] at h
    cases hdc : decChain n (k :: rest) with
    | error e =>
      rw [hdc] at h
      dsimp only at h
      exact absurd h (by simp)
    | ok pr =>
      obtain ⟨m1, d1⟩ := pr
      rw [hdc] at h
      dsimp only at h
      have hsome := decChain_ok_some (k :: rest) n (m1, d1) hdc
      obtain ⟨m2, d2, hdc2, hcons, hocc, hwf2, hpos2, hfl2, _⟩ :=
        decChain_spec (k :: rest) n hwf hpos hsome
      rw [hdc] at hdc2
      injection hdc2 with h3
      injection h3 with ha hb
      rw [← ha] at hcons hocc hwf2 hpos2 hfl2
      cases hrl : removeLoop m1 rest with
      | error e =>
        rw [hrl] at h
        dsimp only at h
        exact absurd h (by simp)
      | ok pr2 =>
        obtain ⟨n2, d3⟩ := pr2
        rw [hrl] at h
        dsimp only at h
        injection h with h4
        injection h4 with ha2 hb2
        have ih := removeLoop_ok_inv rest m1 n2 d3 hrl hwf2 hpos2
        rw [← ha2]
        exact ⟨ih.1.trans hcons, ih.2.1.trans hocc, ih.2.2.1, ih.2.2.2.1,
          fun phi hf => ih.2.2.2.2 phi (hfl2 phi hf)⟩

/-- Every trie state reachable through the public mutators is well-formed,
keeps every non-root counter positive, and keeps every node flag equal to
the database's consequent classifier. -/
theorem trieReachable_inv {phi : String → Bool} {t : ItemsetsTrie}
    (h : TrieReachable phi t) :
    wfNode t.root = true ∧ posNode t.root = true ∧ flaggedNode phi t.root = true := by
  induction h with
  | empty cap => exact ⟨rfl, rfl, rfl⟩
  | insert t0 c a ht hc ha ih =>
    have hspec := insertEntry_spec t0.maxAntecedentsLength phi (itsOf c a) t0.root 0
      ih.1 ih.2.2 (itsOf_flagged hc ha)
    exact ⟨hspec.2.2.1, hspec.2.2.2.2.1 ih.2.1, hspec.2.2.2.1⟩
  | remove t0 c a s t2 ht hrem ih =>
    rw [removeCA_unfold] at hrem
    by_cases h0 : t0.numberTransactions = 0
    · rw [if_pos h0] at hrem
      exact absurd hrem (by simp)
    rw [if_neg h0] at hrem
    by_cases h1 : (c ++ a).isEmpty = true
    · rw [if_pos h1] at hrem
      exact absurd hrem (by simp)
    rw [if_neg h1] at hrem
    by_cases h2 : (getNode t0.root (c ++ a)).isNone = true
    · rw [if_pos h2] at hrem
      cases s with
      | true =>
        rw [if_pos rfl] at hrem
        injection hrem with h3
        rw [← h3]
        exact ih
      | false =>
        rw [if_neg (by simp)] at hrem
        exact absurd hrem (by simp)
    · rw [if_neg h2] at hrem
      cases hrl : removeLoop t0.root (c ++ a) with
      | error e =>
        rw [hrl] at hrem
        dsimp only at hrem
        exact absurd hrem (by simp)
      | ok pr =>
        obtain ⟨r, d⟩ := pr
        rw [hrl] at hrem
        dsimp only at hrem
        injection hrem with h3
        have hinv := removeLoop_ok_inv (c ++ a) t0.root r d hrl ih.1 ih.2.1
        rw [← h3]
        exact ⟨hinv.2.2.1, hinv.2.2.2.1, hinv.2.2.2.2 phi ih.2.2⟩
  | mergePair t0 s0 ht hs iht ihs =>
    have hm := mergeInto_spec s0.root t0.root iht.1 ihs.1
    exact ⟨hm.2.2.1, hm.2.2.2.1 iht.2.1 ihs.2.1,
      hm.2.2.2.2.1 phi iht.2.2 ihs.2.2⟩

/-- Reachability through a successful removal, stated through `getOk`. -/
theorem trieReachable_getOk {phi : String → Bool} {t : ItemsetsTrie}
    (c a : List String) (s : Bool) (h : TrieReachable phi t)
    (hok : isOkB (removeCA t c a s) = true) :
    TrieReachable phi (getOk (removeCA t c a s)) := by
  cases hrem : removeCA t c a s with
  | ok t2 =>
    exact .remove t c a s t2 h hrem
  | error e =>
    rw [hrem] at hok
    exact absurd hok (by simp [isOkB])

/-- Every trie state reachable through insertions and merges only carries
the invariants plus the counter bound `occurrences ≤ number_transactions`
at every node. -/
theorem insReachable_inv {phi : String → Bool} {t : ItemsetsTrie}
    (h : InsReachable phi t) :
    wfNode t.root = true ∧ posNode t.root = true ∧ flaggedNode phi t.root = true ∧
    ∀ p, occAt t.root p ≤ t.numberTransactions := by
  induction h with
  | empty cap =>
    refine ⟨rfl, rfl, rfl, ?_⟩
    intro p
    cases p with
    | nil => exact Nat.le.refl
    | cons k q =>
      have hz : findChild (emptyTrie cap).root.children k = none := rfl
      rw [occAt_cons_none hz q]
      exact Nat.zero_le _
  | insert t0 c a ht hc ha hnd ih =>
    have hspec := insertEntry_spec t0.maxAntecedentsLength phi (itsOf c a) t0.root 0
      ih.1 ih.2.2.1 (itsOf_flagged hc ha)
    refine ⟨hspec.2.2.1, hspec.2.2.2.2.1 ih.2.1, hspec.2.2.2.1, ?_⟩
    intro p
    have hkeys : ((itsOf c a).map Prod.fst).Nodup := by
      rw [itsOf_map_fst]
      exact hnd
    have hle := @selCount_le_one t0.maxAntecedentsLength (itsOf c a) hkeys 0 p
    have hocc := ih.2.2.2 p
    show occAt (insertCA t0 c a).root p ≤ t0.numberTransactions + 1
    rw [show (insertCA t0 c a).root =
      (insertEntry t0.maxAntecedentsLength t0.root 0 (itsOf c a)).1 from rfl]
    rw [hspec.2.2.2.2.2 p]
    omega
  | mergePair t0 s0 ht hs iht ihs =>
    have hm := mergeInto_spec s0.root t0.root iht.1 ihs.1
    refine ⟨hm.2.2.1, hm.2.2.2.1 iht.2.1 ihs.2.1,
      hm.2.2.2.2.1 phi iht.2.2.1 ihs.2.2.1, ?_⟩
    intro p
    show occAt (mergeInto t0.root s0.root).1 p ≤
      t0.numberTransactions + s0.numberTransactions
    cases p with
    | nil =>
      rw [occAt_nil_path, hm.2.1]
      have h1 := iht.2.2.2 []
      rw [occAt_nil_path] at h1
      omega
    | cons k q =>
      rw [hm.2.2.2.2.2 k q]
      have h1 := ihs.2.2.2 (k :: q)
      have h2 := iht.2.2.2 (k :: q)
      omega

/-- C2 (amended): in every state reachable through transaction insertions
of duplicate-free canonical transactions and merges (no removals), every
node's counter is bounded by `number_transactions` and the support
`occurrences / number_transactions` lies in `[0, 1]`.  (Removals can break
the bound: see the counterexample.) -/
theorem support_in_unit_interval (phi : String → Bool) (t : ItemsetsTrie)
    (h : InsReachable phi t) (p : List String) :
    occAt t.root p ≤ t.numberTransactions ∧
    0 ≤ supportAt t p ∧ supportAt t p ≤ 1 := by
  have hocc := (insReachable_inv h).2.2.2 p
  refine ⟨hocc, ?_, ?_⟩
  · unfold supportAt
    positivity
  · unfold supportAt
    by_cases hz : t.numberTransactions = 0
    · rw [hz]
      norm_num
    · have hp2 : (0 : ℚ) < (t.numberTransactions : ℚ) := by
        exact_mod_cast Nat.pos_of_ne_zero hz
      rw [div_le_one hp2]
      exact_mod_cast hocc

/-- Counterexample to C2 over the full mutator set: the state `exACrem`
(insert `{a, c}`, insert `{a, b, c}`, remove `{a, b, c}`) is reachable
through the public API, yet the support of the itemset `{a, c}` is
`2/1 > 1` — the removal decremented `number_transactions` but left the
non-contiguous subsequence counter `a → c` at two. -/
theorem support_above_one_with_removal :
    TrieReachable (fun _ => false) exACrem ∧ 1 < supportAt exACrem ["a", "c"] := by
  constructor
  · refine trieReachable_getOk [] ["a", "b", "c"] false ?_ rfl
    exact .insert _ [] ["a", "b", "c"]
      (.insert _ [] ["a", "c"] (.empty none) (by intro x hx; cases hx)
        (fun x _ => rfl))
      (by intro x hx; cases hx) (fun x _ => rfl)
  · have h1 : occAt exACrem.root ["a", "c"] = 2 := by decide
    have h2 : exACrem.numberTransactions = 1 := by decide
    unfold supportAt
    rw [h1, h2]
    norm_num

/-- Witness for C2 on a concrete state: after inserting `{a, c}` into the
empty default database, the support of `{a}` lies in `[0, 1]`. -/
theorem support_in_unit_interval_witness :
    occAt exAC.root ["a"] ≤ exAC.numberTransactions ∧
    0 ≤ supportAt exAC ["a"] ∧ supportAt exAC ["a"] ≤ 1 :=
  support_in_unit_interval (fun _ => false) exAC
    (.insert _ _ _ (.empty none) (by intro x hx; cases hx) (fun x _ => rfl)
      (by decide)) ["a"]

/-- C6 (amended): in every reachable trie state every node's children are
sorted by the `get_or_create_child` key `(not is_consequent, decompressed
item)` — consequent children first, then code-point order on the raw
(not case-folded) decompressed item; `wfNode` asserts this recursively at
every node of the trie.  (The case-folded order claimed by the
specification is violated: see the counterexample.) -/
theorem reachable_children_sorted (phi : String → Bool) (t : ItemsetsTrie)
    (h : TrieReachable phi t) :
    wfNode t.root = true ∧ sortedChildrenB t.root.children = true := by
  have hwf := (trieReachable_inv h).1
  refine ⟨hwf, ?_⟩
  rw [wfNode_children] at hwf
  exact andE_right (andE_left hwf)

/-- Counterexample to C6's case-folded sibling order: inserting the
case-sensitive transaction `{a, B}` yields root children iterated as
`B, a` (code-point order of the raw items), which is sorted by the real
key but not ascending by case-folded form (`a < b`). -/
theorem casefold_order_violated :
    TrieReachable (fun _ => false) exCase ∧
    sortedChildrenB exCase.root.children = true ∧
    sortedByCasefoldB exCase.root.children = false := by
  refine ⟨?_, rfl, rfl⟩
  exact .insert _ [] ["a", "B"] (.empty none) (by intro x hx; cases hx)
    (fun x _ => rfl)

/-- Witness for C6 on a concrete state: the `{a, c}` database is reachable
and its root children are sorted by the real sibling key. -/
theorem reachable_children_sorted_witness :
    wfNode exAC.root = true ∧ sortedChildrenB exAC.root.children = true :=
  reachable_children_sorted (fun _ => false) exAC
    (.insert _ _ _ (.empty none) (by intro x hx; cases hx) (fun x _ => rfl))

/-! ### The codec round trip (C7) -/

/-- With enough fuel, the Python base conversion loop computes the standard
little-endian digits. -/
theorem pyToDigitsLE_eq_digits (b : Nat) (hb : 1 < b) :
    ∀ fuel n, n ≤ fuel → pyToDigitsLE b fuel n = Nat.digits b n := by
  intro fuel
  induction fuel with
  | zero =>
    intro n hn
    have h0 : n = 0 := Nat.le_zero.mp hn
    subst h0
    simp [pyToDigitsLE]
  | succ fuel ih =>
    intro n hn
    match n with
    | 0 => simp [pyToDigitsLE]
    | m + 1 =>
      have hdiv : (m + 1) / b ≤ fuel := by
        have hlt : (m + 1) / b < m + 1 := Nat.div_lt_self (Nat.succ_pos m) hb
        omega
      rw [Nat.digits_def' hb (Nat.succ_pos m)]
      simpa [pyToDigitsLE] using ih ((m + 1) / b) hdiv

/-- `pyFindIdx` answers `none` exactly on absent characters. -/
theorem pyFindIdx_eq_none {l : List Char} {c : Char} (h : c ∉ l) :
    pyFindIdx l c = none := by
  induction l with
  | nil => rfl
  | cons a rest ih =>
    have hne : a ≠ c := fun he => h (he ▸ List.mem_cons_self a rest)
    have hr : c ∉ rest := fun hm => h (List.mem_cons_of_mem a hm)
    simp [pyFindIdx, hne, ih hr]

/-- `pyFindIdx` of a present character yields a valid index pointing back at
the character. -/
theorem pyFindIdx_mem {l : List Char} {c : Char} (h : c ∈ l) :
    ∃ i, pyFindIdx l c = some i ∧ i < l.length ∧ l.getD i sentinel = c := by
  induction l with
  | nil => cases h
  | cons a rest ih =>
    by_cases hac : a = c
    · exact ⟨0, by simp [pyFindIdx, hac], by simp, by simp [hac]⟩
    · have hr : c ∈ rest := by
        cases List.mem_cons.mp h with
        | inl he => exact absurd he.symm hac
        | inr hm => exact hm
      obtain ⟨i, hfind, hlt, hget⟩ := ih hr
      exact ⟨i + 1, by simp [pyFindIdx, hac, hfind], by simpa using hlt, by simpa using hget⟩

/-- After the first character, the compression accumulator is a plain left
fold over the digit values. -/
theorem compressAccum_notFirst (alphaX : List Char) :
    ∀ (s : List Char), (∀ x ∈ s, x ∈ alphaX) → ∀ acc,
      compressAccum alphaX s false acc =
        .ok (s.foldl (fun a c => a * alphaX.length + (pyFindIdx alphaX c).getD 0) acc) := by
  intro s
  induction s with
  | nil => intro _ acc; rfl
  | cons c rest ih =>
    intro hval acc
    obtain ⟨i, hfind, _, _⟩ := pyFindIdx_mem (hval c (List.mem_cons_self c rest))
    have hrest : ∀ x ∈ rest, x ∈ alphaX := fun x hx => hval x (List.mem_cons_of_mem c hx)
    simp [compressAccum, hfind, ih hrest]

/-- On a string over the sentinel-prepended alphabet whose first digit is
positive, the whole compression accumulator run is the left fold (the
first-character zero bump never fires). -/
theorem compressAccum_run (alphaX : List Char) :
    ∀ (s : List Char), (∀ x ∈ s, x ∈ alphaX) →
      (∀ h : s ≠ [], (pyFindIdx alphaX (s.head h)).getD 0 ≠ 0) →
      compressAccum alphaX s true 0 =
        .ok (s.foldl (fun a c => a * alphaX.length + (pyFindIdx alphaX c).getD 0) 0) := by
  intro s hval hhead
  match s with
  | [] => rfl
  | c :: rest =>
    obtain ⟨i, hfind, _, _⟩ := pyFindIdx_mem (hval c (List.mem_cons_self c rest))
    have hd : i ≠ 0 := by
      have := hhead (by simp)
      simpa [hfind] using this
    have hrest : ∀ x ∈ rest, x ∈ alphaX := fun x hx => hval x (List.mem_cons_of_mem c hx)
    simp [compressAccum, hfind, hd, compressAccum_notFirst alphaX rest hrest]

/-- The digit-accumulating left fold is positional base-`b` evaluation of
the reversed digit list. -/
theorem foldl_ofDigits (b : Nat) (f : Char → Nat) :
    ∀ (s : List Char) (acc : Nat),
      s.foldl (fun a c => a * b + f c) acc =
        acc * b ^ s.length + Nat.ofDigits b (s.map f).reverse := by
  intro s
  induction s with
  | nil => intro acc; simp [Nat.ofDigits]
  | cons c rest ih =>
    intro acc
    rw [List.foldl_cons, ih (acc * b + f c)]
    have : Nat.ofDigits b ((List.map f (c :: rest)).reverse) =
        Nat.ofDigits b ((List.map f rest).reverse) + b ^ rest.length * f c := by
      simp [List.reverse_cons, Nat.ofDigits_append, Nat.ofDigits]
    rw [this]
    simp [List.length_cons]
    ring

/-- After the first character, the decompression accumulator is a plain
left fold over the byte values. -/
theorem decompressAccum_notFirst :
    ∀ (s : List Char) (acc : Nat),
      decompressAccum s false acc = s.foldl (fun a c => a * 256 + c.toNat) acc := by
  intro s
  induction s with
  | nil => intro acc; rfl
  | cons c rest ih => intro acc; simp [decompressAccum, ih]

/-- When the leading byte is non-zero (or the input is empty), the whole
decompression accumulator run is the left fold. -/
theorem decompressAccum_run :
    ∀ (s : List Char), (∀ h : s ≠ [], (s.head h).toNat ≠ 0) →
      decompressAccum s true 0 = s.foldl (fun a c => a * 256 + c.toNat) 0 := by
  intro s hhead
  match s with
  | [] => rfl
  | c :: rest =>
    have hc : c.toNat ≠ 0 := hhead (by simp)
    simp [decompressAccum, hc, decompressAccum_notFirst]

/-- Characters round trip through byte values. -/
theorem charToNat_ofNat (n : Nat) (h : n < 256) : (Char.ofNat n).toNat = n := by
  have hv : n.isValidChar := Or.inl (by omega)
  simp [Char.ofNat, Char.toNat, Char.ofNatAux, hv]
  rfl

/-- A character outside the alphabet makes the compression accumulator fail
with `invalidItemChar` at the first such character. -/
theorem compressAccum_err (alphaX : List Char) :
    ∀ (s : List Char), (∃ c ∈ s, c ∉ alphaX) → ∀ isF acc,
      ∃ c, c ∈ s ∧ c ∉ alphaX ∧
        compressAccum alphaX s isF acc = .error (.invalidItemChar c) := by
  intro s
  induction s with
  | nil => rintro ⟨c, hc, _⟩ _ _; cases hc
  | cons a rest ih =>
    rintro ⟨c, hc, hcno⟩ isF acc
    by_cases ha : a ∈ alphaX
    · have hcrest : c ∈ rest := by
        cases List.mem_cons.mp hc with
        | inl he => exact absurd (he ▸ ha) hcno
        | inr hm => exact hm
      obtain ⟨i, hfind, _, _⟩ := pyFindIdx_mem ha
      obtain ⟨c2, hc2, hc2no, herr⟩ := ih ⟨c, hcrest, hcno⟩ false
        (if isF && decide (acc * alphaX.length + i = 0) then alphaX.length
         else acc * alphaX.length + i)
      refine ⟨c2, List.mem_cons_of_mem a hc2, hc2no, ?_⟩
      simp only [compressAccum, hfind]
      exact herr
    · exact ⟨a, List.mem_cons_self a rest, ha,
        by simp [compressAccum, pyFindIdx_eq_none ha]⟩

/-- C7: for every string over an alphabet not containing the sentinel,
decompression inverts compression; and compression fails with
`invalidItemChar` on any string containing a character outside the
sentinel-prepended alphabet. -/
theorem compress_decompress (alpha : List Char) (s : List Char)
    (h255 : sentinel ∉ alpha) :
    ((∀ c ∈ s, c ∈ alpha) →
      ∃ y, compress_string alpha s = .ok y ∧ decompress_string alpha y = s) ∧
    ((∃ c ∈ s, c ∉ sentinel :: alpha) →
      ∃ c, c ∈ s ∧ c ∉ sentinel :: alpha ∧
        compress_string alpha s = .error (.invalidItemChar c)) := by
  constructor
  · intro hval
    -- digit values of the characters in the sentinel-prepended alphabet
    have hdig : ∀ c ∈ s, ∃ i, pyFindIdx (sentinel :: alpha) c = some (i + 1) ∧
        i < alpha.length ∧ alpha.getD i sentinel = c := by
      intro c hc
      have hcs : sentinel ≠ c := fun he => h255 (he ▸ hval c hc)
      obtain ⟨i, hfind, hlt, hget⟩ := pyFindIdx_mem (hval c hc)
      exact ⟨i, by simp [pyFindIdx, hcs, hfind], hlt, hget⟩
    match s with
    | [] =>
      refine ⟨[], ?_, ?_⟩
      · simp [compress_string, h255, compressAccum, pyToDigitsLE]
      · simp [decompress_string, decompressAccum, pyToDigitsLE]
    | c0 :: rest =>
      have hne : alpha ≠ [] := by
        intro he
        have := hval c0 (List.mem_cons_self c0 rest)
        rw [he] at this
        cases this
      have hb : 1 < (sentinel :: alpha).length := by
        simp [List.length_cons]
        exact List.length_pos.mpr hne
      -- the digit list is in range and starts positive
      have hvalid : ∀ x ∈ c0 :: rest, x ∈ (sentinel :: alpha) := fun x hx =>
        List.mem_cons_of_mem sentinel (hval x hx)
      have hdpos : ∀ c ∈ c0 :: rest, 0 < (pyFindIdx (sentinel :: alpha) c).getD 0 := by
        intro c hc
        obtain ⟨i, hfind, _, _⟩ := hdig c hc
        simp [hfind]
      have hdlt : ∀ c ∈ c0 :: rest,
          (pyFindIdx (sentinel :: alpha) c).getD 0 < (sentinel :: alpha).length := by
        intro c hc
        obtain ⟨i, hfind, hlt, _⟩ := hdig c hc
        simp [hfind, List.length_cons]
        omega
      have hback : ∀ c ∈ c0 :: rest,
          (sentinel :: alpha).getD ((pyFindIdx (sentinel :: alpha) c).getD 0) sentinel = c := by
        intro c hc
        obtain ⟨i, hfind, _, hget⟩ := hdig c hc
        simp only [hfind, Option.getD_some, List.getD_cons_succ]
        exact hget
      -- run the compression accumulator
      have hhead : ∀ h : (c0 :: rest) ≠ [],
          (pyFindIdx (sentinel :: alpha) ((c0 :: rest).head h)).getD 0 ≠ 0 := by
        intro h
        have := hdpos c0 (List.mem_cons_self c0 rest)
        simpa using Nat.pos_iff_ne_zero.mp this
      have hrun := compressAccum_run (sentinel :: alpha) (c0 :: rest) hvalid hhead
      set b := (sentinel :: alpha).length with hbdef
      set dIdx := fun c => (pyFindIdx (sentinel :: alpha) c).getD 0 with hdIdx
      set D := ((c0 :: rest).map dIdx).reverse with hD
      set N := Nat.ofDigits b D with hN
      have hfold : (c0 :: rest).foldl (fun a c => a * b + dIdx c) 0 = N := by
        rw [foldl_ofDigits b dIdx (c0 :: rest) 0, hN, hD]
        simp
      -- digits of N recover D
      have hDlt : ∀ d ∈ D, d < b := by
        intro d hd
        rw [hD] at hd
        obtain ⟨c, hc, hcd⟩ := List.mem_map.mp (List.mem_reverse.mp hd)
        exact hcd ▸ hdlt c hc
      have hDlast : ∀ h : D ≠ [], D.getLast h ≠ 0 := by
        rw [hD]
        intro h
        rw [List.getLast_reverse, List.head_map]
        have h2 := hdpos c0 (List.mem_cons_self c0 rest)
        simp only [List.head_cons, hdIdx]
        omega
      have hdigD : Nat.digits b N = D := Nat.digits_ofDigits b hb D hDlt hDlast
      have hNne : N ≠ 0 := by
        intro h0
        have : Nat.digits b N = [] := by rw [h0]; simp
        rw [hdigD] at this
        rw [hD] at this
        simp at this
      -- the compressed bytes
      have h256 : (1 : Nat) < 256 := by omega
      have hLb := pyToDigitsLE_eq_digits 256 h256 N N (le_refl N)
      set L := Nat.digits 256 N with hL
      have hLne : L ≠ [] := Nat.digits_ne_nil_iff_ne_zero.mpr hNne
      have hcomp : compress_string alpha (c0 :: rest) = .ok (L.reverse.map Char.ofNat) := by
        simp only [compress_string, h255, if_neg (fun h => h255 h)]
        rw [hrun, hfold]
        simp [hLb]
      refine ⟨L.reverse.map Char.ofNat, hcomp, ?_⟩
      -- now decompress
      have hLlt : ∀ d ∈ L, d < 256 := fun d hd => Nat.digits_lt_base h256 hd
      have hLlast : L.getLast hLne ≠ 0 := Nat.getLast_digit_ne_zero 256 hNne
      have hdechead : ∀ h : (L.reverse.map Char.ofNat) ≠ [],
          ((L.reverse.map Char.ofNat).head h).toNat ≠ 0 := by
        intro h
        have hrevne : L.reverse ≠ [] := by simpa using hLne
        have hhead2 : (L.reverse.map Char.ofNat).head h =
            Char.ofNat (L.reverse.head hrevne) := List.head_map Char.ofNat L.reverse h
        rw [hhead2]
        have hmem : L.reverse.head hrevne ∈ L := List.mem_reverse.mp (List.head_mem hrevne)
        rw [charToNat_ofNat _ (hLlt _ hmem)]
        rw [List.head_reverse]
        exact hLlast
      have hdec := decompressAccum_run (L.reverse.map Char.ofNat) hdechead
      have hmapmap : (L.reverse.map Char.ofNat).map Char.toNat = L.reverse := by
        rw [List.map_map]
        have : ∀ d ∈ L.reverse, (Char.toNat ∘ Char.ofNat) d = id d := by
          intro d hd
          exact charToNat_ofNat d (hLlt d (List.mem_reverse.mp hd))
        rw [List.map_congr_left this, List.map_id]
      have hfold2 : (L.reverse.map Char.ofNat).foldl (fun a c => a * 256 + c.toNat) 0 = N := by
        rw [foldl_ofDigits 256 Char.toNat]
        rw [hmapmap]
        simp only [List.reverse_reverse, zero_mul, zero_add]
        rw [hL]
        exact Nat.ofDigits_digits 256 N
      have hlen : (sentinel :: alpha).length = b := rfl
      simp only [decompress_string]
      rw [hdec, hfold2, hlen]
      rw [pyToDigitsLE_eq_digits b (by omega) N N (le_refl N), hdigD, hD]
      rw [List.map_reverse, List.reverse_reverse, List.map_map]
      have : ∀ c ∈ c0 :: rest, ((fun d => (sentinel :: alpha).getD d sentinel) ∘ dIdx) c = id c := by
        intro c hc
        simpa using hback c hc
      rw [List.map_congr_left this, List.map_id]
  · rintro ⟨c, hc, hcno⟩
    obtain ⟨c2, hc2, hc2no, herr⟩ := compressAccum_err (sentinel :: alpha) s ⟨c, hc, hcno⟩ true 0
    refine ⟨c2, hc2, hc2no, ?_⟩
    simp only [compress_string, if_neg (fun h => h255 h)]
    rw [herr]

/-- C7 witness: the codec scenario alphabet and the string `"0A"` satisfy
the hypotheses, and the round trip holds there. -/
theorem compress_decompress_witness :
    (sentinel ∉ exAlpha) ∧
      ∃ y, compress_string exAlpha "0A".data = .ok y ∧
        decompress_string exAlpha y = "0A".data :=
  ⟨by decide, (compress_decompress exAlpha "0A".data (by decide)).1 (by decide)⟩

/-- C4: after `insert_common_sense_rules`, the rule set can retain a rule
whose antecedents are a strict superset of a kept rule with the same
consequents and confidence: inserting `{b} => {x} (1)` and then
`{a, b} => {x} (1)` keeps both rules, because the superset-discarding pass
only checks rules that sort before the candidate, and `["a", "b"]` sorts
before `["b"]`. -/
theorem insertCommonSenseRules_keeps_superset :
    exRulesDb.commonSenseRules =
      [{ antecedentsNormalized := ["a", "b"], consequentsNormalized := ["x"], confidence := 1 },
       { antecedentsNormalized := ["b"], consequentsNormalized := ["x"], confidence := 1 }] := by
  rfl

end Ambre
